import Mathlib

/-!
# go-gpss: transactions, facilities, bifacilities and checks

A shallow embedding of the blocks of the `gpss` package and the properties
of its transaction and block contract.

Conventions of the embedding.

* Go `int` is `Int` in the blocks: the clock, the counters and the delays
  of a run stay far from the bounds of a machine word.  The arithmetic on
  the ticks and on the advance time of a transaction is also given on 64-bit
  machine integers, with its wrap-around (`wrapInt`, `Machine`); what holds
  of these two fields for every value of a Go `int` is stated there.  The
  `float64` accumulators only ever receive integer increments and are kept
  as the exact integer they hold.
* A Go value of type `interface{}` is an `Iface`: `none` is the nil
  interface, `some v` a value with a comparable dynamic type.
* A transaction is a mutable object behind a pointer.  Every operation takes
  the state of the objects it can write and returns their new state.
* A block reaches its successors through `GetDst()`.  The successor list is
  an explicit argument: each successor is the `AppendTransact` of some other
  block, a function on the state `σ` of the rest of the network.
* A holding set lists the keys of its items; the transaction objects the
  items point to are kept beside the block in a `Store` when a whole
  `HandleTransacts` is followed, and in a `Memory` of structs and maps at
  addresses when aliasing is the question (`Copy`).
* The goroutines of one tick are followed step by step under a scheduler
  that picks the next step (`tickStep`); a single task is also given as a
  function (`HandleTransacts`).  A `Network` is a pipeline of Advance and
  Facility blocks with the objects of their items; its tasks run the
  `HandleTransact` of the blocks.
* A call that panics (a failed type assertion) returns `none`.
* Logging (`PrintInfo`, the trace logger) writes no model state and is left
  out.  The model time read through `GetPipeline().GetModelTime()` is an
  explicit argument.
-/

namespace Gpss

/-! ## Parameters -/

/-- The dynamic values a transaction parameter can carry. -/
inductive GoValue where
  | str (s : String)
  | int (i : Int)
  | bool (b : Bool)
  deriving DecidableEq, Repr

/-- A Go `interface{}`: `none` is nil. -/
abbrev Iface := Option GoValue

/-- Modelled from the spec: the `Parameter` struct, whose declaration is not
among the sources; its two fields are the ones the composite literals
`Parameter{Name: ..., Value: ...}` of the blocks name. -/
structure Parameter where
  Name : String
  Value : Iface
  deriving DecidableEq, Repr

/-- A Go `map[string]interface{}` as an association list; the first entry of
a key is the one the map holds. -/
abbrev ParamMap := List (String × Iface)

/-- The map index expression `m[k]`: nil when the key is missing. -/
def mapIndex (m : ParamMap) (k : String) : Iface :=
  match m.lookup k with
  | some v => v
  | none => none

/-- The builtin `delete(m, k)`. -/
def mapDelete (m : ParamMap) (k : String) : ParamMap :=
  m.filter (fun e => e.1 != k)

/-- The assignment `m[k] = v`. -/
def mapAssign (m : ParamMap) (k : String) (v : Iface) : ParamMap :=
  (k, v) :: mapDelete m k

/-- Whether the map has the key. -/
def mapHasKey (m : ParamMap) (k : String) : Bool :=
  (m.lookup k).isSome

/-- The type assertion `x.(string)`: `none` is the run-time panic on a value
that is not a string. -/
def assertString : Iface → Option String
  | some (GoValue.str s) => some s
  | _ => none

/-! ## Transaction -/

/-- Split bookkeeping of a transaction. -/
structure Parts where
  part : Int
  parts : Int
  parent_id : Int
  deriving DecidableEq, Repr

/-- The `Transaction` struct; `pipe` is left out (the model time it gives is
passed to `NewTransaction` and `Kill`). -/
structure Transaction where
  id : Int
  born : Int
  rip : Int
  advance : Int
  ticks : Int
  holderName : String
  timequeue : Int
  parts : Parts
  parameters : ParamMap
  deriving DecidableEq, Repr

/-- `NewTransaction(id, pipe)`, with `modelTime = pipe.GetModelTime()`. -/
def NewTransaction (id : Int) (modelTime : Int) : Transaction :=
  { id := id, born := modelTime, rip := 0, advance := 0, ticks := 0,
    holderName := "", timequeue := 0, parts := ⟨0, 0, 0⟩, parameters := [] }

namespace Transaction

def Copy (t : Transaction) : Transaction :=
  { id := t.id, born := t.born, advance := t.advance, ticks := t.ticks,
    rip := t.rip, timequeue := t.timequeue, holderName := t.holderName,
    parts := t.parts,
    parameters := t.parameters.foldr (fun e m => mapAssign m e.1 e.2) [] }

def SetID (t : Transaction) (id : Int) : Transaction :=
  { t with id := id }

def GetId (t : Transaction) : Int := t.id

def GetLife (t : Transaction) : Int := t.rip - t.born

/-- `SetTiсks`: set ticks and increase advance by the same value.  The sum
is the exact one; `Machine.Transaction.SetTicks` is the operation on machine
integers, the same as long as the sum is in the range. -/
def SetTicks (t : Transaction) (interval : Int) : Transaction :=
  { t with ticks := interval, advance := t.advance + interval }

/-- `InqQueueTime`, the increments being the exact ones;
`Machine.Transaction.InqQueueTime` is the operation on machine integers. -/
def InqQueueTime (t : Transaction) : Transaction :=
  { t with timequeue := t.timequeue + 1, advance := t.advance + 1 }

def GetTicks (t : Transaction) : Int := t.ticks

def IsTheEnd (t : Transaction) : Bool := t.ticks == 0

def SetHolderName (t : Transaction) (holderName : String) : Transaction :=
  { t with holderName := holderName }

def GetHolderName (t : Transaction) : String := t.holderName

/-- `DecTiсks`: decrement ticks, with a floor at zero.  The decrement is the
exact one; `Machine.Transaction.DecTicks` is the operation on machine
integers, the same for ticks above the least machine integer. -/
def DecTicks (t : Transaction) : Transaction :=
  let t1 := { t with ticks := t.ticks - 1 }
  if t1.ticks < 0 then { t1 with ticks := 0 } else t1

/-- `Kill`, with `modelTime = t.GetPipeline().GetModelTime()`. -/
def Kill (t : Transaction) (modelTime : Int) : Transaction :=
  { t with rip := modelTime }

def IsKilled (t : Transaction) : Bool := t.rip != 0

def GetQueueTime (t : Transaction) : Int := t.timequeue

def GetAdvanceTime (t : Transaction) : Int := t.advance

def ResetQueueTime (t : Transaction) : Transaction :=
  { t with timequeue := 0 }

def GetParts (t : Transaction) : Int × Int × Int :=
  (t.parts.part, t.parts.parts, t.parts.parent_id)

def SetParts (t : Transaction) (part parts parent_id : Int) : Transaction :=
  { t with parts := ⟨part, parts, parent_id⟩ }

/-- One round of the loop of `SetParameters`. -/
def setParameter (m : ParamMap) (v : Parameter) : ParamMap :=
  if v.Value != none then mapAssign m v.Name v.Value else mapDelete m v.Name

def SetParameters (t : Transaction) (parameters : List Parameter) : Transaction :=
  { t with parameters := parameters.foldl setParameter t.parameters }

def GetAllParameters (t : Transaction) : ParamMap := t.parameters

def GetParameterByName (t : Transaction) (name : String) : Iface :=
  mapIndex t.parameters name

end Transaction

/-! ## The block base -/

/-- Modelled from the spec: the holding set `tb` of `BaseObj`, whose code is
not among the sources: "a transaction-keyed buffer supporting push, remove,
count, and enumerate-as-snapshot".  The key is the transaction id (the
report code reads it with `GetItem(obj.HoldedTransactID)`); the table lists
the keys it holds, the transaction objects themselves are passed to the
operations. -/
structure TransactTable where
  items : List Int
  deriving DecidableEq, Repr

namespace TransactTable

def empty : TransactTable := ⟨[]⟩

def GetLen (tb : TransactTable) : Nat := tb.items.length

def Push (tb : TransactTable) (transact : Transaction) : TransactTable :=
  if transact.GetId ∈ tb.items then tb else ⟨tb.items ++ [transact.GetId]⟩

def Remove (tb : TransactTable) (transact : Transaction) : TransactTable :=
  ⟨tb.items.filter (fun k => k != transact.GetId)⟩

def GetItems (tb : TransactTable) : List Int := tb.items

def Holds (tb : TransactTable) (transact : Transaction) : Prop :=
  transact.GetId ∈ tb.items

instance (tb : TransactTable) (transact : Transaction) : Decidable (tb.Holds transact) := by
  unfold Holds; infer_instance

end TransactTable

/-- The `AppendTransact` of a block of the rest of the network, whose state
is `σ`: the answer, the transaction as the block leaves it, and the new
state. -/
abbrev Offer (σ : Type) := Transaction → σ → Bool × Transaction × σ

/-- The routing loop `for _, v := range obj.GetDst() { if v.AppendTransact(transact) { ... } }`:
the successors are tried in order up to the first that accepts. -/
def offerDst {σ : Type} : List (Offer σ) → Offer σ
  | [], transact, s => (false, transact, s)
  | v :: rest, transact, s =>
    match v transact s with
    | (true, transact1, s1) => (true, transact1, s1)
    | (false, transact1, s1) => offerDst rest transact1 s1

/-- The statement shared by `Facility.HandleTransact` and
`OutFacility.HandleTransact`: the "Facility" parameter is set to the backup
name when that is not the empty string, and cleared otherwise. -/
def restoreFacilityParameter (bakupFacilityName : String) (transact : Transaction) :
    Transaction :=
  if bakupFacilityName != "" then
    transact.SetParameters [⟨"Facility", some (GoValue.str bakupFacilityName)⟩]
  else
    transact.SetParameters [⟨"Facility", none⟩]

/-! ## Facility -/

/-- The `Facility` struct: the name and holding set of its `BaseObj`, and its
own fields. -/
structure Facility where
  name : String
  tb : TransactTable
  Interval : Int
  Modificator : Int
  HoldedTransactID : Int
  bakupFacilityName : String
  sum_advance : Int
  cnt_transact : Int
  deriving DecidableEq, Repr

def NewFacility (name : String) (interval modificator : Int) : Facility :=
  { name := name, tb := TransactTable.empty, Interval := interval,
    Modificator := modificator, HoldedTransactID := -1,
    bakupFacilityName := "", sum_advance := 0, cnt_transact := 0 }

namespace Facility

/-- `GenerateAdvance`; `rnd` is what `GetRandom(-Modificator, Modificator)`
returns when it is called.  The sum is the exact one;
`Machine.Facility.GenerateAdvance` is the operation on machine integers. -/
def GenerateAdvance (obj : Facility) (rnd : Int) : Int :=
  if obj.Modificator > 0 then obj.Interval + rnd else obj.Interval

def AppendTransact (obj : Facility) (rnd : Int) (transact : Transaction) :
    Option (Bool × Facility × Transaction) :=
  if obj.tb.GetLen != 0 then
    some (false, obj, transact)
  else
    let transact := transact.SetHolderName obj.name
    let advance := obj.GenerateAdvance rnd
    let obj := { obj with sum_advance := obj.sum_advance + advance }
    let transact := transact.SetTicks advance
    let bakup : Option String :=
      if transact.GetParameterByName "Facility" != none then
        assertString (transact.GetParameterByName "Facility")
      else some obj.bakupFacilityName
    match bakup with
    | none => none
    | some b =>
      let obj := { obj with bakupFacilityName := b }
      let transact := transact.SetParameters [⟨"Facility", some (GoValue.str obj.name)⟩]
      let obj := { obj with HoldedTransactID := transact.GetId }
      let obj := { obj with tb := obj.tb.Push transact }
      let obj := { obj with cnt_transact := obj.cnt_transact + 1 }
      some (true, obj, transact)

def IsEmpty (obj : Facility) : Bool :=
  if obj.tb.GetLen != 0 then false else true

end Facility

/-- A successor of a Facility: the Facility itself (with the value its
jitter generator would return), or a block of the rest of the network. -/
inductive FacilitySucc (σ : Type) where
  | self (rnd : Int)
  | ext (v : Offer σ)

namespace Facility

/-- The loop over `obj.GetDst()` in `HandleTransact`, up to the first
successor that accepts. -/
def offerSuccs {σ : Type} : List (FacilitySucc σ) → Facility → Transaction → σ →
    Option (Bool × Facility × Transaction × σ)
  | [], obj, transact, s => some (false, obj, transact, s)
  | FacilitySucc.self rnd :: rest, obj, transact, s =>
    match obj.AppendTransact rnd transact with
    | none => none
    | some (true, obj1, transact1) => some (true, obj1, transact1, s)
    | some (false, obj1, transact1) => offerSuccs rest obj1 transact1 s
  | FacilitySucc.ext v :: rest, obj, transact, s =>
    match v transact s with
    | (true, transact1, s1) => some (true, obj, transact1, s1)
    | (false, transact1, s1) => offerSuccs rest obj transact1 s1

def HandleTransact {σ : Type} (obj : Facility) (dst : List (FacilitySucc σ))
    (transact : Transaction) (s : σ) : Option (Facility × Transaction × σ) :=
  let transact := transact.DecTicks
  if transact.IsTheEnd then
    let transact := restoreFacilityParameter obj.bakupFacilityName transact
    match offerSuccs dst obj transact s with
    | none => none
    | some (true, obj1, transact1, s1) =>
      let obj1 := { obj1 with tb := obj1.tb.Remove transact1 }
      let obj1 := { obj1 with HoldedTransactID := -1 }
      some (obj1, transact1, s1)
    | some (false, obj1, transact1, s1) =>
      some (obj1, transact1.SetParameters [⟨"Facility", some (GoValue.str obj1.name)⟩], s1)
  else
    some (obj, transact, s)

end Facility

/-- The states of a Facility that `NewFacility` and any sequence of
`AppendTransact` and `HandleTransact` calls lead to, the successors being
blocks on a state `σ` or the Facility itself. -/
inductive Facility.Reachable (σ : Type) : Facility → Prop where
  | init (name : String) (interval modificator : Int) :
      Facility.Reachable σ (NewFacility name interval modificator)
  | append {obj : Facility} (rnd : Int) (transact : Transaction) (b : Bool)
      (obj1 : Facility) (transact1 : Transaction) :
      Facility.Reachable σ obj →
      obj.AppendTransact rnd transact = some (b, obj1, transact1) →
      Facility.Reachable σ obj1
  | handle {obj : Facility} (dst : List (FacilitySucc σ)) (transact : Transaction) (s : σ)
      (obj1 : Facility) (transact1 : Transaction) (s1 : σ) :
      Facility.Reachable σ obj →
      obj.HandleTransact dst transact s = some (obj1, transact1, s1) →
      Facility.Reachable σ obj1

/-! ## Bifacility -/

/-- The `InFacility` struct: the name and holding set of its `BaseObj`, and
its own fields. -/
structure InFacility where
  name : String
  tb : TransactTable
  HoldedTransactID : Int
  bakupFacilityName : String
  cnt_transact : Int
  sum_advance : Int
  timeOfInput : Int
  deriving DecidableEq, Repr

/-- The `OutFacility` struct.  `inFacility` is a pointer in the source: the
field holds the state of the entry block it points to.  The holding set of
the exit block is the one of the entry block (`outObj.tb = inObj.tb`). -/
structure OutFacility where
  name : String
  inFacility : InFacility
  deriving DecidableEq, Repr

/-- The holding set `obj.tb` of the exit block, shared with the entry block. -/
def OutFacility.tb (obj : OutFacility) : TransactTable := obj.inFacility.tb

/-- `NewBifacility`.  The source returns the two blocks; the entry block is
the `inFacility` of the exit block returned here.  No field of the entry
block but its name and holding set is written, so `HoldedTransactID` has
the zero value of `int`. -/
def NewBifacility (name : String) : OutFacility :=
  let inObj : InFacility :=
    { name := name, tb := TransactTable.empty, HoldedTransactID := 0,
      bakupFacilityName := "", cnt_transact := 0, sum_advance := 0, timeOfInput := 0 }
  { name := name ++ "_OUT", inFacility := inObj }

namespace InFacility

def HandleTransact {σ : Type} (_obj : InFacility) (dst : List (Offer σ))
    (transact : Transaction) (s : σ) : Transaction × σ :=
  (offerDst dst transact s).2

def AppendTransact {σ : Type} (obj : InFacility) (dst : List (Offer σ)) (modelTime : Int)
    (transact : Transaction) (s : σ) : Option (Bool × InFacility × Transaction × σ) :=
  if obj.tb.GetLen != 0 then
    some (false, obj, transact, s)
  else
    let transact := transact.SetHolderName obj.name
    let bakup : Option String :=
      if transact.GetParameterByName "Facility" != none then
        assertString (transact.GetParameterByName "Facility")
      else some obj.bakupFacilityName
    match bakup with
    | none => none
    | some b =>
      let obj := { obj with bakupFacilityName := b }
      let transact := transact.SetParameters [⟨"Facility", some (GoValue.str obj.name)⟩]
      let obj := { obj with HoldedTransactID := transact.GetId }
      let obj := { obj with tb := obj.tb.Push transact }
      let obj := { obj with cnt_transact := obj.cnt_transact + 1 }
      let obj := { obj with timeOfInput := modelTime }
      let r := obj.HandleTransact dst transact s
      some (true, obj, r.1, r.2)

def IsEmpty (obj : InFacility) : Bool :=
  if obj.tb.GetLen != 0 then false else true

end InFacility

namespace OutFacility

def HandleTransact {σ : Type} (obj : OutFacility) (dst : List (Offer σ)) (modelTime : Int)
    (transact : Transaction) (s : σ) : OutFacility × Transaction × σ :=
  let transact := restoreFacilityParameter obj.inFacility.bakupFacilityName transact
  match offerDst dst transact s with
  | (true, transact1, s1) =>
    let advance := modelTime - obj.inFacility.timeOfInput
    let inObj := { obj.inFacility with sum_advance := obj.inFacility.sum_advance + advance }
    let inObj := { inObj with tb := inObj.tb.Remove transact1 }
    let inObj := { inObj with HoldedTransactID := -1 }
    ({ obj with inFacility := inObj }, transact1, s1)
  | (false, transact1, s1) =>
    (obj, transact1.SetParameters [⟨"Facility", some (GoValue.str obj.name)⟩], s1)

def AppendTransact {σ : Type} (obj : OutFacility) (dst : List (Offer σ)) (modelTime : Int)
    (transact : Transaction) (s : σ) : Bool × OutFacility × Transaction × σ :=
  if obj.inFacility.HoldedTransactID != transact.GetId then
    (false, obj, transact, s)
  else
    let r := obj.HandleTransact dst modelTime transact s
    if r.1.tb.GetLen == 0 then (true, r) else (false, r)

end OutFacility

/-- The states of a Bifacility that `NewBifacility` and any sequence of
offers to its entry and its exit lead to, the successors of both being
blocks on a state `σ`. -/
inductive Bifacility.Reachable (σ : Type) : OutFacility → Prop where
  | init (name : String) : Bifacility.Reachable σ (NewBifacility name)
  | enter {obj : OutFacility} (dst : List (Offer σ)) (modelTime : Int)
      (transact : Transaction) (s : σ) (b : Bool) (inObj : InFacility)
      (transact1 : Transaction) (s1 : σ) :
      Bifacility.Reachable σ obj →
      obj.inFacility.AppendTransact dst modelTime transact s = some (b, inObj, transact1, s1) →
      Bifacility.Reachable σ { obj with inFacility := inObj }
  | leave {obj : OutFacility} (dst : List (Offer σ)) (modelTime : Int)
      (transact : Transaction) (s : σ) (b : Bool) (obj1 : OutFacility)
      (transact1 : Transaction) (s1 : σ) :
      Bifacility.Reachable σ obj →
      obj.AppendTransact dst modelTime transact s = (b, obj1, transact1, s1) →
      Bifacility.Reachable σ obj1

/-! ## Check -/

/-- The data fields of the `Check` struct: the name of its `BaseObj`, the
constraints and the two counters. -/
structure CheckData where
  name : String
  parameters : List Parameter
  cnt_true : Int
  cnt_false : Int
  deriving DecidableEq, Repr

/-- The `HandleCheckingFunc` signature; the predicate reads the block and the
transaction. -/
abbrev HandleCheckingFunc := CheckData → Transaction → Bool

/-- The `Check` struct, with its predicate and its false-path block, a block
of the rest of the network when there is one. -/
structure Check (σ : Type) extends CheckData where
  HandleChecking : HandleCheckingFunc
  falseObj : Option (Offer σ)

/-- The loop of `Checking` over the constraints. -/
def checkingLoop : List Parameter → Transaction → Bool
  | [], _ => true
  | v :: rest, transact =>
    if transact.GetParameterByName v.Name != v.Value then false
    else checkingLoop rest transact

/-- `Checking`, the default predicate. -/
def Checking : HandleCheckingFunc :=
  fun obj transact => checkingLoop obj.parameters transact

def NewCheck {σ : Type} (name : String) (hndl : Option HandleCheckingFunc)
    (falseObj : Option (Offer σ)) (parameters : List Parameter) : Check σ :=
  { name := name, parameters := parameters, cnt_true := 0, cnt_false := 0,
    falseObj := falseObj,
    HandleChecking := match hndl with
      | some h => h
      | none => Checking }

def Check.AppendTransact {σ : Type} (obj : Check σ) (dst : List (Offer σ))
    (transact : Transaction) (s : σ) : Bool × Check σ × Transaction × σ :=
  if !obj.HandleChecking obj.toCheckData transact then
    let obj := { obj with cnt_false := obj.cnt_false + 1 }
    match obj.falseObj with
    | some f =>
      match f transact s with
      | (true, transact1, s1) => (true, obj, transact1, s1)
      | (false, transact1, s1) => (false, obj, transact1, s1)
    | none => (false, obj, transact, s)
  else
    let obj := { obj with cnt_true := obj.cnt_true + 1 }
    let r := offerDst dst transact s
    (r.1, obj, r.2.1, r.2.2)

/-! ## Observing the offers a block makes -/

/-- Which block of a Check an offer went to: the successor at an index of
`GetDst()`, or the false-path block. -/
inductive Port where
  | dst (i : Nat)
  | falseObj
  deriving DecidableEq, Repr

/-- A block that behaves as `v` and records, in a log kept beside the state,
the port it was reached through and its answer. -/
def observed {σ : Type} (p : Port) (v : Offer σ) : Offer (σ × List (Port × Bool)) :=
  fun transact s =>
    let r := v transact s.1
    (r.1, r.2.1, (r.2.2, s.2 ++ [(p, r.1)]))

/-- The successors `dst`, each observed under its index, counted from `i`. -/
def observedDst {σ : Type} : Nat → List (Offer σ) → List (Offer (σ × List (Port × Bool)))
  | _, [] => []
  | i, v :: rest => observed (Port.dst i) v :: observedDst (i + 1) rest

/-- A Check whose false-path block is observed. -/
def Check.observe {σ : Type} (obj : Check σ) : Check (σ × List (Port × Bool)) :=
  { obj.toCheckData with
    HandleChecking := obj.HandleChecking
    falseObj := obj.falseObj.map (observed Port.falseObj) }

/-- A block that accepts every transaction and records it as offered. -/
def recordingSink : Offer (List Transaction) :=
  fun transact s => (true, transact, s ++ [transact])

/-- A block that rejects every transaction and records it as offered. -/
def rejectingSink : Offer (List Transaction) :=
  fun transact s => (false, transact, s ++ [transact])

/-! ## Scenarios -/

/-- A transaction that is inside an outer facility named "Outer". -/
def insideOuter (id : Int) (modelTime : Int) : Transaction :=
  (NewTransaction id modelTime).SetParameters [⟨"Facility", some (GoValue.str "Outer")⟩]

/-- Facility "F" with Interval 1 takes transaction 1, which is inside
"Outer", and hands it to a sink on the next tick; it then takes
transaction 2, created with no parameter, and hands it to the sink in turn.
The result lists: the two answers of AppendTransact, the "Facility"
parameter of transaction 2 and whether it has the key before it is offered,
the holding set between the two occupancies, and the "Facility" parameter
of what the sink was offered in the second hand-off. -/
def facilityTwoOccupancies :
    Option (Bool × Bool × Iface × Bool × TransactTable × List Iface) :=
  (Facility.AppendTransact (NewFacility "F" 1 0) 0 (insideOuter 1 0)).bind fun r1 =>
  (r1.2.1.HandleTransact [FacilitySucc.ext recordingSink] r1.2.2 []).bind fun r2 =>
  (r2.1.AppendTransact 0 (NewTransaction 2 1)).bind fun r3 =>
  (r3.2.1.HandleTransact [FacilitySucc.ext recordingSink] r3.2.2 []).map fun r4 =>
  (r1.1, r3.1, (NewTransaction 2 1).GetParameterByName "Facility",
    mapHasKey (NewTransaction 2 1).GetAllParameters "Facility", r2.1.tb,
    r4.2.2.map fun t => t.GetParameterByName "Facility")

/-- Bifacility "B": transaction 1, which is inside "Outer", enters at time 0
and leaves at time 2 to a sink; transaction 2, created with no parameter,
enters at time 3 and leaves at time 5 to the sink.  The entry block has no
successor.  The result lists: the answers of the two entries and of the two
exits, the "Facility" parameter of transaction 2 and whether it has the key
before entry, the holding set between the two occupancies, and the
"Facility" parameter of what the sink was offered at the second exit. -/
def bifacilityTwoOccupancies :
    Option (Bool × Bool × Bool × Bool × Iface × Bool × TransactTable × List Iface) :=
  let b0 := NewBifacility "B"
  (b0.inFacility.AppendTransact ([] : List (Offer (List Transaction))) 0
      (insideOuter 1 0) []).bind fun r1 =>
  let x1 := OutFacility.AppendTransact { b0 with inFacility := r1.2.1 } [recordingSink] 2
      r1.2.2.1 []
  (x1.2.1.inFacility.AppendTransact ([] : List (Offer (List Transaction))) 3
      (NewTransaction 2 3) []).map fun r2 =>
  let x2 := OutFacility.AppendTransact { x1.2.1 with inFacility := r2.2.1 } [recordingSink] 5
      r2.2.2.1 []
  (r1.1, x1.1, r2.1, x2.1, (NewTransaction 2 3).GetParameterByName "Facility",
    mapHasKey (NewTransaction 2 3).GetAllParameters "Facility", x1.2.1.tb,
    x2.2.2.2.map fun t => t.GetParameterByName "Facility")

/-- Facility "F" while it holds transaction 1. -/
def heldFacility : Facility := ⟨"F", ⟨[1]⟩, 1, 0, 1, "", 1, 1⟩

/-- Transaction 1 as Facility "F" holds it, one tick before the end of its
delay. -/
def heldTransaction : Transaction :=
  ⟨1, 0, 0, 1, 1, "F", 0, ⟨0, 0, 0⟩, [("Facility", some (GoValue.str "F"))]⟩

/-- A transaction with id 0 is offered, at model time 0, to the exit of
Bifacility "B" as `NewBifacility` returns it; the successor of the exit
rejects everything. -/
def exitOfNewBifacility : Bool × OutFacility × Transaction × List Transaction :=
  (NewBifacility "B").AppendTransact [rejectingSink] 0 (insideOuter 0 0) []

/-- Bifacility "B" once transaction 1 has entered at model time 4, the entry
block having no successor. -/
def occupiedBifacility : OutFacility :=
  ⟨"B_OUT", ⟨"B", ⟨[1]⟩, 1, "", 1, 0, 4⟩⟩

/-- Transaction 1 as it is after it entered Bifacility "B". -/
def enteredTransaction : Transaction :=
  ⟨1, 0, 0, 0, 0, "B", 0, ⟨0, 0, 0⟩, [("Facility", some (GoValue.str "B"))]⟩

/-! ## Advance -/

/-- The `Advance` struct: the name and holding set of its `BaseObj`, and its
own fields. -/
structure Advance where
  name : String
  tb : TransactTable
  Interval : Int
  Modificator : Int
  sum_advance : Int
  sum_transact : Int
  deriving DecidableEq, Repr

def NewAdvance (name : String) (interval modificator : Int) : Advance :=
  { name := name, tb := TransactTable.empty, Interval := interval,
    Modificator := modificator, sum_advance := 0, sum_transact := 0 }

/-- The transaction objects the items of a holding set point to, by key. -/
abbrev Store := List (Int × Transaction)

/-- The object an item points to. -/
def Store.get (store : Store) (key : Int) : Option Transaction :=
  store.lookup key

/-- The object under a key after a method has written it. -/
def Store.put (store : Store) (key : Int) (transact : Transaction) : Store :=
  (key, transact) :: store.filter (fun e => e.1 != key)

namespace Advance

/-- `GenerateAdvance`; `rnd` is what `GetRandom(-Modificator, Modificator)`
returns when it is called.  The sum is the exact one;
`Machine.Advance.GenerateAdvance` is the operation on machine integers. -/
def GenerateAdvance (obj : Advance) (rnd : Int) : Int :=
  if obj.Modificator > 0 then obj.Interval + rnd else obj.Interval

def HandleTransact {σ : Type} (obj : Advance) (dst : List (Offer σ))
    (transact : Transaction) (s : σ) : Advance × Transaction × σ :=
  let transact := transact.DecTicks
  if transact.IsTheEnd then
    match offerDst dst transact s with
    | (true, transact1, s1) => ({ obj with tb := obj.tb.Remove transact1 }, transact1, s1)
    | (false, transact1, s1) => (obj, transact1, s1)
  else
    (obj, transact, s)

/-- The loop of the task of `HandleTransacts` over the snapshot `transacts`:
each item is handled through the object it points to. -/
def handleItems {σ : Type} (dst : List (Offer σ)) :
    List Int → Advance → Store → σ → Advance × Store × σ
  | [], obj, store, s => (obj, store, s)
  | key :: rest, obj, store, s =>
    match store.get key with
    | none => handleItems dst rest obj store s
    | some transact =>
      let r := obj.HandleTransact dst transact s
      handleItems dst rest r.1 (store.put key r.2.1) r.2.2

/-- `HandleTransacts`: what the call and the task it starts do to the block,
to the objects of its items and to the rest of the network, the task
running alone. -/
def HandleTransacts {σ : Type} (obj : Advance) (dst : List (Offer σ)) (store : Store)
    (s : σ) : Advance × Store × σ :=
  if obj.Interval == 0 || obj.tb.GetLen == 0 then
    (obj, store, s)
  else
    handleItems dst obj.tb.GetItems obj store s

def AppendTransact (obj : Advance) (rnd : Int) (transact : Transaction) :
    Bool × Advance × Transaction :=
  let transact := transact.SetHolderName obj.name
  let advance := obj.GenerateAdvance rnd
  let obj := { obj with sum_advance := obj.sum_advance + advance }
  let transact := transact.SetTicks advance
  let obj := { obj with tb := obj.tb.Push transact }
  let obj := { obj with sum_transact := obj.sum_transact + 1 }
  (true, obj, transact)

/-- `HandleTransact` called on the same transaction `k` times in a row. -/
def handleTimes {σ : Type} (dst : List (Offer σ)) :
    Nat → Advance × Transaction × σ → Advance × Transaction × σ
  | 0, st => st
  | k + 1, st =>
    let st1 := handleTimes dst k st
    st1.1.HandleTransact dst st1.2.1 st1.2.2

/-- `HandleTransacts` called `k` times in a row, one call per tick. -/
def ticksTimes {σ : Type} (dst : List (Offer σ)) :
    Nat → Advance × Store × σ → Advance × Store × σ
  | 0, st => st
  | k + 1, st =>
    let st1 := ticksTimes dst k st
    st1.1.HandleTransacts dst st1.2.1 st1.2.2

end Advance

/-- Advance "A" with Interval 2 and Modificator 0, holding nothing. -/
def delayTwo : Advance := NewAdvance "A" 2 0

/-- Advance "Z" with Interval 0, holding transaction 7. -/
def delayZero : Advance := ⟨"Z", ⟨[7]⟩, 0, 0, 0, 1⟩

/-! ## Transactions in memory -/

/-- A `Transaction` struct in memory: its fields, the field `parameters`
being the address of a map. -/
structure TransactionCell where
  id : Int
  born : Int
  rip : Int
  advance : Int
  ticks : Int
  holderName : String
  timequeue : Int
  parts : Parts
  parameters : Nat
  deriving DecidableEq, Repr

/-- The structs made by `&Transaction{}` and the maps made by `make`, each
at its address. -/
structure Memory where
  cells : List TransactionCell
  maps : List ParamMap
  deriving DecidableEq, Repr

/-- The transaction a struct and the content of its map stand for. -/
def TransactionCell.view (cell : TransactionCell) (m : ParamMap) : Transaction :=
  ⟨cell.id, cell.born, cell.rip, cell.advance, cell.ticks, cell.holderName, cell.timequeue,
    cell.parts, m⟩

/-- The struct with the fields of `t`, its field `parameters` being `addr`. -/
def TransactionCell.ofFields (t : Transaction) (addr : Nat) : TransactionCell :=
  ⟨t.id, t.born, t.rip, t.advance, t.ticks, t.holderName, t.timequeue, t.parts, addr⟩

namespace Memory

/-- What the getters of the transaction at address `p` return: its fields and
the content of the map its `parameters` field points to. -/
def read (h : Memory) (p : Nat) : Option Transaction :=
  match h.cells[p]? with
  | none => none
  | some cell =>
    match h.maps[cell.parameters]? with
    | none => none
    | some m => some (cell.view m)

/-- A method call on the transaction at address `p`.  A method writes fields
of the struct at `p` and entries of the map the struct points to; no method
assigns the field `parameters`. -/
def call (h : Memory) (p : Nat) (method : Transaction → Transaction) : Memory :=
  match h.cells[p]? with
  | none => h
  | some cell =>
    match h.read p with
    | none => h
    | some t =>
      { cells := h.cells.set p (TransactionCell.ofFields (method t) cell.parameters),
        maps := h.maps.set cell.parameters (method t).parameters }

/-- `Copy` on the transaction at address `p`: a new struct and a new map are
allocated, the fields are assigned and the entries of the map are copied;
the address of the new struct is returned. -/
def Copy (h : Memory) (p : Nat) : Option (Memory × Nat) :=
  match h.read p with
  | none => none
  | some t =>
    some ({ cells := h.cells ++ [TransactionCell.ofFields t.Copy h.maps.length],
            maps := h.maps ++ [t.Copy.parameters] },
          h.cells.length)

end Memory

/-! ## Blocks with the objects they hold -/

/-- An Advance as a successor: its `AppendTransact`, the state of the rest of
the network being the Advance. -/
def Advance.offer (rnd : Int) : Offer Advance :=
  fun transact obj =>
    ((obj.AppendTransact rnd transact).1, (obj.AppendTransact rnd transact).2.2,
      (obj.AppendTransact rnd transact).2.1)

/-- A successor that leaves the id of an offered transaction as it is, and
its holderName too when it rejects the transaction. -/
def Offer.Quiet {σ : Type} (v : Offer σ) : Prop :=
  ∀ (t : Transaction) (s : σ), (v t s).2.1.GetId = t.GetId ∧
    ((v t s).1 = false → (v t s).2.1.GetHolderName = t.GetHolderName)

namespace Facility

/-- The loop of the task of `HandleTransacts` over the snapshot `transacts`. -/
def handleItems {σ : Type} (dst : List (FacilitySucc σ)) :
    List Int → Facility → Store → σ → Option (Facility × Store × σ)
  | [], obj, store, s => some (obj, store, s)
  | key :: rest, obj, store, s =>
    match store.get key with
    | none => handleItems dst rest obj store s
    | some transact =>
      match obj.HandleTransact dst transact s with
      | none => none
      | some (obj1, transact1, s1) => handleItems dst rest obj1 (store.put key transact1) s1

/-- `HandleTransacts`: what the call and the task it starts do to the block,
to the objects of its items and to the rest of the network, the task
running alone. -/
def HandleTransacts {σ : Type} (obj : Facility) (dst : List (FacilitySucc σ)) (store : Store)
    (s : σ) : Option (Facility × Store × σ) :=
  if obj.tb.GetLen == 0 then
    some (obj, store, s)
  else
    handleItems dst obj.tb.GetItems obj store s

end Facility

/-- Every item of the holding set points to a transaction whose holderName
is the name of the block (and whose id is the key of the item). -/
def HeldByName (name : String) (tb : TransactTable) (store : Store) : Prop :=
  ∀ key ∈ tb.items, ∃ t : Transaction,
    store.get key = some t ∧ t.GetId = key ∧ t.GetHolderName = name

/-- The states of an Advance and of the objects of its items that `NewAdvance`,
accepted offers and ticks lead to, the successors being quiet blocks. -/
inductive Advance.ReachableWith (σ : Type) : Advance → Store → Prop where
  | init (name : String) (interval modificator : Int) :
      Advance.ReachableWith σ (NewAdvance name interval modificator) []
  | accept {obj : Advance} {store : Store} (rnd : Int) (transact : Transaction) :
      Advance.ReachableWith σ obj store →
      Advance.ReachableWith σ (obj.AppendTransact rnd transact).2.1
        (store.put transact.GetId (obj.AppendTransact rnd transact).2.2)
  | tick {obj : Advance} {store : Store} (dst : List (Offer σ)) (s : σ) :
      (∀ v ∈ dst, Offer.Quiet v) →
      Advance.ReachableWith σ obj store →
      Advance.ReachableWith σ (obj.HandleTransacts dst store s).1
        (obj.HandleTransacts dst store s).2.1

/-- The states of a Facility and of the objects of its items that
`NewFacility`, offers and ticks lead to, the successors being quiet blocks
of the rest of the network.  A rejected offer leaves the item of the
holding set as it is. -/
inductive Facility.ReachableWith (σ : Type) : Facility → Store → Prop where
  | init (name : String) (interval modificator : Int) :
      Facility.ReachableWith σ (NewFacility name interval modificator) []
  | accept {obj : Facility} {store : Store} (rnd : Int) (transact : Transaction)
      (obj1 : Facility) (transact1 : Transaction) :
      Facility.ReachableWith σ obj store →
      obj.AppendTransact rnd transact = some (true, obj1, transact1) →
      Facility.ReachableWith σ obj1 (store.put transact.GetId transact1)
  | reject {obj : Facility} {store : Store} (rnd : Int) (transact : Transaction)
      (obj1 : Facility) (transact1 : Transaction) :
      Facility.ReachableWith σ obj store →
      obj.AppendTransact rnd transact = some (false, obj1, transact1) →
      Facility.ReachableWith σ obj1 store
  | tick {obj : Facility} {store : Store} (dst : List (Offer σ)) (s : σ)
      (obj1 : Facility) (store1 : Store) (s1 : σ) :
      (∀ v ∈ dst, Offer.Quiet v) →
      Facility.ReachableWith σ obj store →
      obj.HandleTransacts (dst.map FacilitySucc.ext) store s = some (obj1, store1, s1) →
      Facility.ReachableWith σ obj1 store1

/-- Transaction 1 is offered at model time 0 to the entry of Bifacility "B",
whose only successor is Advance "A" with Interval 5. -/
def entryThenAdvance : Option (Bool × InFacility × Transaction × Advance) :=
  (NewBifacility "B").inFacility.AppendTransact [Advance.offer 0] 0 (NewTransaction 1 0)
    (NewAdvance "A" 5 0)

/-- A memory with one transaction, which is inside "Outer". -/
def memoryOne : Memory :=
  ⟨[TransactionCell.ofFields (insideOuter 1 0) 0], [(insideOuter 1 0).parameters]⟩

/-! ## Machine integers -/

/-- The least value of a Go `int` on a 64-bit platform, `-2^63`. -/
def minInt : Int := -9223372036854775808

/-- The greatest value of a Go `int` on a 64-bit platform, `2^63 - 1`. -/
def maxInt : Int := 9223372036854775807

/-- The value a Go `int` holds after an arithmetic operation whose exact
result is `x`: the result modulo `2^64`, in the range from `minInt` to
`maxInt`. -/
def wrapInt (x : Int) : Int :=
  (x + 9223372036854775808) % 18446744073709551616 - 9223372036854775808

/-- The values a Go `int` can hold. -/
def IsInt (x : Int) : Prop := minInt ≤ x ∧ x ≤ maxInt

instance (x : Int) : Decidable (IsInt x) := by
  unfold IsInt; infer_instance

/-! ## Transaction and delay arithmetic on machine integers

The operations whose arithmetic can leave the range of a Go `int`, with the
wrap-around of the machine.  They agree with the operations above as long as
the exact results stay in the range. -/

/-- `SetTiсks`, `t.advance += interval` wrapping around. -/
def Machine.Transaction.SetTicks (t : Transaction) (interval : Int) : Transaction :=
  { t with ticks := interval, advance := wrapInt (t.advance + interval) }

/-- `InqQueueTime`, `t.timequeue++` and `t.advance++` wrapping around. -/
def Machine.Transaction.InqQueueTime (t : Transaction) : Transaction :=
  { t with timequeue := wrapInt (t.timequeue + 1), advance := wrapInt (t.advance + 1) }

/-- `DecTiсks`, `t.ticks--` wrapping around before the test `t.ticks < 0`. -/
def Machine.Transaction.DecTicks (t : Transaction) : Transaction :=
  let t1 := { t with ticks := wrapInt (t.ticks - 1) }
  if t1.ticks < 0 then { t1 with ticks := 0 } else t1

/-- `Advance.GenerateAdvance`, `advance += GetRandom(...)` wrapping around;
`rnd` is what `GetRandom(-Modificator, Modificator)` returns. -/
def Machine.Advance.GenerateAdvance (obj : Advance) (rnd : Int) : Int :=
  if obj.Modificator > 0 then wrapInt (obj.Interval + rnd) else obj.Interval

/-- `Advance.AppendTransact` with the delay and the advance time computed on
machine integers. -/
def Machine.Advance.AppendTransact (obj : Advance) (rnd : Int) (transact : Transaction) :
    Bool × Advance × Transaction :=
  let transact := transact.SetHolderName obj.name
  let advance := Machine.Advance.GenerateAdvance obj rnd
  let obj := { obj with sum_advance := obj.sum_advance + advance }
  let transact := Machine.Transaction.SetTicks transact advance
  let obj := { obj with tb := obj.tb.Push transact }
  let obj := { obj with sum_transact := obj.sum_transact + 1 }
  (true, obj, transact)

/-- `Facility.GenerateAdvance`, `advance += GetRandom(...)` wrapping around. -/
def Machine.Facility.GenerateAdvance (obj : Facility) (rnd : Int) : Int :=
  if obj.Modificator > 0 then wrapInt (obj.Interval + rnd) else obj.Interval

/-- `Facility.AppendTransact` with the delay and the advance time computed on
machine integers. -/
def Machine.Facility.AppendTransact (obj : Facility) (rnd : Int) (transact : Transaction) :
    Option (Bool × Facility × Transaction) :=
  if obj.tb.GetLen != 0 then
    some (false, obj, transact)
  else
    let transact := transact.SetHolderName obj.name
    let advance := Machine.Facility.GenerateAdvance obj rnd
    let obj := { obj with sum_advance := obj.sum_advance + advance }
    let transact := Machine.Transaction.SetTicks transact advance
    let bakup : Option String :=
      if transact.GetParameterByName "Facility" != none then
        assertString (transact.GetParameterByName "Facility")
      else some obj.bakupFacilityName
    match bakup with
    | none => none
    | some b =>
      let obj := { obj with bakupFacilityName := b }
      let transact := transact.SetParameters [⟨"Facility", some (GoValue.str obj.name)⟩]
      let obj := { obj with HoldedTransactID := transact.GetId }
      let obj := { obj with tb := obj.tb.Push transact }
      let obj := { obj with cnt_transact := obj.cnt_transact + 1 }
      some (true, obj, transact)

/-- A new transaction after SetTicks(3): three ticks, advance time 3. -/
def threeTicks : Transaction := Machine.Transaction.SetTicks (NewTransaction 1 0) 3

/-- The entry of Bifacility "B" after transaction 1 entered at model time 0. -/
def heldEntry : InFacility := ⟨"B", ⟨[1]⟩, 1, "", 1, 0, 0⟩

/-- Transaction 1 as Advance "A" with Interval 5 accepted it from the entry of
Bifacility "B". -/
def forwardedTransaction : Transaction :=
  ⟨1, 0, 0, 5, 5, "A", 0, ⟨0, 0, 0⟩, [("Facility", some (GoValue.str "B"))]⟩

/-! ## Pipeline -/

/-- The `Pipeline` struct: the clock, the horizon and the channel `Done`
(`true` once it is closed).  The blocks `objects` are the state `σ` of the
network, passed beside the pipeline. -/
structure Pipeline where
  name : String
  modelTime : Int
  Done : Bool
  simTime : Int
  deriving DecidableEq, Repr

def NewPipeline (name : String) : Pipeline :=
  { name := name, modelTime := 0, Done := false, simTime := 0 }

/-- How the goroutine of `Start` stands after a number of loop rounds: it has
returned, it has panicked, or it is still looping. -/
inductive LoopOutcome (α : Type) where
  | returned (a : α)
  | panicked
  | looping
  deriving DecidableEq, Repr

namespace Pipeline

def GetSimTime (p : Pipeline) : Int := p.simTime

def GetModelTime (p : Pipeline) : Int := p.modelTime

/-- `Stop`: closing a closed channel panics (`none`). -/
def Stop (p : Pipeline) : Option Pipeline :=
  if p.Done then none else some { p with Done := true }

/-- The `for { select { ... } }` loop of the goroutine of `Start`, run for at
most `fuel` rounds of the loop.  `round` is one round of invocations: every
block's `HandleTransacts`, up to `wg.Wait()`.  The last component counts
the rounds of invocations made. -/
def loop {σ : Type} (round : σ → σ) (value : Int) :
    Nat → Pipeline → σ → Nat → LoopOutcome (Pipeline × σ × Nat)
  | 0, _, _, _ => LoopOutcome.looping
  | fuel + 1, p, w, rounds =>
    if p.Done then
      LoopOutcome.returned (p, w, rounds)
    else
      let w := round w
      let p := { p with modelTime := p.modelTime + 1 }
      if p.modelTime == value then
        match p.Stop with
        | none => LoopOutcome.panicked
        | some p1 => loop round value fuel p1 w (rounds + 1)
      else
        loop round value fuel p w (rounds + 1)

/-- `Start(value)`: the horizon is recorded and the loop runs. -/
def Start {σ : Type} (round : σ → σ) (p : Pipeline) (value : Int) (fuel : Nat) (w : σ) :
    LoopOutcome (Pipeline × σ × Nat) :=
  loop round value fuel { p with simTime := value } w 0

end Pipeline

/-! ## One tick of the pipeline, step by step -/

/-- What `HandleTransacts` of a block does on the state `W` of the network:
the test made in the call itself (`true`: the call returns after
`wg.Done()`, no task is started), the snapshot `obj.tb.GetItems()` the task
takes, and the handling of one item of the snapshot. -/
structure BlockTask (W : Type) where
  idle : W → Bool
  snapshot : W → List Int
  handle : Int → W → W

/-- Where the task of a block stands in the current tick: `HandleTransacts`
not called yet, the goroutine started, the loop of the goroutine with the
items left to handle, `wg.Done()` made. -/
inductive TaskState where
  | waiting
  | started
  | running (todo : List Int)
  | finished
  deriving DecidableEq, Repr

/-- What a block did in the current tick. -/
inductive TickEvent where
  | snapshot (block : Nat) (keys : List Int)
  | handle (block : Nat) (key : Int)
  deriving DecidableEq, Repr

/-- The step the scheduler lets run next: the loop of `Start` calling
`HandleTransacts` of a block, a goroutine taking its snapshot, handling its
next item or ending, or the loop of `Start` passing `wg.Wait()` and
incrementing the clock. -/
inductive TickChoice where
  | call (block : Nat)
  | snapshot (block : Nat)
  | handle (block : Nat)
  | finish (block : Nat)
  | clock
  deriving DecidableEq, Repr

/-- The network, the tasks of the blocks, the clock and the events of the
current tick. -/
structure TickState (W : Type) where
  world : W
  tasks : List TaskState
  modelTime : Int
  log : List TickEvent

/-- The state at the start of a tick. -/
def tickStart {W : Type} (w : W) (n : Nat) (modelTime : Int) : TickState W :=
  ⟨w, List.replicate n TaskState.waiting, modelTime, []⟩

/-- One step of the tick; `none` when the step cannot run in this state. -/
def tickStep {W : Type} (blocks : List (BlockTask W)) :
    TickChoice → TickState W → Option (TickState W)
  | TickChoice.call i, st =>
    match blocks[i]?, st.tasks[i]? with
    | some b, some TaskState.waiting =>
      some ⟨st.world,
        st.tasks.set i (if b.idle st.world then TaskState.finished else TaskState.started),
        st.modelTime, st.log⟩
    | _, _ => none
  | TickChoice.snapshot i, st =>
    match blocks[i]?, st.tasks[i]? with
    | some b, some TaskState.started =>
      some ⟨st.world, st.tasks.set i (TaskState.running (b.snapshot st.world)),
        st.modelTime, st.log ++ [TickEvent.snapshot i (b.snapshot st.world)]⟩
    | _, _ => none
  | TickChoice.handle i, st =>
    match blocks[i]?, st.tasks[i]? with
    | some b, some (TaskState.running (key :: rest)) =>
      some ⟨b.handle key st.world, st.tasks.set i (TaskState.running rest),
        st.modelTime, st.log ++ [TickEvent.handle i key]⟩
    | _, _ => none
  | TickChoice.finish i, st =>
    match st.tasks[i]? with
    | some (TaskState.running []) =>
      some ⟨st.world, st.tasks.set i TaskState.finished, st.modelTime, st.log⟩
    | _ => none
  | TickChoice.clock, st =>
    if st.tasks.all (fun t => t == TaskState.finished) then
      some ⟨st.world, st.tasks.map (fun _ => TaskState.waiting), st.modelTime + 1, []⟩
    else none

/-- A run of steps, in the order the scheduler chose. -/
def runSchedule {W : Type} (blocks : List (BlockTask W)) :
    List TickChoice → TickState W → Option (TickState W)
  | [], st => some st
  | c :: cs, st =>
    match tickStep blocks c st with
    | none => none
    | some st1 => runSchedule blocks cs st1

/-- The keys a block handled in the current tick, in order. -/
def handledBy (i : Nat) : List TickEvent → List Int
  | [] => []
  | TickEvent.handle j key :: rest =>
    if j = i then key :: handledBy i rest else handledBy i rest
  | TickEvent.snapshot _ _ :: rest => handledBy i rest

/-- The snapshots a block took in the current tick. -/
def snapshotsOf (i : Nat) : List TickEvent → List (List Int)
  | [] => []
  | TickEvent.snapshot j keys :: rest =>
    if j = i then keys :: snapshotsOf i rest else snapshotsOf i rest
  | TickEvent.handle _ _ :: rest => snapshotsOf i rest

/-- What holds of the task of block `i` in every state of a tick. -/
def TaskInvariant {W : Type} (st : TickState W) (i : Nat) : Prop :=
  match st.tasks[i]? with
  | none => handledBy i st.log = [] ∧ snapshotsOf i st.log = []
  | some TaskState.waiting => handledBy i st.log = [] ∧ snapshotsOf i st.log = []
  | some TaskState.started => handledBy i st.log = [] ∧ snapshotsOf i st.log = []
  | some (TaskState.running todo) =>
    snapshotsOf i st.log = [handledBy i st.log ++ todo]
  | some TaskState.finished =>
    (handledBy i st.log = [] ∧ snapshotsOf i st.log = []) ∨
    snapshotsOf i st.log = [handledBy i st.log]

/-- Advance "A" then Advance "B" then a sink: the two Advances, the objects of
their items and what the sink was offered. -/
abbrev ChainWorld := Advance × Advance × Store × List Transaction

/-- The task of Advance "A", whose successor is Advance "B". -/
def chainFirst : BlockTask ChainWorld where
  idle := fun w => w.1.Interval == 0 || w.1.tb.GetLen == 0
  snapshot := fun w => w.1.tb.GetItems
  handle := fun key w =>
    match w.2.2.1.get key with
    | none => w
    | some transact =>
      let r := w.1.HandleTransact [Advance.offer 0] transact w.2.1
      (r.1, r.2.2, w.2.2.1.put key r.2.1, w.2.2.2)

/-- The task of Advance "B", whose successor is the sink. -/
def chainSecond : BlockTask ChainWorld where
  idle := fun w => w.2.1.Interval == 0 || w.2.1.tb.GetLen == 0
  snapshot := fun w => w.2.1.tb.GetItems
  handle := fun key w =>
    match w.2.2.1.get key with
    | none => w
    | some transact =>
      let r := w.2.1.HandleTransact [recordingSink] transact w.2.2.2
      (w.1, r.1, w.2.2.1.put key r.2.1, r.2.2)

/-- The start of a tick at model time 3: "A" (Interval 1) holds transaction 1
with one tick left, "B" (Interval 5) holds transaction 2 with three ticks
left. -/
def chainStart : TickState ChainWorld :=
  tickStart
    (⟨"A", ⟨[1]⟩, 1, 0, 1, 1⟩, ⟨"B", ⟨[2]⟩, 5, 0, 5, 1⟩,
      [(1, ⟨1, 0, 0, 1, 1, "A", 0, ⟨0, 0, 0⟩, []⟩),
       (2, ⟨2, 0, 0, 5, 3, "B", 0, ⟨0, 0, 0⟩, []⟩)], [])
    2 3

/-- `HandleTransacts` of both blocks is called, then the task of "A" runs to
its end before the task of "B" takes its snapshot. -/
def firstThenSecond : List TickChoice :=
  [TickChoice.call 0, TickChoice.call 1,
   TickChoice.snapshot 0, TickChoice.handle 0, TickChoice.finish 0,
   TickChoice.snapshot 1, TickChoice.handle 1, TickChoice.handle 1, TickChoice.finish 1]

/-- `HandleTransacts` of both blocks is called, then the task of "B" runs to
its end before the task of "A" starts to run. -/
def secondThenFirst : List TickChoice :=
  [TickChoice.call 0, TickChoice.call 1,
   TickChoice.snapshot 1, TickChoice.handle 1, TickChoice.finish 1,
   TickChoice.snapshot 0, TickChoice.handle 0, TickChoice.finish 0]

/-- The state the run `firstThenSecond` ends in. -/
def chainEnd : TickState ChainWorld :=
  ⟨(⟨"A", ⟨[]⟩, 1, 0, 1, 1⟩, ⟨"B", ⟨[2, 1]⟩, 5, 0, 10, 2⟩,
      [(1, ⟨1, 0, 0, 6, 4, "B", 0, ⟨0, 0, 0⟩, []⟩),
       (2, ⟨2, 0, 0, 5, 2, "B", 0, ⟨0, 0, 0⟩, []⟩)], []),
    [TaskState.finished, TaskState.finished], 3,
    [TickEvent.snapshot 0 [1], TickEvent.handle 0 1,
     TickEvent.snapshot 1 [2, 1], TickEvent.handle 1 2, TickEvent.handle 1 1]⟩

/-! ## A network of Advance and Facility blocks -/

/-- A block of the network. -/
inductive Block where
  | advance (obj : Advance)
  | facility (obj : Facility)
  deriving DecidableEq, Repr

/-- The holding set of a block. -/
def Block.tb : Block → TransactTable
  | Block.advance obj => obj.tb
  | Block.facility obj => obj.tb

/-- The blocks of a pipeline, each at its index, the transaction objects the
items of their holding sets point to, and the number of offers made so far
(the jitter generator is asked once per offer at most).  A network that has
panicked is `none : Option Network`. -/
structure Network where
  blocks : List Block
  store : Store
  drawn : Nat
  deriving DecidableEq, Repr

/-- The keys of the holding set of block `m`. -/
def Network.held (net : Network) (m : Nat) : List Int :=
  match net.blocks[m]? with
  | some b => b.tb.GetItems
  | none => []

/-- Block `j` as a successor: its `AppendTransact` on the state of the
network.  `rnd n` is what the jitter generator returns in the offer number
`n`.  A failed type assertion in `Facility.AppendTransact` is the panic of
the program. -/
def Network.offer (rnd : Nat → Int) (j : Nat) : Offer (Option Network) :=
  fun transact w =>
    match w with
    | none => (false, transact, none)
    | some net =>
      match net.blocks[j]? with
      | none => (false, transact, some net)
      | some (Block.advance obj) =>
        ((obj.AppendTransact (rnd net.drawn) transact).1,
          (obj.AppendTransact (rnd net.drawn) transact).2.2,
          some ⟨net.blocks.set j (Block.advance (obj.AppendTransact (rnd net.drawn) transact).2.1),
            net.store, net.drawn + 1⟩)
      | some (Block.facility obj) =>
        match obj.AppendTransact (rnd net.drawn) transact with
        | none => (false, transact, none)
        | some (b, obj1, transact1) =>
          (b, transact1, some ⟨net.blocks.set j (Block.facility obj1), net.store, net.drawn + 1⟩)

/-- The successors `GetDst()` of block `i`, as indices; `dst` lists them
block by block. -/
def successors (dst : List (List Nat)) (i : Nat) : List Nat := dst.getD i []

/-- No block is its own successor. -/
def NoSelfLoop (dst : List (List Nat)) : Prop :=
  ∀ i : Nat, i < dst.length → i ∉ successors dst i

instance (dst : List (List Nat)) : Decidable (NoSelfLoop dst) := by
  unfold NoSelfLoop; infer_instance

/-- The body of the loop of the task of block `i`: `obj.HandleTransact` on
the object the item `key` points to.  The block is written back after the
call; its successors are other blocks (`NoSelfLoop`). -/
def Network.handle (rnd : Nat → Int) (dst : List (List Nat)) (i : Nat) (key : Int) :
    Option Network → Option Network
  | none => none
  | some net =>
    match net.blocks[i]?, net.store.get key with
    | some (Block.advance obj), some transact =>
      match obj.HandleTransact ((successors dst i).map (Network.offer rnd)) transact
          (some net) with
      | (obj1, transact1, some net1) =>
        some ⟨net1.blocks.set i (Block.advance obj1), net1.store.put key transact1, net1.drawn⟩
      | (_, _, none) => none
    | some (Block.facility obj), some transact =>
      match obj.HandleTransact
          (((successors dst i).map (Network.offer rnd)).map FacilitySucc.ext) transact
          (some net) with
      | some (obj1, transact1, some net1) =>
        some ⟨net1.blocks.set i (Block.facility obj1), net1.store.put key transact1, net1.drawn⟩
      | _ => none
    | _, _ => some net

/-- `HandleTransacts` of block `i`: the test made in the call, the snapshot
the task takes, and the handling of one item. -/
def Network.task (rnd : Nat → Int) (dst : List (List Nat)) (i : Nat) :
    BlockTask (Option Network) where
  idle := fun w =>
    match w with
    | none => true
    | some net =>
      match net.blocks[i]? with
      | some (Block.advance obj) => obj.Interval == 0 || obj.tb.GetLen == 0
      | some (Block.facility obj) => obj.tb.GetLen == 0
      | none => true
  snapshot := fun w =>
    match w with
    | none => []
    | some net => net.held i
  handle := Network.handle rnd dst i

/-- The tasks of the `n` blocks of a network. -/
def Network.tasks (rnd : Nat → Int) (dst : List (List Nat)) (n : Nat) :
    List (BlockTask (Option Network)) :=
  (List.range n).map (Network.task rnd dst)

/-- Every transaction is in one holding set at most, once, and the object
under a key of the store has that key as its id. -/
def Network.WellFormed (net : Network) : Prop :=
  (List.flatten (net.blocks.map fun b => b.tb.GetItems)).Nodup ∧
  ∀ e ∈ net.store, e.2.GetId = e.1

instance (net : Network) : Decidable net.WellFormed := by
  unfold Network.WellFormed; infer_instance

/-- What the handling of the item `key` by block `i` may do to the holding
sets and to the store: the objects under other keys, and the places of
other keys, are as they were; the object under `key` keeps its id; `key`
stays where it is, or it leaves block `i` for one block. -/
def Network.HandledAt (net net1 : Network) (i : Nat) (key : Int) : Prop :=
  (∀ k : Int, k ≠ key → net1.store.get k = net.store.get k) ∧
  (∀ t : Transaction, net1.store.get key = some t → t.GetId = key) ∧
  (∀ (m : Nat) (k : Int), k ≠ key → (k ∈ net1.held m ↔ k ∈ net.held m)) ∧
  (∀ m : Nat, (net.held m).Nodup → (net1.held m).Nodup) ∧
  ((∀ m : Nat, net1.held m = net.held m) ∨
    (key ∉ net1.held i ∧ ∃ j : Nat, ∀ m : Nat, m ≠ i → m ≠ j → net1.held m = net.held m))

/-- What holds in every state of the ticks of a well-formed network that has
not panicked: no holding set lists a key twice, no key is in two holding
sets, the object under a key has that key as its id, and the items a task
has still to handle are items of the holding set of its block, each
once. -/
def Network.TickInvariant (st : TickState (Option Network)) : Prop :=
  ∀ net : Network, st.world = some net →
    (∀ m : Nat, (net.held m).Nodup) ∧
    (∀ (m m1 : Nat) (k : Int), k ∈ net.held m → k ∈ net.held m1 → m = m1) ∧
    (∀ (k : Int) (t : Transaction), net.store.get k = some t → t.GetId = k) ∧
    (∀ (m : Nat) (todo : List Int), st.tasks[m]? = some (TaskState.running todo) →
      todo.Nodup ∧ ∀ k ∈ todo, k ∈ net.held m)

/-- The item `key` waits in block `j` for the next tick: the task of `j` has
ended or has no `key` among the items it has still to handle, the task has
not handled `key` since the log was `log0`, the holding set of `j` lists
`key`, and the object under `key` is `object`. -/
def Network.Settled (j : Nat) (key : Int) (object : Option Transaction)
    (log0 : List TickEvent) (st : TickState (Option Network)) : Prop :=
  (st.tasks[j]? = some TaskState.finished ∨
    ∃ todo : List Int, st.tasks[j]? = some (TaskState.running todo) ∧ key ∉ todo) ∧
  (∃ events : List TickEvent, st.log = log0 ++ events ∧ TickEvent.handle j key ∉ events) ∧
  ∀ net : Network, st.world = some net → net.store.get key = object ∧ key ∈ net.held j

/-- Advance "A" (Interval 1), which holds transaction 1 with one tick left,
and Advance "B" (Interval 5), which holds transaction 2 with three ticks
left. -/
def pairNetwork : Network :=
  ⟨[Block.advance ⟨"A", ⟨[1]⟩, 1, 0, 1, 1⟩, Block.advance ⟨"B", ⟨[2]⟩, 5, 0, 5, 1⟩],
    [(1, ⟨1, 0, 0, 1, 1, "A", 0, ⟨0, 0, 0⟩, []⟩),
     (2, ⟨2, 0, 0, 5, 3, "B", 0, ⟨0, 0, 0⟩, []⟩)], 0⟩

/-- The successor of "A" is "B"; "B" has no successor. -/
def pairDst : List (List Nat) := [[1], []]

/-- The tick at model time 3 once both tasks have taken their snapshot, the
task of "B" first. -/
def pairSnapshots : TickState (Option Network) :=
  ⟨some pairNetwork, [TaskState.running [1], TaskState.running [2]], 3,
    [TickEvent.snapshot 1 [2], TickEvent.snapshot 0 [1]]⟩

/-- The network once "A" has handed transaction 1 over to "B". -/
def pairHandedNetwork : Network :=
  ⟨[Block.advance ⟨"A", ⟨[]⟩, 1, 0, 1, 1⟩, Block.advance ⟨"B", ⟨[2, 1]⟩, 5, 0, 10, 2⟩],
    [(1, ⟨1, 0, 0, 6, 5, "B", 0, ⟨0, 0, 0⟩, []⟩),
     (2, ⟨2, 0, 0, 5, 3, "B", 0, ⟨0, 0, 0⟩, []⟩)], 1⟩

/-- The tick right after the hand-over. -/
def pairHanded : TickState (Option Network) :=
  ⟨some pairHandedNetwork, [TaskState.running [], TaskState.running [2]], 3,
    [TickEvent.snapshot 1 [2], TickEvent.snapshot 0 [1], TickEvent.handle 0 1]⟩

/-- The network at the end of the tick. -/
def pairEndNetwork : Network :=
  ⟨[Block.advance ⟨"A", ⟨[]⟩, 1, 0, 1, 1⟩, Block.advance ⟨"B", ⟨[2, 1]⟩, 5, 0, 10, 2⟩],
    [(2, ⟨2, 0, 0, 5, 2, "B", 0, ⟨0, 0, 0⟩, []⟩),
     (1, ⟨1, 0, 0, 6, 5, "B", 0, ⟨0, 0, 0⟩, []⟩)], 1⟩

/-- The tick once both tasks have ended. -/
def pairEnd : TickState (Option Network) :=
  ⟨some pairEndNetwork, [TaskState.finished, TaskState.finished], 3,
    [TickEvent.snapshot 1 [2], TickEvent.snapshot 0 [1], TickEvent.handle 0 1,
     TickEvent.handle 1 2]⟩

/-! ## The last entry of a parameter list -/

/-- The value of the last entry of `ps` whose name is `name`; `none` when no
entry of `ps` has that name.  (The value itself may be nil.) -/
def lastValueOf (ps : List Parameter) (name : String) : Option Iface :=
  ((ps.filter fun p => p.Name == name).getLast?).map fun p => p.Value

/-! ## Facility: rejection while occupied, and the size of the holding set -/

theorem Facility.AppendTransact_of_busy (obj : Facility) (rnd : Int) (transact : Transaction)
    (h : obj.tb.GetLen ≠ 0) :
    obj.AppendTransact rnd transact = some (false, obj, transact) := by
  simp [Facility.AppendTransact, h]

theorem TransactTable.GetLen_Remove_le (tb : TransactTable) (transact : Transaction) :
    (tb.Remove transact).GetLen ≤ tb.GetLen := by
  simp only [TransactTable.Remove, TransactTable.GetLen]
  exact List.length_filter_le _ _

theorem TransactTable.GetLen_Push_of_empty (tb : TransactTable) (transact : Transaction)
    (h : tb.GetLen = 0) : (tb.Push transact).items = [transact.GetId] := by
  have hnil : tb.items = [] := List.length_eq_zero.mp h
  simp [TransactTable.Push, hnil]

theorem Facility.AppendTransact_tb (obj : Facility) (rnd : Int) (transact : Transaction)
    (b : Bool) (obj1 : Facility) (transact1 : Transaction)
    (h : obj.AppendTransact rnd transact = some (b, obj1, transact1)) :
    (b = false ∧ obj1 = obj ∧ transact1 = transact ∧ obj.tb.GetLen ≠ 0) ∨
    (b = true ∧ obj.tb.GetLen = 0 ∧ obj1.tb.items = [transact.GetId]) := by
  by_cases hlen : obj.tb.GetLen = 0
  · right
    unfold Facility.AppendTransact at h
    simp only [hlen, bne_self_eq_false, Bool.false_eq_true, if_false] at h
    split at h
    · exact absurd h (by simp)
    · simp only [Option.some.injEq, Prod.mk.injEq] at h
      obtain ⟨hb, hobj, -⟩ := h
      refine ⟨hb.symm, hlen, ?_⟩
      rw [← hobj]
      simp only
      rw [TransactTable.GetLen_Push_of_empty _ _ hlen]
      rfl
  · left
    rw [Facility.AppendTransact_of_busy obj rnd transact hlen] at h
    simp only [Option.some.injEq, Prod.mk.injEq] at h
    obtain ⟨hb, hobj, ht⟩ := h
    exact ⟨hb.symm, hobj.symm, ht.symm, hlen⟩

theorem Facility.AppendTransact_len_le_one (obj : Facility) (rnd : Int) (transact : Transaction)
    (b : Bool) (obj1 : Facility) (transact1 : Transaction)
    (h : obj.AppendTransact rnd transact = some (b, obj1, transact1))
    (hle : obj.tb.GetLen ≤ 1) : obj1.tb.GetLen ≤ 1 := by
  rcases Facility.AppendTransact_tb obj rnd transact b obj1 transact1 h with
    ⟨-, hobj, -, -⟩ | ⟨-, -, hitems⟩
  · rw [hobj]; exact hle
  · simp [TransactTable.GetLen, hitems]

theorem Facility.offerSuccs_len_le_one {σ : Type} (dst : List (FacilitySucc σ)) :
    ∀ (obj : Facility) (transact : Transaction) (s : σ) (b : Bool) (obj1 : Facility)
      (transact1 : Transaction) (s1 : σ),
      Facility.offerSuccs dst obj transact s = some (b, obj1, transact1, s1) →
      obj.tb.GetLen ≤ 1 → obj1.tb.GetLen ≤ 1 := by
  induction dst with
  | nil =>
    intro obj transact s b obj1 transact1 s1 h hle
    simp only [Facility.offerSuccs, Option.some.injEq, Prod.mk.injEq] at h
    rw [← h.2.1]; exact hle
  | cons d rest ih =>
    intro obj transact s b obj1 transact1 s1 h hle
    cases d with
    | self rnd =>
      simp only [Facility.offerSuccs] at h
      cases hap : obj.AppendTransact rnd transact with
      | none => rw [hap] at h; exact absurd h (by simp)
      | some r =>
        obtain ⟨b2, obj2, transact2⟩ := r
        have hle2 := Facility.AppendTransact_len_le_one obj rnd transact b2 obj2 transact2 hap hle
        rw [hap] at h
        cases b2 with
        | true =>
          simp only [Option.some.injEq, Prod.mk.injEq] at h
          rw [← h.2.1]; exact hle2
        | false =>
          exact ih obj2 transact2 s b obj1 transact1 s1 h hle2
    | ext v =>
      simp only [Facility.offerSuccs] at h
      rcases hv : v transact s with ⟨b2, transact2, s2⟩
      rw [hv] at h
      cases b2 with
      | true =>
        simp only [Option.some.injEq, Prod.mk.injEq] at h
        rw [← h.2.1]; exact hle
      | false =>
        exact ih obj transact2 s2 b obj1 transact1 s1 h hle

theorem Facility.HandleTransact_len_le_one {σ : Type} (obj : Facility)
    (dst : List (FacilitySucc σ)) (transact : Transaction) (s : σ) (obj1 : Facility)
    (transact1 : Transaction) (s1 : σ)
    (h : obj.HandleTransact dst transact s = some (obj1, transact1, s1))
    (hle : obj.tb.GetLen ≤ 1) : obj1.tb.GetLen ≤ 1 := by
  unfold Facility.HandleTransact at h
  simp only at h
  split at h
  · split at h
    · exact absurd h (by simp)
    · next obj2 transact2 s2 hoff =>
      simp only [Option.some.injEq, Prod.mk.injEq] at h
      rw [← h.1]
      have := Facility.offerSuccs_len_le_one dst _ _ _ _ _ _ _ hoff hle
      exact le_trans (TransactTable.GetLen_Remove_le _ _) this
    · next obj2 transact2 s2 hoff =>
      simp only [Option.some.injEq, Prod.mk.injEq] at h
      rw [← h.1]
      exact Facility.offerSuccs_len_le_one dst _ _ _ _ _ _ _ hoff hle
  · simp only [Option.some.injEq, Prod.mk.injEq] at h
    rw [← h.1]; exact hle

/-- C1: a Facility whose holding set is not empty rejects every offered
transaction and changes neither itself nor the transaction: the call returns
false with the same Facility state (holding set, HoldedTransactID,
bakupFacilityName, sum_advance, cnt_transact) and the same transaction state
(ticks, advance, holderName, parameters).  Offering the same transaction a
second time right after gives the same rejection and the same state. -/
theorem Facility.AppendTransact_occupied_rejects (obj : Facility) (rnd rnd2 : Int)
    (transact : Transaction) (h : obj.tb.GetLen ≠ 0) :
    obj.AppendTransact rnd transact = some (false, obj, transact) ∧
    ((obj.AppendTransact rnd transact).bind
      fun r => r.2.1.AppendTransact rnd2 r.2.2) = some (false, obj, transact) := by
  have h1 := Facility.AppendTransact_of_busy obj rnd transact h
  refine ⟨h1, ?_⟩
  rw [h1]
  exact Facility.AppendTransact_of_busy obj rnd2 transact h

theorem Facility.AppendTransact_occupied_rejects_witness :
    (⟨"F", ⟨[1]⟩, 3, 0, 1, "", 3, 1⟩ : Facility).AppendTransact 0 (NewTransaction 2 1) =
      some (false, ⟨"F", ⟨[1]⟩, 3, 0, 1, "", 3, 1⟩, NewTransaction 2 1) ∧
    (((⟨"F", ⟨[1]⟩, 3, 0, 1, "", 3, 1⟩ : Facility).AppendTransact 0 (NewTransaction 2 1)).bind
      fun r => r.2.1.AppendTransact 0 r.2.2) =
      some (false, ⟨"F", ⟨[1]⟩, 3, 0, 1, "", 3, 1⟩, NewTransaction 2 1) :=
  Facility.AppendTransact_occupied_rejects ⟨"F", ⟨[1]⟩, 3, 0, 1, "", 3, 1⟩ 0 0
    (NewTransaction 2 1) (by decide)

/-- C2: in every state of a Facility reachable from NewFacility by
AppendTransact and HandleTransact calls, whatever the successors (blocks of
the rest of the network or the Facility itself), the holding set contains 0
or 1 transactions. -/
theorem Facility.holding_set_zero_or_one {σ : Type} (obj : Facility)
    (h : Facility.Reachable σ obj) : obj.tb.GetLen = 0 ∨ obj.tb.GetLen = 1 := by
  have hle : obj.tb.GetLen ≤ 1 := by
    induction h with
    | init name interval modificator => simp [NewFacility, TransactTable.empty, TransactTable.GetLen]
    | append rnd transact b obj1 transact1 _ hstep ih =>
      exact Facility.AppendTransact_len_le_one _ rnd transact b obj1 transact1 hstep ih
    | handle dst transact s obj1 transact1 s1 _ hstep ih =>
      exact Facility.HandleTransact_len_le_one _ dst transact s obj1 transact1 s1 hstep ih
  omega

theorem Facility.holding_set_zero_or_one_witness :
    (⟨"F", ⟨[1]⟩, 3, 0, 1, "", 3, 1⟩ : Facility).tb.GetLen = 0 ∨
    (⟨"F", ⟨[1]⟩, 3, 0, 1, "", 3, 1⟩ : Facility).tb.GetLen = 1 :=
  @Facility.holding_set_zero_or_one Unit ⟨"F", ⟨[1]⟩, 3, 0, 1, "", 3, 1⟩
    (Facility.Reachable.append 0 (NewTransaction 1 0) true _
      ⟨1, 0, 0, 3, 3, "F", 0, ⟨0, 0, 0⟩, [("Facility", some (GoValue.str "F"))]⟩
      (Facility.Reachable.init "F" 3 0) (by decide))

/-! ## Facility and Bifacility: the backup of the "Facility" parameter -/

/-- C3: evaluation of the code at the failing input.  Transaction 2 has no
"Facility" parameter before it enters the free Bifacility "B"; the entry
accepts it and the exit forwards it, yet the exit offers it to its
successor with "Facility" = "Outer", the backup left by transaction 1. -/
theorem Bifacility.exit_offers_stale_backup :
    bifacilityTwoOccupancies =
      some (true, true, true, true, none, false, ⟨[]⟩, [some (GoValue.str "Outer")]) := by
  rfl

/-- C4: evaluation of the code at the failing input.  Transaction 2 has no
"Facility" parameter before the free Facility "F" accepts it; on the
HandleTransact call where its ticks reach zero it is offered to the
successor with "Facility" = "Outer", the backup left by transaction 1. -/
theorem Facility.HandleTransact_offers_stale_backup :
    facilityTwoOccupancies =
      some (true, true, none, false, ⟨[]⟩, [some (GoValue.str "Outer")]) := by
  rfl

/-! ## Identity and parameters of a transaction along a hand-off -/

theorem Transaction.GetId_DecTicks (t : Transaction) : t.DecTicks.GetId = t.GetId := by
  unfold Transaction.DecTicks
  simp only
  split <;> rfl

theorem Transaction.GetId_SetParameters (t : Transaction) (ps : List Parameter) :
    (t.SetParameters ps).GetId = t.GetId := rfl

theorem GetId_restoreFacilityParameter (bak : String) (t : Transaction) :
    (restoreFacilityParameter bak t).GetId = t.GetId := by
  unfold restoreFacilityParameter
  split <;> rfl

theorem mapIndex_mapAssign (m : ParamMap) (k : String) (v : Iface) :
    mapIndex (mapAssign m k v) k = v := by
  simp [mapIndex, mapAssign, List.lookup]

theorem Transaction.GetParameterByName_SetParameters_some (t : Transaction) (k : String)
    (v : GoValue) : (t.SetParameters [⟨k, some v⟩]).GetParameterByName k = some v := by
  simp [Transaction.SetParameters, Transaction.GetParameterByName, Transaction.setParameter,
    mapIndex_mapAssign]

theorem offerDst_GetId {σ : Type} (dst : List (Offer σ))
    (hid : ∀ v ∈ dst, ∀ (t : Transaction) (s : σ), (v t s).2.1.GetId = t.GetId) :
    ∀ (transact : Transaction) (s : σ), (offerDst dst transact s).2.1.GetId = transact.GetId := by
  induction dst with
  | nil => intro transact s; rfl
  | cons v rest ih =>
    intro transact s
    have hv := hid v (List.mem_cons_self v rest) transact s
    have hrest : ∀ w ∈ rest, ∀ (t : Transaction) (s : σ), (w t s).2.1.GetId = t.GetId :=
      fun w hw => hid w (List.mem_cons_of_mem v hw)
    simp only [offerDst]
    rcases hvs : v transact s with ⟨b, transact1, s1⟩
    rw [hvs] at hv
    cases b with
    | true => exact hv
    | false =>
      simp only
      rw [ih hrest transact1 s1]
      exact hv

theorem Facility.offerSuccs_of_busy {σ : Type} (dst : List (FacilitySucc σ)) (obj : Facility)
    (hbusy : obj.tb.GetLen ≠ 0)
    (hid : ∀ v, FacilitySucc.ext v ∈ dst →
      ∀ (t : Transaction) (s : σ), (v t s).2.1.GetId = t.GetId) :
    ∀ (transact : Transaction) (s : σ), ∃ (acc : Bool) (transact0 : Transaction) (s0 : σ),
      Facility.offerSuccs dst obj transact s = some (acc, obj, transact0, s0) ∧
      transact0.GetId = transact.GetId := by
  induction dst with
  | nil => intro transact s; exact ⟨false, transact, s, rfl, rfl⟩
  | cons d rest ih =>
    have hrest : ∀ v, FacilitySucc.ext v ∈ rest →
        ∀ (t : Transaction) (s : σ), (v t s).2.1.GetId = t.GetId :=
      fun v hv => hid v (List.mem_cons_of_mem d hv)
    intro transact s
    cases d with
    | self rnd =>
      simp only [Facility.offerSuccs, Facility.AppendTransact_of_busy obj rnd transact hbusy]
      exact ih hrest transact s
    | ext v =>
      have hv := hid v (List.mem_cons_self _ rest) transact s
      simp only [Facility.offerSuccs]
      rcases hvs : v transact s with ⟨b, transact1, s1⟩
      rw [hvs] at hv
      cases b with
      | true => exact ⟨true, transact1, s1, rfl, hv⟩
      | false =>
        obtain ⟨acc, transact0, s0, h0, hid0⟩ := ih hrest transact1 s1
        exact ⟨acc, transact0, s0, h0, hid0.trans hv⟩

theorem TransactTable.not_Holds_Remove (tb : TransactTable) (t u : Transaction)
    (h : u.GetId = t.GetId) : ¬ (tb.Remove u).Holds t := by
  simp [TransactTable.Holds, TransactTable.Remove, h]

theorem TransactTable.GetLen_ne_zero_of_Holds (tb : TransactTable) (t : Transaction)
    (h : tb.Holds t) : tb.GetLen ≠ 0 := by
  unfold TransactTable.Holds at h
  unfold TransactTable.GetLen
  intro h0
  rw [List.length_eq_zero.mp h0] at h
  exact absurd h (List.not_mem_nil _)

/-! ## Facility: the hand-off when the delay is over -/

/-- C5: a Facility holds transaction t and the ticks of t become zero in
HandleTransact(t); its successors are the Facility itself or blocks that
leave the id of an offered transaction as it is.  The loop over the
successors returns an answer `acc` and HandleTransact returns.  If a
successor accepted (`acc = true`), t is no longer in the holding set and
HoldedTransactID is -1.  If none accepted, t is still in the holding set,
HoldedTransactID is unchanged, the "Facility" parameter of t is the name of
the Facility, and a following AppendTransact of any transaction is
rejected with no change. -/
theorem Facility.HandleTransact_at_zero {σ : Type} (obj : Facility)
    (dst : List (FacilitySucc σ)) (transact : Transaction) (s : σ)
    (hheld : obj.tb.Holds transact)
    (hend : transact.DecTicks.IsTheEnd = true)
    (hid : ∀ v, FacilitySucc.ext v ∈ dst →
      ∀ (t : Transaction) (s : σ), (v t s).2.1.GetId = t.GetId) :
    ∃ (acc : Bool) (transact0 : Transaction) (s0 : σ) (obj1 : Facility)
      (transact1 : Transaction),
      Facility.offerSuccs dst obj
        (restoreFacilityParameter obj.bakupFacilityName transact.DecTicks) s =
          some (acc, obj, transact0, s0) ∧
      obj.HandleTransact dst transact s = some (obj1, transact1, s0) ∧
      (acc = true → ¬ obj1.tb.Holds transact ∧ obj1.HoldedTransactID = -1) ∧
      (acc = false → obj1.tb.Holds transact ∧
        obj1.HoldedTransactID = obj.HoldedTransactID ∧
        transact1.GetParameterByName "Facility" = some (GoValue.str obj.name) ∧
        ∀ (rnd : Int) (u : Transaction), obj1.AppendTransact rnd u = some (false, obj1, u)) := by
  have hbusy := TransactTable.GetLen_ne_zero_of_Holds obj.tb transact hheld
  obtain ⟨acc, transact0, s0, hoff, hid0⟩ := Facility.offerSuccs_of_busy dst obj hbusy hid
    (restoreFacilityParameter obj.bakupFacilityName transact.DecTicks) s
  have hid1 : transact0.GetId = transact.GetId := by
    rw [hid0, GetId_restoreFacilityParameter, Transaction.GetId_DecTicks]
  cases acc with
  | true =>
    refine ⟨true, transact0, s0,
      { obj with tb := obj.tb.Remove transact0, HoldedTransactID := -1 }, transact0, hoff, ?_,
      fun _ => ⟨TransactTable.not_Holds_Remove obj.tb transact transact0 hid1, rfl⟩,
      fun h => absurd h (by simp)⟩
    simp only [Facility.HandleTransact, hend, if_true, hoff]
  | false =>
    refine ⟨false, transact0, s0, obj,
      transact0.SetParameters [⟨"Facility", some (GoValue.str obj.name)⟩], hoff, ?_,
      fun h => absurd h (by simp),
      fun _ => ⟨hheld, rfl, Transaction.GetParameterByName_SetParameters_some _ _ _,
        fun rnd u => Facility.AppendTransact_of_busy obj rnd u hbusy⟩⟩
    simp only [Facility.HandleTransact, hend, if_true, hoff]

theorem Facility.HandleTransact_at_zero_witness :
    ∃ (acc : Bool) (transact0 : Transaction) (s0 : List Transaction) (obj1 : Facility)
      (transact1 : Transaction),
      Facility.offerSuccs [FacilitySucc.ext rejectingSink, FacilitySucc.self 0] heldFacility
        (restoreFacilityParameter heldFacility.bakupFacilityName heldTransaction.DecTicks) [] =
          some (acc, heldFacility, transact0, s0) ∧
      heldFacility.HandleTransact [FacilitySucc.ext rejectingSink, FacilitySucc.self 0]
        heldTransaction [] = some (obj1, transact1, s0) ∧
      (acc = true → ¬ obj1.tb.Holds heldTransaction ∧ obj1.HoldedTransactID = -1) ∧
      (acc = false → obj1.tb.Holds heldTransaction ∧
        obj1.HoldedTransactID = heldFacility.HoldedTransactID ∧
        transact1.GetParameterByName "Facility" = some (GoValue.str heldFacility.name) ∧
        ∀ (rnd : Int) (u : Transaction), obj1.AppendTransact rnd u = some (false, obj1, u)) :=
  Facility.HandleTransact_at_zero heldFacility
    [FacilitySucc.ext rejectingSink, FacilitySucc.self 0] heldTransaction []
    (by decide) (by decide)
    (by
      intro v hv t s
      simp only [List.mem_cons, FacilitySucc.ext.injEq, List.mem_singleton, or_false,
        reduceCtorEq, List.not_mem_nil] at hv
      subst hv
      rfl)

/-! ## Bifacility: the exit block -/

/-- C6: evaluation of the code at the failing input.  No transaction has
entered Bifacility "B" (its holding set is empty and its entry count is 0);
a transaction with id 0, which is inside "Outer", is offered to the exit,
whose only successor rejects it.  The exit answers true and leaves the
"Facility" parameter of the transaction at "B_OUT"; the successor was
offered the transaction with the parameter cleared. -/
theorem Bifacility.exit_accepts_unentered_transaction :
    (NewBifacility "B").tb.GetLen = 0 ∧ (NewBifacility "B").inFacility.cnt_transact = 0 ∧
    (insideOuter 0 0).GetParameterByName "Facility" = some (GoValue.str "Outer") ∧
    exitOfNewBifacility.1 = true ∧
    exitOfNewBifacility.2.1 = NewBifacility "B" ∧
    exitOfNewBifacility.2.2.1.GetParameterByName "Facility" = some (GoValue.str "B_OUT") ∧
    exitOfNewBifacility.2.2.2.map (fun t => t.GetParameterByName "Facility") = [none] := by
  refine ⟨rfl, rfl, rfl, rfl, rfl, rfl, rfl⟩

theorem InFacility.entry_len_le_one {σ : Type} (obj : InFacility)
    (dst : List (Offer σ)) (modelTime : Int) (transact : Transaction) (s : σ) (b : Bool)
    (obj1 : InFacility) (transact1 : Transaction) (s1 : σ)
    (h : obj.AppendTransact dst modelTime transact s = some (b, obj1, transact1, s1))
    (hle : obj.tb.GetLen ≤ 1) : obj1.tb.GetLen ≤ 1 := by
  by_cases hlen : obj.tb.GetLen = 0
  · unfold InFacility.AppendTransact at h
    simp only [hlen, bne_self_eq_false, Bool.false_eq_true, if_false] at h
    split at h
    · exact absurd h (by simp)
    · simp only [Option.some.injEq, Prod.mk.injEq] at h
      obtain ⟨-, hobj, -⟩ := h
      rw [← hobj]
      simp only [TransactTable.GetLen]
      rw [TransactTable.GetLen_Push_of_empty _ _ hlen]
      simp
  · simp only [InFacility.AppendTransact, bne_iff_ne, ne_eq, hlen, not_false_eq_true, if_true,
      Option.some.injEq, Prod.mk.injEq] at h
    rw [← h.2.1]; exact hle

theorem OutFacility.exit_len_le_one {σ : Type} (obj : OutFacility)
    (dst : List (Offer σ)) (modelTime : Int) (transact : Transaction) (s : σ)
    (hle : obj.tb.GetLen ≤ 1) :
    (obj.AppendTransact dst modelTime transact s).2.1.tb.GetLen ≤ 1 := by
  unfold OutFacility.AppendTransact
  split
  · exact hle
  · have hh : (obj.HandleTransact dst modelTime transact s).1.tb.GetLen ≤ 1 := by
      unfold OutFacility.HandleTransact
      simp only
      split
      · exact le_trans (TransactTable.GetLen_Remove_le _ _) hle
      · exact hle
    simp only
    split <;> exact hh

theorem Bifacility.Reachable.len_le_one {σ : Type} {obj : OutFacility}
    (h : Bifacility.Reachable σ obj) : obj.tb.GetLen ≤ 1 := by
  induction h with
  | init name => simp [NewBifacility, OutFacility.tb, TransactTable.empty, TransactTable.GetLen]
  | enter dst modelTime transact s b inObj transact1 s1 _ hstep ih =>
    exact InFacility.entry_len_le_one _ dst modelTime transact s b inObj transact1 s1
      hstep ih
  | leave dst modelTime transact s b obj1 transact1 s1 _ hstep ih =>
    have := OutFacility.exit_len_le_one _ dst modelTime transact s ih
    rw [hstep] at this
    exact this

theorem TransactTable.Remove_eq_empty (tb : TransactTable) (t u : Transaction)
    (hle : tb.GetLen ≤ 1) (hheld : tb.Holds t) (h : u.GetId = t.GetId) :
    (tb.Remove u).GetLen = 0 := by
  obtain ⟨items⟩ := tb
  simp only [TransactTable.GetLen, TransactTable.Holds] at hle hheld
  match items, hle, hheld with
  | [k], _, hk =>
    simp only [List.mem_singleton] at hk
    simp [TransactTable.Remove, TransactTable.GetLen, h, hk]

/-- C7: a Bifacility, in a reachable state, is occupied by transaction t
(t is in the shared holding set and HoldedTransactID is the id of t); the
successors of the exit leave the id of an offered transaction as it is.
If a successor of the exit accepts t, OutFacility.AppendTransact(t) returns
true, t is removed from the shared holding set, HoldedTransactID becomes -1
and sum_advance of the entry block grows by the model time minus
timeOfInput.  If none accepts, it returns false, the holding set,
HoldedTransactID and sum_advance are unchanged, and the "Facility"
parameter of t is the name of the exit block. -/
theorem OutFacility.AppendTransact_of_occupied {σ : Type} (obj : OutFacility)
    (dst : List (Offer σ)) (modelTime : Int) (transact : Transaction) (s : σ)
    (hreach : Bifacility.Reachable σ obj)
    (hheld : obj.tb.Holds transact)
    (hholder : obj.inFacility.HoldedTransactID = transact.GetId)
    (hid : ∀ v ∈ dst, ∀ (t : Transaction) (s : σ), (v t s).2.1.GetId = t.GetId) :
    ((offerDst dst (restoreFacilityParameter obj.inFacility.bakupFacilityName transact) s).1
        = true →
      (obj.AppendTransact dst modelTime transact s).1 = true ∧
      ¬ (obj.AppendTransact dst modelTime transact s).2.1.tb.Holds transact ∧
      (obj.AppendTransact dst modelTime transact s).2.1.inFacility.HoldedTransactID = -1 ∧
      (obj.AppendTransact dst modelTime transact s).2.1.inFacility.sum_advance =
        obj.inFacility.sum_advance + (modelTime - obj.inFacility.timeOfInput)) ∧
    ((offerDst dst (restoreFacilityParameter obj.inFacility.bakupFacilityName transact) s).1
        = false →
      (obj.AppendTransact dst modelTime transact s).1 = false ∧
      (obj.AppendTransact dst modelTime transact s).2.1.tb = obj.tb ∧
      (obj.AppendTransact dst modelTime transact s).2.1.inFacility.HoldedTransactID =
        obj.inFacility.HoldedTransactID ∧
      (obj.AppendTransact dst modelTime transact s).2.1.inFacility.sum_advance =
        obj.inFacility.sum_advance ∧
      (obj.AppendTransact dst modelTime transact s).2.2.1.GetParameterByName "Facility" =
        some (GoValue.str obj.name)) := by
  have hle := hreach.len_le_one
  have hbusy := TransactTable.GetLen_ne_zero_of_Holds obj.tb transact hheld
  have hid0 := offerDst_GetId dst hid
    (restoreFacilityParameter obj.inFacility.bakupFacilityName transact) s
  rw [GetId_restoreFacilityParameter] at hid0
  rcases hoff : offerDst dst
    (restoreFacilityParameter obj.inFacility.bakupFacilityName transact) s with
    ⟨acc, transact0, s0⟩
  rw [hoff] at hid0
  simp only at hid0
  have hguard : (obj.inFacility.HoldedTransactID != transact.GetId) = false := by
    simp [hholder]
  cases acc with
  | true =>
    refine ⟨fun _ => ?_, fun h => absurd h (by simp)⟩
    have hempty := TransactTable.Remove_eq_empty obj.tb transact transact0 hle hheld hid0
    have hr : obj.HandleTransact dst modelTime transact s =
        ({ obj with inFacility :=
            { obj.inFacility with
              sum_advance := obj.inFacility.sum_advance +
                (modelTime - obj.inFacility.timeOfInput)
              tb := obj.inFacility.tb.Remove transact0
              HoldedTransactID := -1 } }, transact0, s0) := by
      simp only [OutFacility.HandleTransact, hoff]
    have hlen0 : ((obj.HandleTransact dst modelTime transact s).1.tb.GetLen == 0) = true := by
      rw [hr]
      simpa [OutFacility.tb] using hempty
    simp only [OutFacility.AppendTransact, hguard, Bool.false_eq_true, if_false, hlen0, if_true]
    rw [hr]
    exact ⟨trivial, TransactTable.not_Holds_Remove obj.tb transact transact0 hid0, rfl, rfl⟩
  | false =>
    refine ⟨fun h => absurd h (by simp), fun _ => ?_⟩
    have hr : obj.HandleTransact dst modelTime transact s =
        (obj, transact0.SetParameters [⟨"Facility", some (GoValue.str obj.name)⟩], s0) := by
      simp only [OutFacility.HandleTransact, hoff]
    have hlen0 : ((obj.HandleTransact dst modelTime transact s).1.tb.GetLen == 0) = false := by
      rw [hr]
      simpa using hbusy
    simp only [OutFacility.AppendTransact, hguard, Bool.false_eq_true, if_false, hlen0]
    rw [hr]
    exact ⟨trivial, rfl, rfl, rfl, Transaction.GetParameterByName_SetParameters_some _ _ _⟩

theorem OutFacility.AppendTransact_of_occupied_witness :
    ((offerDst [recordingSink] (restoreFacilityParameter
        occupiedBifacility.inFacility.bakupFacilityName enteredTransaction) []).1 = true →
      (occupiedBifacility.AppendTransact [recordingSink] 7 enteredTransaction []).1 = true ∧
      ¬ (occupiedBifacility.AppendTransact [recordingSink] 7 enteredTransaction
          []).2.1.tb.Holds enteredTransaction ∧
      (occupiedBifacility.AppendTransact [recordingSink] 7 enteredTransaction
          []).2.1.inFacility.HoldedTransactID = -1 ∧
      (occupiedBifacility.AppendTransact [recordingSink] 7 enteredTransaction
          []).2.1.inFacility.sum_advance =
        occupiedBifacility.inFacility.sum_advance +
          (7 - occupiedBifacility.inFacility.timeOfInput)) ∧
    ((offerDst [recordingSink] (restoreFacilityParameter
        occupiedBifacility.inFacility.bakupFacilityName enteredTransaction) []).1 = false →
      (occupiedBifacility.AppendTransact [recordingSink] 7 enteredTransaction []).1 = false ∧
      (occupiedBifacility.AppendTransact [recordingSink] 7 enteredTransaction []).2.1.tb =
        occupiedBifacility.tb ∧
      (occupiedBifacility.AppendTransact [recordingSink] 7 enteredTransaction
          []).2.1.inFacility.HoldedTransactID =
        occupiedBifacility.inFacility.HoldedTransactID ∧
      (occupiedBifacility.AppendTransact [recordingSink] 7 enteredTransaction
          []).2.1.inFacility.sum_advance = occupiedBifacility.inFacility.sum_advance ∧
      (occupiedBifacility.AppendTransact [recordingSink] 7 enteredTransaction
          []).2.2.1.GetParameterByName "Facility" =
        some (GoValue.str occupiedBifacility.name)) :=
  OutFacility.AppendTransact_of_occupied occupiedBifacility [recordingSink] 7
    enteredTransaction []
    (@Bifacility.Reachable.enter (List Transaction) (NewBifacility "B") []
      4 (NewTransaction 1 0) [] true occupiedBifacility.inFacility enteredTransaction []
      (Bifacility.Reachable.init "B") (by rfl))
    (by decide) (by decide)
    (by
      intro v hv t s
      simp only [List.mem_singleton] at hv
      subst hv
      rfl)

/-! ## Check -/

theorem mapIndex_of_not_mapHasKey (m : ParamMap) (k : String) (h : mapHasKey m k = false) :
    mapIndex m k = none := by
  unfold mapHasKey at h
  unfold mapIndex
  cases hl : m.lookup k with
  | none => rfl
  | some v => rw [hl] at h; exact absurd h (by simp)

theorem checkingLoop_iff (ps : List Parameter) (transact : Transaction) :
    checkingLoop ps transact = true ↔
      ∀ v ∈ ps, transact.GetParameterByName v.Name = v.Value := by
  induction ps with
  | nil => simp [checkingLoop]
  | cons p rest ih =>
    by_cases hp : transact.GetParameterByName p.Name = p.Value
    · simp [checkingLoop, hp, ih]
    · simp [checkingLoop, hp]

/-- C8: the default predicate Checking returns true if and only if, for every
constraint (name, value) of the Check, GetParameterByName(name) of the
transaction equals value.  It returns true when there is no constraint, and
false when a constraint with a non-nil value names a parameter the
transaction does not have. -/
theorem Checking_true_iff (obj : CheckData) (transact : Transaction) :
    (Checking obj transact = true ↔
      ∀ v ∈ obj.parameters, transact.GetParameterByName v.Name = v.Value) ∧
    (obj.parameters = [] → Checking obj transact = true) ∧
    (∀ v ∈ obj.parameters, v.Value ≠ none →
      mapHasKey transact.GetAllParameters v.Name = false →
      Checking obj transact = false) := by
  have hiff := checkingLoop_iff obj.parameters transact
  refine ⟨hiff, ?_, ?_⟩
  · intro hnil
    simp [Checking, hnil, checkingLoop]
  · intro v hv hval habsent
    cases hc : Checking obj transact with
    | false => rfl
    | true =>
      have hall := hiff.mp hc v hv
      have hnone : transact.GetParameterByName v.Name = none :=
        mapIndex_of_not_mapHasKey _ _ habsent
      rw [hnone] at hall
      exact absurd hall.symm hval

/-- C9: one call of Check.AppendTransact raises cnt_true + cnt_false by
exactly one, whatever the successors and the false-path block answer and
whatever the call returns: cnt_true grows by one and cnt_false is unchanged
when the predicate holds for the transaction, cnt_false grows by one and
cnt_true is unchanged when it does not. -/
theorem Check.AppendTransact_counts {σ : Type} (obj : Check σ) (dst : List (Offer σ))
    (transact : Transaction) (s : σ) :
    ((obj.AppendTransact dst transact s).2.1.cnt_true +
        (obj.AppendTransact dst transact s).2.1.cnt_false =
      obj.cnt_true + obj.cnt_false + 1) ∧
    (obj.HandleChecking obj.toCheckData transact = true →
      (obj.AppendTransact dst transact s).2.1.cnt_true = obj.cnt_true + 1 ∧
      (obj.AppendTransact dst transact s).2.1.cnt_false = obj.cnt_false) ∧
    (obj.HandleChecking obj.toCheckData transact = false →
      (obj.AppendTransact dst transact s).2.1.cnt_false = obj.cnt_false + 1 ∧
      (obj.AppendTransact dst transact s).2.1.cnt_true = obj.cnt_true) := by
  cases hp : obj.HandleChecking obj.toCheckData transact with
  | true =>
    have hr : (obj.AppendTransact dst transact s).2.1 =
        { obj with cnt_true := obj.cnt_true + 1 } := by
      simp [Check.AppendTransact, hp]
    rw [hr]
    refine ⟨?_, fun _ => ⟨rfl, rfl⟩, fun h => absurd h (by simp)⟩
    simp only
    omega
  | false =>
    have hr : (obj.AppendTransact dst transact s).2.1 =
        { obj with cnt_false := obj.cnt_false + 1 } := by
      simp only [Check.AppendTransact, hp, Bool.not_false, if_true]
      cases obj.falseObj with
      | none => rfl
      | some f =>
        simp only
        rcases f transact s with ⟨b, t1, s1⟩
        cases b <;> rfl
    rw [hr]
    refine ⟨?_, fun h => absurd h (by simp), fun _ => ⟨rfl, rfl⟩⟩
    simp only
    omega

theorem offerDst_observedDst {σ : Type} (dst : List (Offer σ)) :
    ∀ (i : Nat) (transact : Transaction) (s : σ) (log : List (Port × Bool)),
      ∃ m : Nat,
        offerDst (observedDst i dst) transact (s, log) =
          ((offerDst dst transact s).1, (offerDst dst transact s).2.1,
            (offerDst dst transact s).2.2,
            log ++ ((List.range m).map fun j => (Port.dst (i + j), false)) ++
              (if (offerDst dst transact s).1 = true then [(Port.dst (i + m), true)] else [])) ∧
        ((offerDst dst transact s).1 = true → m < dst.length) ∧
        ((offerDst dst transact s).1 = false → m = dst.length) := by
  induction dst with
  | nil =>
    intro i transact s log
    exact ⟨0, by simp [offerDst, observedDst], by simp [offerDst], by simp [offerDst]⟩
  | cons v rest ih =>
    intro i transact s log
    rcases hv : v transact s with ⟨b, transact1, s1⟩
    cases b with
    | true =>
      refine ⟨0, ?_, ?_, ?_⟩
      · simp [offerDst, observedDst, observed, hv]
      · simp
      · simp [offerDst, hv]
    | false =>
      obtain ⟨m, hm, htrue, hfalse⟩ := ih (i + 1) transact1 s1 (log ++ [(Port.dst i, false)])
      have hstep : offerDst (v :: rest) transact s = offerDst rest transact1 s1 := by
        simp [offerDst, hv]
      have hobs : offerDst (observedDst i (v :: rest)) transact (s, log) =
          offerDst (observedDst (i + 1) rest) transact1 (s1, log ++ [(Port.dst i, false)]) := by
        simp [offerDst, observedDst, observed, hv]
      refine ⟨m + 1, ?_, ?_, ?_⟩
      · rw [hobs, hm, hstep]
        have hrange : (List.range (m + 1)).map (fun j => (Port.dst (i + j), false)) =
            (Port.dst i, false) ::
              (List.range m).map (fun j => (Port.dst (i + 1 + j), false)) := by
          rw [List.range_succ_eq_map, List.map_cons, List.map_map]
          refine congrArg₂ _ rfl (List.map_congr_left ?_)
          intro j _
          simp only [Function.comp, Nat.succ_eq_add_one]
          congr 2
          omega
        rw [hrange]
        have hidx : i + 1 + m = i + (m + 1) := by omega
        simp only [hidx, List.append_assoc, List.singleton_append, List.cons_append,
          List.nil_append]
      · intro h
        rw [hstep] at h
        have := htrue h
        simp only [List.length_cons]
        omega
      · intro h
        rw [hstep] at h
        have := hfalse h
        simp only [List.length_cons]
        omega

/-- C10: routing of Check.AppendTransact, read off a log of the offers made
(each successor records its index in GetDst() and its answer, the
false-path block records itself); the logged run answers and leaves the
transaction and the network as the run itself.  When the predicate holds,
the log is: successors 0 .. m-1 in registration order, each answering
false, then successor m answering true if the call returns true; no entry
of the false-path block; the call returns true exactly when it stopped
before the end of the list, and false when all successors were offered and
none accepted.  When the predicate does not hold, no successor is in the
log: with a false-path block the log is its single answer, which the call
returns; with none the log is empty and the call returns false. -/
theorem Check.AppendTransact_routing {σ : Type} (obj : Check σ) (dst : List (Offer σ))
    (transact : Transaction) (s : σ) :
    ((obj.observe.AppendTransact (observedDst 0 dst) transact (s, [])).1 =
        (obj.AppendTransact dst transact s).1 ∧
      (obj.observe.AppendTransact (observedDst 0 dst) transact (s, [])).2.2.1 =
        (obj.AppendTransact dst transact s).2.2.1 ∧
      (obj.observe.AppendTransact (observedDst 0 dst) transact (s, [])).2.2.2.1 =
        (obj.AppendTransact dst transact s).2.2.2) ∧
    (obj.HandleChecking obj.toCheckData transact = true →
      ∃ m : Nat,
        (obj.observe.AppendTransact (observedDst 0 dst) transact (s, [])).2.2.2.2 =
          ((List.range m).map fun j => (Port.dst j, false)) ++
            (if (obj.AppendTransact dst transact s).1 = true then [(Port.dst m, true)]
              else []) ∧
        ((obj.AppendTransact dst transact s).1 = true → m < dst.length) ∧
        ((obj.AppendTransact dst transact s).1 = false → m = dst.length)) ∧
    (obj.HandleChecking obj.toCheckData transact = false →
      (∀ f, obj.falseObj = some f →
        (obj.observe.AppendTransact (observedDst 0 dst) transact (s, [])).2.2.2.2 =
          [(Port.falseObj, (f transact s).1)] ∧
        (obj.AppendTransact dst transact s).1 = (f transact s).1 ∧
        (obj.AppendTransact dst transact s).2.2.1 = (f transact s).2.1 ∧
        (obj.AppendTransact dst transact s).2.2.2 = (f transact s).2.2) ∧
      (obj.falseObj = none →
        (obj.observe.AppendTransact (observedDst 0 dst) transact (s, [])).2.2.2.2 = [] ∧
        (obj.AppendTransact dst transact s).1 = false ∧
        (obj.AppendTransact dst transact s).2.2.1 = transact ∧
        (obj.AppendTransact dst transact s).2.2.2 = s)) := by
  cases hp : obj.HandleChecking obj.toCheckData transact with
  | true =>
    obtain ⟨m, hm, htrue, hfalse⟩ := offerDst_observedDst dst 0 transact s []
    have hrun : (obj.AppendTransact dst transact s).1 = (offerDst dst transact s).1 := by
      simp [Check.AppendTransact, hp]
    refine ⟨?_, fun _ => ⟨m, ?_, ?_, ?_⟩, fun h => absurd h (by simp)⟩
    · simp [Check.AppendTransact, Check.observe, hp, hm]
    · rw [hrun]
      simp [Check.AppendTransact, Check.observe, hp, hm]
    · rw [hrun]; exact htrue
    · rw [hrun]; exact hfalse
  | false =>
    cases hf : obj.falseObj with
    | none =>
      refine ⟨?_, fun h => absurd h (by simp), fun _ => ⟨?_, ?_⟩⟩
      · simp [Check.AppendTransact, Check.observe, hp, hf]
      · intro f hsome
        exact absurd hsome (by simp)
      · intro _
        simp [Check.AppendTransact, Check.observe, hp, hf]
    | some f =>
      rcases hv : f transact s with ⟨b, transact1, s1⟩
      refine ⟨?_, fun h => absurd h (by simp), fun _ => ⟨?_, ?_⟩⟩
      · cases b <;> simp [Check.AppendTransact, Check.observe, observed, hp, hf, hv]
      · intro g hsome
        have hg : f = g := by simpa using hsome
        subst hg
        cases b <;> simp [Check.AppendTransact, Check.observe, observed, hp, hf, hv]
      · intro hnone
        exact absurd hnone (by simp)

/-! ## Advance: the delay -/

theorem Advance.HandleTransact_of_one_lt {σ : Type} (obj : Advance) (dst : List (Offer σ))
    (transact : Transaction) (s : σ) (h : 1 < transact.ticks) :
    obj.HandleTransact dst transact s =
      (obj, { transact with ticks := transact.ticks - 1 }, s) := by
  have h1 : ¬ (transact.ticks - 1 < 0) := by omega
  have h2 : ¬ (transact.ticks - 1 = 0) := by omega
  simp [Advance.HandleTransact, Transaction.DecTicks, Transaction.IsTheEnd, h1, h2]

theorem Advance.HandleTransact_of_le_one {σ : Type} (obj : Advance) (dst : List (Offer σ))
    (transact : Transaction) (s : σ) (h : transact.ticks ≤ 1) :
    obj.HandleTransact dst transact s =
      (if (offerDst dst { transact with ticks := 0 } s).1 = true then
          { obj with tb := obj.tb.Remove (offerDst dst { transact with ticks := 0 } s).2.1 }
        else obj,
        (offerDst dst { transact with ticks := 0 } s).2) := by
  have hdec : transact.DecTicks = { transact with ticks := 0 } := by
    unfold Transaction.DecTicks
    by_cases h0 : transact.ticks - 1 < 0
    · simp [h0]
    · have h1 : transact.ticks - 1 = 0 := by omega
      simp [h1]
  simp only [Advance.HandleTransact, hdec, Transaction.IsTheEnd, beq_self_eq_true, if_true]
  rcases offerDst dst { transact with ticks := 0 } s with ⟨b, transact1, s1⟩
  cases b <;> simp

theorem TransactTable.Holds_Push (tb : TransactTable) (t u : Transaction)
    (h : u.GetId = t.GetId) : (tb.Push u).Holds t := by
  unfold TransactTable.Push TransactTable.Holds
  rw [← h]
  split
  · assumption
  · simp

/-- C11: an Advance has Interval n >= 1 and Modificator 0, and its successors
leave the id of an offered transaction as it is.  AppendTransact accepts the
transaction, sets its ticks to n and its advance time to a + n, and holds
it.  After each of the first k < n calls of HandleTransact the block is
unchanged (the transaction is still held), the ticks are n - k and the log
of offers is empty: no successor was offered the transaction.  The n-th
call offers the transaction, with ticks 0 and advance time a + n, to the
successors in order, and the transaction leaves the holding set if one
accepts and stays in it if none does. -/
theorem Advance.delay_then_forward {σ : Type} (obj : Advance) (dst : List (Offer σ))
    (n : Nat) (rnd : Int) (transact : Transaction) (s : σ)
    (b : Bool) (obj1 : Advance) (transact1 : Transaction)
    (hn : 1 ≤ n) (hI : obj.Interval = n) (hM : obj.Modificator = 0)
    (hid : ∀ v ∈ dst, ∀ (t : Transaction) (s : σ), (v t s).2.1.GetId = t.GetId)
    (happ : obj.AppendTransact rnd transact = (b, obj1, transact1)) :
    b = true ∧ transact1.GetTicks = n ∧
    transact1.GetAdvanceTime = transact.GetAdvanceTime + n ∧
    obj1.tb.Holds transact ∧
    (∀ k : Nat, k < n →
      Advance.handleTimes (observedDst 0 dst) k (obj1, transact1, (s, [])) =
        (obj1, { transact1 with ticks := n - k }, (s, []))) ∧
    ({ transact1 with ticks := 0 } : Transaction).GetAdvanceTime =
      transact.GetAdvanceTime + n ∧
    (Advance.handleTimes dst n (obj1, transact1, s)).2 =
      (offerDst dst { transact1 with ticks := 0 } s).2 ∧
    ((offerDst dst { transact1 with ticks := 0 } s).1 = true →
      ¬ (Advance.handleTimes dst n (obj1, transact1, s)).1.tb.Holds transact) ∧
    ((offerDst dst { transact1 with ticks := 0 } s).1 = false →
      (Advance.handleTimes dst n (obj1, transact1, s)).1.tb.Holds transact) := by
  have hgen : obj.GenerateAdvance rnd = n := by
    simp [Advance.GenerateAdvance, hM, hI]
  simp only [Advance.AppendTransact, hgen, Prod.mk.injEq] at happ
  obtain ⟨hb, hobj, ht⟩ := happ
  have hticks : transact1.ticks = n := by rw [← ht]; rfl
  have hadv : transact1.advance = transact.advance + n := by rw [← ht]; rfl
  have hid1 : transact1.GetId = transact.GetId := by rw [← ht]; rfl
  have hheld : obj1.tb.Holds transact := by
    rw [← hobj]
    exact TransactTable.Holds_Push _ _ _ rfl
  have hwait : ∀ {τ : Type} (d : List (Offer τ)) (x : τ) (k : Nat), k < n →
      Advance.handleTimes d k (obj1, transact1, x) =
        (obj1, { transact1 with ticks := n - k }, x) := by
    intro τ d x k
    induction k with
    | zero =>
      intro _
      simp only [Advance.handleTimes, Nat.cast_zero, sub_zero, ← hticks]
    | succ k ih =>
      intro hk
      have ihk := ih (by omega)
      simp only [Advance.handleTimes, ihk]
      rw [Advance.HandleTransact_of_one_lt]
      · simp only [Nat.cast_add, Nat.cast_one, Prod.mk.injEq, true_and, and_true]
        congr 1
        omega
      · simp only
        omega
  have hlast : ∀ {τ : Type} (d : List (Offer τ)) (x : τ),
      Advance.handleTimes d n (obj1, transact1, x) =
        (if (offerDst d { transact1 with ticks := 0 } x).1 = true then
            { obj1 with tb := obj1.tb.Remove (offerDst d { transact1 with ticks := 0 } x).2.1 }
          else obj1,
          (offerDst d { transact1 with ticks := 0 } x).2) := by
    intro τ d x
    obtain ⟨m, rfl⟩ : ∃ m, n = m + 1 := ⟨n - 1, by omega⟩
    simp only [Advance.handleTimes, hwait d x m (by omega)]
    have hle : ({ transact1 with ticks := ((m + 1 : Nat) : Int) - (m : Int) } :
        Transaction).ticks ≤ 1 := by
      simp only
      push_cast
      omega
    rw [Advance.HandleTransact_of_le_one _ _ _ _ hle]
  refine ⟨hb.symm, hticks, hadv, hheld, fun k hk => hwait _ _ k hk, hadv, ?_, ?_, ?_⟩
  · rw [hlast]
  · intro hacc
    rw [hlast]
    simp only [hacc, if_true]
    refine TransactTable.not_Holds_Remove obj1.tb transact _ ?_
    rw [offerDst_GetId dst hid]
    exact hid1
  · intro hrej
    rw [hlast]
    simp only [hrej, Bool.false_eq_true, if_false]
    exact hheld

theorem Advance.delay_then_forward_witness :
    true = true ∧
    (⟨1, 0, 0, 2, 2, "A", 0, ⟨0, 0, 0⟩, []⟩ : Transaction).GetTicks = (2 : Nat) ∧
    (⟨1, 0, 0, 2, 2, "A", 0, ⟨0, 0, 0⟩, []⟩ : Transaction).GetAdvanceTime =
      (NewTransaction 1 0).GetAdvanceTime + (2 : Nat) ∧
    (⟨"A", ⟨[1]⟩, 2, 0, 2, 1⟩ : Advance).tb.Holds (NewTransaction 1 0) ∧
    (∀ k : Nat, k < 2 →
      Advance.handleTimes (observedDst 0 [recordingSink]) k
        (⟨"A", ⟨[1]⟩, 2, 0, 2, 1⟩, ⟨1, 0, 0, 2, 2, "A", 0, ⟨0, 0, 0⟩, []⟩, ([], [])) =
        (⟨"A", ⟨[1]⟩, 2, 0, 2, 1⟩,
          { (⟨1, 0, 0, 2, 2, "A", 0, ⟨0, 0, 0⟩, []⟩ : Transaction) with
            ticks := (2 : Nat) - k }, ([], []))) ∧
    ({ (⟨1, 0, 0, 2, 2, "A", 0, ⟨0, 0, 0⟩, []⟩ : Transaction) with
        ticks := 0 } : Transaction).GetAdvanceTime =
      (NewTransaction 1 0).GetAdvanceTime + (2 : Nat) ∧
    (Advance.handleTimes [recordingSink] 2
        (⟨"A", ⟨[1]⟩, 2, 0, 2, 1⟩, ⟨1, 0, 0, 2, 2, "A", 0, ⟨0, 0, 0⟩, []⟩, [])).2 =
      (offerDst [recordingSink]
        { (⟨1, 0, 0, 2, 2, "A", 0, ⟨0, 0, 0⟩, []⟩ : Transaction) with ticks := 0 } []).2 ∧
    ((offerDst [recordingSink]
        { (⟨1, 0, 0, 2, 2, "A", 0, ⟨0, 0, 0⟩, []⟩ : Transaction) with ticks := 0 } []).1
        = true →
      ¬ (Advance.handleTimes [recordingSink] 2
        (⟨"A", ⟨[1]⟩, 2, 0, 2, 1⟩, ⟨1, 0, 0, 2, 2, "A", 0, ⟨0, 0, 0⟩, []⟩,
          [])).1.tb.Holds (NewTransaction 1 0)) ∧
    ((offerDst [recordingSink]
        { (⟨1, 0, 0, 2, 2, "A", 0, ⟨0, 0, 0⟩, []⟩ : Transaction) with ticks := 0 } []).1
        = false →
      (Advance.handleTimes [recordingSink] 2
        (⟨"A", ⟨[1]⟩, 2, 0, 2, 1⟩, ⟨1, 0, 0, 2, 2, "A", 0, ⟨0, 0, 0⟩, []⟩,
          [])).1.tb.Holds (NewTransaction 1 0)) :=
  Advance.delay_then_forward delayTwo [recordingSink] 2 0 (NewTransaction 1 0) []
    true ⟨"A", ⟨[1]⟩, 2, 0, 2, 1⟩ ⟨1, 0, 0, 2, 2, "A", 0, ⟨0, 0, 0⟩, []⟩
    (by decide) (by decide) (by decide)
    (by
      intro v hv t s
      simp only [List.mem_singleton] at hv
      subst hv
      rfl)
    (by decide)

/-! ## Advance: Interval zero -/

theorem Advance.ticksTimes_of_Interval_zero {σ : Type} (obj : Advance) (dst : List (Offer σ))
    (store : Store) (s : σ) (hI : obj.Interval = 0) :
    ∀ k : Nat, Advance.ticksTimes dst k (obj, store, s) = (obj, store, s) := by
  intro k
  induction k with
  | zero => rfl
  | succ k ih => simp [Advance.ticksTimes, ih, Advance.HandleTransacts, hI]

/-- C12: an Advance has Interval 0, in any state.  AppendTransact accepts
every offered transaction and holds it.  HandleTransacts returns the block,
the objects of its items and the rest of the network as they were, whatever
the successors: the holding set and the ticks of every held transaction
are unchanged, and the log of offers stays empty.  The same holds after any
number k of ticks, so the accepted transaction is still in the holding set
then. -/
theorem Advance.interval_zero_no_work {σ : Type} (obj : Advance) (dst : List (Offer σ))
    (rnd : Int) (transact : Transaction) (store : Store) (s : σ) (k : Nat)
    (hI : obj.Interval = 0) :
    (obj.AppendTransact rnd transact).1 = true ∧
    (obj.AppendTransact rnd transact).2.1.tb.Holds transact ∧
    obj.HandleTransacts dst store s = (obj, store, s) ∧
    obj.HandleTransacts (observedDst 0 dst) store (s, []) = (obj, store, (s, [])) ∧
    Advance.ticksTimes (observedDst 0 dst) k
        ((obj.AppendTransact rnd transact).2.1, store, (s, [])) =
      ((obj.AppendTransact rnd transact).2.1, store, (s, [])) ∧
    (Advance.ticksTimes (observedDst 0 dst) k
        ((obj.AppendTransact rnd transact).2.1, store, (s, []))).1.tb.Holds transact := by
  have hheld : (obj.AppendTransact rnd transact).2.1.tb.Holds transact :=
    TransactTable.Holds_Push _ _ _ rfl
  have hI1 : (obj.AppendTransact rnd transact).2.1.Interval = 0 := hI
  have hk := Advance.ticksTimes_of_Interval_zero (obj.AppendTransact rnd transact).2.1
    (observedDst 0 dst) store (s, []) hI1 k
  refine ⟨rfl, hheld, ?_, ?_, hk, ?_⟩
  · simp [Advance.HandleTransacts, hI]
  · simp [Advance.HandleTransacts, hI]
  · rw [hk]
    exact hheld

theorem Advance.interval_zero_no_work_witness :
    (delayZero.AppendTransact 0 (NewTransaction 8 0)).1 = true ∧
    (delayZero.AppendTransact 0 (NewTransaction 8 0)).2.1.tb.Holds (NewTransaction 8 0) ∧
    delayZero.HandleTransacts [recordingSink] [(7, NewTransaction 7 0)] [] =
      (delayZero, [(7, NewTransaction 7 0)], []) ∧
    delayZero.HandleTransacts (observedDst 0 [recordingSink]) [(7, NewTransaction 7 0)]
      ([], []) = (delayZero, [(7, NewTransaction 7 0)], ([], [])) ∧
    Advance.ticksTimes (observedDst 0 [recordingSink]) 5
        ((delayZero.AppendTransact 0 (NewTransaction 8 0)).2.1, [(7, NewTransaction 7 0)],
          ([], [])) =
      ((delayZero.AppendTransact 0 (NewTransaction 8 0)).2.1, [(7, NewTransaction 7 0)],
        ([], [])) ∧
    (Advance.ticksTimes (observedDst 0 [recordingSink]) 5
        ((delayZero.AppendTransact 0 (NewTransaction 8 0)).2.1, [(7, NewTransaction 7 0)],
          ([], []))).1.tb.Holds (NewTransaction 8 0) :=
  Advance.interval_zero_no_work delayZero [recordingSink] 0 (NewTransaction 8 0)
    [(7, NewTransaction 7 0)] [] 5 (by decide)

/-! ## Transaction: ticks, advance time and the kill stamp -/

theorem Transaction.DecTicks_eq (t : Transaction) :
    t.DecTicks = { t with ticks := if t.ticks - 1 < 0 then 0 else t.ticks - 1 } := by
  unfold Transaction.DecTicks
  simp only
  split <;> rfl

theorem wrapInt_IsInt (x : Int) : IsInt (wrapInt x) := by
  unfold IsInt wrapInt minInt maxInt
  omega

theorem wrapInt_of_IsInt (x : Int) (h : IsInt x) : wrapInt x = x := by
  unfold IsInt minInt maxInt at h
  unfold wrapInt
  omega

/-- The bounds are those of a 64-bit word, and a wrapped value differs from
the exact one by a multiple of `2^64`. -/
theorem wrapInt_congruent (x : Int) :
    minInt = -2 ^ 63 ∧ maxInt = 2 ^ 63 - 1 ∧ (wrapInt x - x) % 2 ^ 64 = 0 := by
  refine ⟨by norm_num [minInt], by norm_num [maxInt], ?_⟩
  have h64 : (2 : Int) ^ 64 = 18446744073709551616 := by norm_num
  rw [h64]
  unfold wrapInt
  omega

theorem Machine.Transaction.DecTicks_wrap_eq (t : Transaction) :
    Machine.Transaction.DecTicks t =
      { t with ticks := if wrapInt (t.ticks - 1) < 0 then 0 else wrapInt (t.ticks - 1) } := by
  unfold Machine.Transaction.DecTicks
  simp only
  split <;> rfl

/-- Above the least machine integer the decrement does not wrap: the machine
operation is the exact one. -/
theorem Machine.Transaction.DecTicks_exact (t : Transaction) (h : IsInt t.ticks)
    (hlo : minInt < t.ticks) : Machine.Transaction.DecTicks t = t.DecTicks := by
  rw [Machine.Transaction.DecTicks_wrap_eq, Gpss.Transaction.DecTicks_eq,
    wrapInt_of_IsInt (t.ticks - 1) (by unfold IsInt minInt maxInt at *; omega)]

/-- When the sum is in the range the machine operation is the exact one. -/
theorem Machine.Transaction.SetTicks_exact (t : Transaction) (interval : Int)
    (h : IsInt (t.advance + interval)) :
    Machine.Transaction.SetTicks t interval = t.SetTicks interval := by
  unfold Machine.Transaction.SetTicks Gpss.Transaction.SetTicks
  rw [wrapInt_of_IsInt _ h]

theorem Machine.Advance.GenerateAdvance_exact (obj : Advance) (rnd : Int)
    (h : IsInt (obj.Interval + rnd)) :
    Machine.Advance.GenerateAdvance obj rnd = obj.GenerateAdvance rnd := by
  unfold Machine.Advance.GenerateAdvance Gpss.Advance.GenerateAdvance
  rw [wrapInt_of_IsInt _ h]

theorem Machine.Facility.GenerateAdvance_in_range (obj : Facility) (rnd : Int)
    (h : IsInt (obj.Interval + rnd)) :
    Machine.Facility.GenerateAdvance obj rnd = obj.GenerateAdvance rnd := by
  unfold Machine.Facility.GenerateAdvance Gpss.Facility.GenerateAdvance
  rw [wrapInt_of_IsInt _ h]

/-- When the sums are in the range, acceptance on machine integers is the
exact one. -/
theorem Machine.Advance.AppendTransact_exact (obj : Advance) (rnd : Int)
    (transact : Transaction) (h : IsInt (obj.Interval + rnd))
    (hsum : IsInt (transact.advance + obj.GenerateAdvance rnd)) :
    Machine.Advance.AppendTransact obj rnd transact = obj.AppendTransact rnd transact := by
  unfold Machine.Advance.AppendTransact Gpss.Advance.AppendTransact
  simp only [Machine.Advance.GenerateAdvance_exact obj rnd h]
  rw [Machine.Transaction.SetTicks_exact (transact.SetHolderName obj.name) _ hsum]

theorem Machine.Facility.AppendTransact_exact_sums (obj : Facility) (rnd : Int)
    (transact : Transaction) (h : IsInt (obj.Interval + rnd))
    (hsum : IsInt (transact.advance + obj.GenerateAdvance rnd)) :
    Machine.Facility.AppendTransact obj rnd transact = obj.AppendTransact rnd transact := by
  unfold Machine.Facility.AppendTransact Gpss.Facility.AppendTransact
  simp only [Machine.Facility.GenerateAdvance_in_range obj rnd h]
  rw [Machine.Transaction.SetTicks_exact (transact.SetHolderName obj.name) _ hsum]

theorem Machine.Transaction.InqQueueTime_exact (t : Transaction)
    (hq : IsInt (t.timequeue + 1)) (ha : IsInt (t.advance + 1)) :
    Machine.Transaction.InqQueueTime t = t.InqQueueTime := by
  unfold Machine.Transaction.InqQueueTime Gpss.Transaction.InqQueueTime
  rw [wrapInt_of_IsInt _ hq, wrapInt_of_IsInt _ ha]
/-- C13, the claim fails at the least machine integer: SetTicks(MinInt64)
leaves the ticks of a new transaction at MinInt64, which is <= 0, and the
decrement of DecTicks wraps around to MaxInt64, which is not < 0, so the
ticks are MaxInt64 after DecTicks and not 0. -/
theorem Transaction.DecTicks_wraps_at_minInt :
    (Machine.Transaction.SetTicks (NewTransaction 1 0) minInt).GetTicks = minInt ∧
    minInt ≤ 0 ∧
    IsInt minInt ∧
    (Machine.Transaction.DecTicks
      (Machine.Transaction.SetTicks (NewTransaction 1 0) minInt)).GetTicks = maxInt ∧
    maxInt ≠ 0 := by
  refine ⟨by decide, by decide, by decide, by decide, by decide⟩

/-- C13, amended: for every transaction, whose ticks k are a machine integer,
after DecTicks the ticks are >= 0 (and a machine integer): they are k - 1
when k >= 1, 0 when MinInt64 < k <= 0, and MaxInt64 when k is MinInt64, the
decrement wrapping around; no other field of the transaction changes. -/
theorem Transaction.DecTicks_floor_amended (t : Transaction) (h : IsInt t.GetTicks) :
    0 ≤ (Machine.Transaction.DecTicks t).GetTicks ∧
    IsInt (Machine.Transaction.DecTicks t).GetTicks ∧
    (1 ≤ t.GetTicks → (Machine.Transaction.DecTicks t).GetTicks = t.GetTicks - 1) ∧
    (minInt < t.GetTicks → t.GetTicks ≤ 0 → (Machine.Transaction.DecTicks t).GetTicks = 0) ∧
    (t.GetTicks = minInt → (Machine.Transaction.DecTicks t).GetTicks = maxInt) ∧
    Machine.Transaction.DecTicks t =
      { t with ticks := (Machine.Transaction.DecTicks t).GetTicks } := by
  rw [Machine.Transaction.DecTicks_wrap_eq]
  unfold IsInt at *
  simp only [Transaction.GetTicks, wrapInt, minInt, maxInt] at *
  refine ⟨?_, ?_, ?_, ?_, ?_, trivial⟩
  · split <;> omega
  · split <;> omega
  · intro h1
    split <;> omega
  · intro h1 h2
    split <;> omega
  · intro h1
    split <;> omega

theorem Transaction.DecTicks_floor_amended_witness :
    IsInt threeTicks.GetTicks ∧
    0 ≤ (Machine.Transaction.DecTicks threeTicks).GetTicks ∧
    IsInt (Machine.Transaction.DecTicks threeTicks).GetTicks ∧
    (1 ≤ threeTicks.GetTicks →
      (Machine.Transaction.DecTicks threeTicks).GetTicks = threeTicks.GetTicks - 1) ∧
    (minInt < threeTicks.GetTicks → threeTicks.GetTicks ≤ 0 →
      (Machine.Transaction.DecTicks threeTicks).GetTicks = 0) ∧
    (threeTicks.GetTicks = minInt →
      (Machine.Transaction.DecTicks threeTicks).GetTicks = maxInt) ∧
    Machine.Transaction.DecTicks threeTicks =
      { threeTicks with ticks := (Machine.Transaction.DecTicks threeTicks).GetTicks } :=
  ⟨by decide, Transaction.DecTicks_floor_amended threeTicks (by decide)⟩

/-- C14, the claim fails: SetTicks(-1) on a new transaction leaves ticks at
-1; an Advance and a Facility with Interval 1 and Modificator 3, the jitter
generator returning -3, leave the ticks of the transaction they accept
at -2.  No sum leaves the range of a machine integer here: the operations on
machine integers give the same ticks. -/
theorem Transaction.ticks_negative_after_SetTicks :
    0 ≤ (NewTransaction 1 0).GetTicks ∧
    ((NewTransaction 1 0).SetTicks (-1)).GetTicks = -1 ∧
    ((NewAdvance "A" 1 3).AppendTransact (-3) (NewTransaction 1 0)).2.2.GetTicks = -2 ∧
    ((NewFacility "F" 1 3).AppendTransact (-3) (NewTransaction 1 0)).map
      (fun r => (r.1, r.2.2.GetTicks)) = some (true, -2) ∧
    (Machine.Transaction.SetTicks (NewTransaction 1 0) (-1)).GetTicks = -1 ∧
    (Machine.Advance.AppendTransact (NewAdvance "A" 1 3) (-3)
      (NewTransaction 1 0)).2.2.GetTicks = -2 ∧
    (Machine.Facility.AppendTransact (NewFacility "F" 1 3) (-3) (NewTransaction 1 0)).map
      (fun r => (r.1, r.2.2.GetTicks)) = some (true, -2) := by
  refine ⟨by decide, by decide, by decide, by decide, by decide, by decide, by decide⟩

theorem Facility.AppendTransact_ticks (obj : Facility) (rnd : Int) (transact : Transaction)
    (obj1 : Facility) (transact1 : Transaction)
    (h : obj.AppendTransact rnd transact = some (true, obj1, transact1)) :
    transact1.ticks = obj.GenerateAdvance rnd ∧
    transact1.advance = transact.advance + obj.GenerateAdvance rnd := by
  by_cases hlen : obj.tb.GetLen = 0
  · unfold Facility.AppendTransact at h
    simp only [hlen, bne_self_eq_false, Bool.false_eq_true, if_false] at h
    split at h
    · exact absurd h (by simp)
    · simp only [Option.some.injEq, Prod.mk.injEq, true_and] at h
      obtain ⟨-, ht⟩ := h
      rw [← ht]
      exact ⟨rfl, rfl⟩
  · rw [Facility.AppendTransact_of_busy obj rnd transact hlen] at h
    simp at h

theorem Machine.Facility.AppendTransact_busy (obj : Facility) (rnd : Int)
    (transact : Transaction) (h : obj.tb.GetLen ≠ 0) :
    Machine.Facility.AppendTransact obj rnd transact = some (false, obj, transact) := by
  simp [Machine.Facility.AppendTransact, h]

theorem Machine.Facility.AppendTransact_fields (obj : Facility) (rnd : Int)
    (transact : Transaction) (b : Bool) (obj1 : Facility) (transact1 : Transaction)
    (h : Machine.Facility.AppendTransact obj rnd transact = some (b, obj1, transact1)) :
    (b = false ∧ obj1 = obj ∧ transact1 = transact ∧ obj.tb.GetLen ≠ 0) ∨
    (b = true ∧ obj.tb.GetLen = 0 ∧
      transact1.ticks = Machine.Facility.GenerateAdvance obj rnd ∧
      transact1.advance =
        wrapInt (transact.advance + Machine.Facility.GenerateAdvance obj rnd)) := by
  by_cases hlen : obj.tb.GetLen = 0
  · right
    unfold Machine.Facility.AppendTransact at h
    simp only [hlen, bne_self_eq_false, Bool.false_eq_true, if_false] at h
    split at h
    · exact absurd h (by simp)
    · simp only [Option.some.injEq, Prod.mk.injEq] at h
      obtain ⟨hb, -, ht⟩ := h
      rw [← ht]
      exact ⟨hb.symm, hlen, rfl, rfl⟩
  · left
    rw [Machine.Facility.AppendTransact_busy obj rnd transact hlen] at h
    simp only [Option.some.injEq, Prod.mk.injEq] at h
    obtain ⟨hb, hobj, ht⟩ := h
    exact ⟨hb.symm, hobj.symm, ht.symm, hlen⟩

/-- The generated delay is >= 0, and the sum that gives it does not wrap
around, when Interval >= 0, Modificator <= Interval, Interval + Modificator
is at most MaxInt64 and the jitter is in [-Modificator, Modificator]. -/
theorem Machine.delay_nonneg (Interval Modificator rnd : Int)
    (h0 : 0 ≤ Interval) (hm : Modificator ≤ Interval)
    (hfit : Interval + Modificator ≤ maxInt)
    (hrnd : 0 < Modificator → -Modificator ≤ rnd ∧ rnd ≤ Modificator) :
    0 ≤ (if Modificator > 0 then wrapInt (Interval + rnd) else Interval) := by
  split
  · next hpos =>
    have := hrnd hpos
    unfold maxInt at hfit
    unfold wrapInt
    omega
  · exact h0

/-- The sums that wrap around: an Advance and a Facility with Interval
MaxInt64 and Modificator 1, the jitter generator returning 1, leave the
ticks of the transaction they accept at MinInt64; SetTicks(1) on a
transaction whose advance time is MaxInt64 leaves the advance time at
MinInt64. -/
theorem Machine.AppendTransact_wraps :
    (Machine.Advance.AppendTransact (NewAdvance "A" maxInt 1) 1
      (NewTransaction 1 0)).2.2.GetTicks = minInt ∧
    (Machine.Facility.AppendTransact (NewFacility "F" maxInt 1) 1 (NewTransaction 1 0)).map
      (fun r => (r.1, r.2.2.GetTicks)) = some (true, minInt) ∧
    (Machine.Transaction.SetTicks (NewTransaction 1 0) maxInt).GetAdvanceTime = maxInt ∧
    (Machine.Transaction.SetTicks (Machine.Transaction.SetTicks (NewTransaction 1 0) maxInt)
      1).GetAdvanceTime = minInt := by
  refine ⟨by decide, by decide, by decide, by decide⟩

/-- C14, amended: on machine integers, ticks >= 0 holds after NewTransaction
and after DecTicks.  SetTicks(interval) leaves ticks >= 0 exactly when
interval >= 0.  An Advance or a Facility that accepts a transaction sets
its ticks to the generated delay, Interval plus the jitter (the sum
wrapping around) when Modificator > 0: the ticks are >= 0 after acceptance
whenever Interval >= 0, Modificator <= Interval, Interval + Modificator is
at most MaxInt64 and the jitter is in [-Modificator, Modificator].  A
Facility that rejects leaves the ticks as they were. -/
theorem Transaction.ticks_nonneg_amended (t : Transaction) (id modelTime interval rnd : Int)
    (adv : Advance) (fac : Facility) :
    0 ≤ (NewTransaction id modelTime).GetTicks ∧
    0 ≤ (Machine.Transaction.DecTicks t).GetTicks ∧
    (0 ≤ (Machine.Transaction.SetTicks t interval).GetTicks ↔ 0 ≤ interval) ∧
    (Machine.Advance.AppendTransact adv rnd t).2.2.GetTicks =
      Machine.Advance.GenerateAdvance adv rnd ∧
    (0 ≤ adv.Interval → adv.Modificator ≤ adv.Interval →
      adv.Interval + adv.Modificator ≤ maxInt →
      (0 < adv.Modificator → -adv.Modificator ≤ rnd ∧ rnd ≤ adv.Modificator) →
      0 ≤ (Machine.Advance.AppendTransact adv rnd t).2.2.GetTicks) ∧
    (∀ (fac1 : Facility) (t1 : Transaction),
      Machine.Facility.AppendTransact fac rnd t = some (true, fac1, t1) →
      t1.GetTicks = Machine.Facility.GenerateAdvance fac rnd) ∧
    (∀ (fac1 : Facility) (t1 : Transaction),
      Machine.Facility.AppendTransact fac rnd t = some (false, fac1, t1) →
      t1.GetTicks = t.GetTicks) ∧
    (∀ (b : Bool) (fac1 : Facility) (t1 : Transaction),
      Machine.Facility.AppendTransact fac rnd t = some (b, fac1, t1) →
      0 ≤ fac.Interval → fac.Modificator ≤ fac.Interval →
      fac.Interval + fac.Modificator ≤ maxInt →
      (0 < fac.Modificator → -fac.Modificator ≤ rnd ∧ rnd ≤ fac.Modificator) →
      0 ≤ t.GetTicks → 0 ≤ t1.GetTicks) := by
  refine ⟨by simp [NewTransaction, Transaction.GetTicks], ?_, ?_, rfl, ?_, ?_, ?_, ?_⟩
  · rw [Machine.Transaction.DecTicks_wrap_eq]
    simp only [Transaction.GetTicks]
    split <;> omega
  · simp [Machine.Transaction.SetTicks, Transaction.GetTicks]
  · intro h0 hm hfit hrnd
    exact Machine.delay_nonneg _ _ rnd h0 hm hfit hrnd
  · intro fac1 t1 happ
    rcases Machine.Facility.AppendTransact_fields fac rnd t true fac1 t1 happ with
      ⟨hb, -⟩ | ⟨-, -, hticks, -⟩
    · exact absurd hb (by simp)
    · exact hticks
  · intro fac1 t1 happ
    rcases Machine.Facility.AppendTransact_fields fac rnd t false fac1 t1 happ with
      ⟨-, -, ht1, -⟩ | ⟨hb, -⟩
    · rw [ht1]
    · exact absurd hb (by simp)
  · intro b fac1 t1 happ h0 hm hfit hrnd ht
    rcases Machine.Facility.AppendTransact_fields fac rnd t b fac1 t1 happ with
      ⟨-, -, ht1, -⟩ | ⟨-, -, hticks, -⟩
    · rw [ht1]; exact ht
    · simp only [Transaction.GetTicks, hticks]
      exact Machine.delay_nonneg _ _ rnd h0 hm hfit hrnd

theorem Transaction.ticks_nonneg_amended_witness :
    0 ≤ (Machine.Advance.AppendTransact (NewAdvance "A" 5 2) (-2) threeTicks).2.2.GetTicks ∧
    0 ≤ (Machine.Transaction.DecTicks threeTicks).GetTicks :=
  ⟨(Transaction.ticks_nonneg_amended threeTicks 1 0 3 (-2) (NewAdvance "A" 5 2)
      (NewFacility "F" 5 2)).2.2.2.2.1 (by decide) (by decide) (by decide)
      (fun _ => ⟨by decide, by decide⟩),
   (Transaction.ticks_nonneg_amended threeTicks 1 0 3 (-2) (NewAdvance "A" 5 2)
      (NewFacility "F" 5 2)).2.1⟩

/-- C15, the claim fails: SetTicks(-1) lowers the advance time of a new
transaction from 0 to -1, and so does acceptance by an Advance or a
Facility with Interval 1 and Modificator 3 when the jitter generator
returns -3 (from 0 to -2).  No sum leaves the range of a machine integer
here: the operations on machine integers give the same advance time. -/
theorem Transaction.advance_decreases_after_SetTicks :
    (NewTransaction 1 0).GetAdvanceTime = 0 ∧
    ((NewTransaction 1 0).SetTicks (-1)).GetAdvanceTime = -1 ∧
    ((NewAdvance "A" 1 3).AppendTransact (-3) (NewTransaction 1 0)).2.2.GetAdvanceTime = -2 ∧
    ((NewFacility "F" 1 3).AppendTransact (-3) (NewTransaction 1 0)).map
      (fun r => (r.1, r.2.2.GetAdvanceTime)) = some (true, -2) ∧
    (Machine.Transaction.SetTicks (NewTransaction 1 0) (-1)).GetAdvanceTime = -1 ∧
    (Machine.Advance.AppendTransact (NewAdvance "A" 1 3) (-3)
      (NewTransaction 1 0)).2.2.GetAdvanceTime = -2 ∧
    (Machine.Facility.AppendTransact (NewFacility "F" 1 3) (-3) (NewTransaction 1 0)).map
      (fun r => (r.1, r.2.2.GetAdvanceTime)) = some (true, -2) := by
  refine ⟨by decide, by decide, by decide, by decide, by decide, by decide, by decide⟩

/-- C15, amended: on machine integers, the advance time a and the interval
being machine integers, SetTicks(interval) leaves the advance time at
a + interval wrapped around, so the advance time does not decrease exactly
when interval >= 0 and a + interval is at most MaxInt64, or interval < 0
and a + interval is below MinInt64; InqQueueTime leaves it at a + 1 wrapped
around, which is no decrease exactly when a < MaxInt64; DecTicks,
ResetQueueTime, Kill and SetParameters leave it as it is; acceptance by an
Advance or a Facility leaves it at a plus the generated delay, wrapped
around, which is no decrease whenever Interval >= 0, Modificator <=
Interval, Interval + Modificator is at most MaxInt64, the jitter is in
[-Modificator, Modificator] and a plus the generated delay is at most
MaxInt64; a Facility that rejects leaves it as it is. -/
theorem Transaction.advance_monotone_amended (t : Transaction) (interval modelTime rnd : Int)
    (ps : List Parameter) (adv : Advance) (fac : Facility)
    (ha : IsInt t.GetAdvanceTime) (hi : IsInt interval) :
    (Machine.Transaction.SetTicks t interval).GetAdvanceTime =
      wrapInt (t.GetAdvanceTime + interval) ∧
    (t.GetAdvanceTime ≤ (Machine.Transaction.SetTicks t interval).GetAdvanceTime ↔
      (0 ≤ interval ∧ t.GetAdvanceTime + interval ≤ maxInt) ∨
      (interval < 0 ∧ t.GetAdvanceTime + interval < minInt)) ∧
    (Machine.Transaction.InqQueueTime t).GetAdvanceTime = wrapInt (t.GetAdvanceTime + 1) ∧
    (t.GetAdvanceTime ≤ (Machine.Transaction.InqQueueTime t).GetAdvanceTime ↔
      t.GetAdvanceTime < maxInt) ∧
    (Machine.Transaction.DecTicks t).GetAdvanceTime = t.GetAdvanceTime ∧
    t.ResetQueueTime.GetAdvanceTime = t.GetAdvanceTime ∧
    (t.Kill modelTime).GetAdvanceTime = t.GetAdvanceTime ∧
    (t.SetParameters ps).GetAdvanceTime = t.GetAdvanceTime ∧
    (Machine.Advance.AppendTransact adv rnd t).2.2.GetAdvanceTime =
      wrapInt (t.GetAdvanceTime + Machine.Advance.GenerateAdvance adv rnd) ∧
    (0 ≤ adv.Interval → adv.Modificator ≤ adv.Interval →
      adv.Interval + adv.Modificator ≤ maxInt →
      (0 < adv.Modificator → -adv.Modificator ≤ rnd ∧ rnd ≤ adv.Modificator) →
      t.GetAdvanceTime + Machine.Advance.GenerateAdvance adv rnd ≤ maxInt →
      t.GetAdvanceTime ≤ (Machine.Advance.AppendTransact adv rnd t).2.2.GetAdvanceTime) ∧
    (∀ (fac1 : Facility) (t1 : Transaction),
      Machine.Facility.AppendTransact fac rnd t = some (true, fac1, t1) →
      t1.GetAdvanceTime =
        wrapInt (t.GetAdvanceTime + Machine.Facility.GenerateAdvance fac rnd)) ∧
    (∀ (fac1 : Facility) (t1 : Transaction),
      Machine.Facility.AppendTransact fac rnd t = some (false, fac1, t1) →
      t1.GetAdvanceTime = t.GetAdvanceTime) ∧
    (∀ (b : Bool) (fac1 : Facility) (t1 : Transaction),
      Machine.Facility.AppendTransact fac rnd t = some (b, fac1, t1) →
      0 ≤ fac.Interval → fac.Modificator ≤ fac.Interval →
      fac.Interval + fac.Modificator ≤ maxInt →
      (0 < fac.Modificator → -fac.Modificator ≤ rnd ∧ rnd ≤ fac.Modificator) →
      t.GetAdvanceTime + Machine.Facility.GenerateAdvance fac rnd ≤ maxInt →
      t.GetAdvanceTime ≤ t1.GetAdvanceTime) := by
  have hmono : ∀ d : Int, 0 ≤ d → t.advance + d ≤ maxInt →
      t.advance ≤ wrapInt (t.advance + d) := by
    intro d hd hfit
    unfold IsInt minInt maxInt at ha
    simp only [Transaction.GetAdvanceTime] at ha
    unfold maxInt at hfit
    unfold wrapInt
    omega
  refine ⟨rfl, ?_, rfl, ?_, ?_, rfl, rfl, rfl, rfl, ?_, ?_, ?_, ?_⟩
  · unfold IsInt minInt maxInt at ha hi
    simp only [Machine.Transaction.SetTicks, Transaction.GetAdvanceTime, wrapInt, minInt,
      maxInt] at *
    omega
  · unfold IsInt minInt maxInt at ha
    simp only [Machine.Transaction.InqQueueTime, Transaction.GetAdvanceTime, wrapInt, minInt,
      maxInt] at *
    omega
  · rw [Machine.Transaction.DecTicks_wrap_eq]
    rfl
  · intro h0 hm hfit hrnd hsum
    exact hmono _ (Machine.delay_nonneg _ _ rnd h0 hm hfit hrnd) hsum
  · intro fac1 t1 happ
    rcases Machine.Facility.AppendTransact_fields fac rnd t true fac1 t1 happ with
      ⟨hb, -⟩ | ⟨-, -, -, hadv⟩
    · exact absurd hb (by simp)
    · exact hadv
  · intro fac1 t1 happ
    rcases Machine.Facility.AppendTransact_fields fac rnd t false fac1 t1 happ with
      ⟨-, -, ht1, -⟩ | ⟨hb, -⟩
    · rw [ht1]
    · exact absurd hb (by simp)
  · intro b fac1 t1 happ h0 hm hfit hrnd hsum
    rcases Machine.Facility.AppendTransact_fields fac rnd t b fac1 t1 happ with
      ⟨-, -, ht1, -⟩ | ⟨-, -, -, hadv⟩
    · rw [ht1]
    · simp only [Transaction.GetAdvanceTime, hadv]
      exact hmono _ (Machine.delay_nonneg _ _ rnd h0 hm hfit hrnd) hsum

theorem Transaction.advance_monotone_amended_witness :
    IsInt threeTicks.GetAdvanceTime ∧ IsInt (4 : Int) ∧
    (Machine.Transaction.SetTicks threeTicks 4).GetAdvanceTime =
      wrapInt (threeTicks.GetAdvanceTime + 4) ∧
    (threeTicks.GetAdvanceTime ≤ (Machine.Transaction.SetTicks threeTicks 4).GetAdvanceTime ↔
      (0 ≤ (4 : Int) ∧ threeTicks.GetAdvanceTime + 4 ≤ maxInt) ∨
      ((4 : Int) < 0 ∧ threeTicks.GetAdvanceTime + 4 < minInt)) :=
  ⟨by decide, by decide,
    (Transaction.advance_monotone_amended threeTicks 4 0 0 [] (NewAdvance "A" 5 2)
      (NewFacility "F" 5 2) (by decide) (by decide)).1,
    (Transaction.advance_monotone_amended threeTicks 4 0 0 [] (NewAdvance "A" 5 2)
      (NewFacility "F" 5 2) (by decide) (by decide)).2.1⟩

/-- C17: evaluation of the code at the failing input.  A transaction made
and killed at model time 0 has rip 0, the model time of the kill, and
GetLife 0, but IsKilled returns false for it. -/
theorem Transaction.killed_at_time_zero :
    ((NewTransaction 1 0).Kill 0).rip = 0 ∧
    ((NewTransaction 1 0).Kill 0).GetLife = 0 ∧
    ((NewTransaction 1 0).Kill 0).IsKilled = false := by
  refine ⟨by decide, by decide, by decide⟩

/-- What Kill does: after Kill at model time m the rip of the transaction
is m and GetLife returns m - born; IsKilled returns true exactly when m is
not 0.  A transaction made by NewTransaction has IsKilled false, and every
operation other than Kill leaves rip, hence IsKilled, as it is. -/
theorem Transaction.Kill_stamps_rip (t : Transaction) (m id modelTime interval : Int)
    (name : String) (ps : List Parameter) (part parts parent_id : Int) :
    (t.Kill m).rip = m ∧
    (t.Kill m).GetLife = m - t.born ∧
    ((t.Kill m).IsKilled = true ↔ m ≠ 0) ∧
    (NewTransaction id modelTime).IsKilled = false ∧
    t.Copy.IsKilled = t.IsKilled ∧
    (t.SetID id).IsKilled = t.IsKilled ∧
    (t.SetTicks interval).IsKilled = t.IsKilled ∧
    t.DecTicks.IsKilled = t.IsKilled ∧
    t.InqQueueTime.IsKilled = t.IsKilled ∧
    t.ResetQueueTime.IsKilled = t.IsKilled ∧
    (t.SetHolderName name).IsKilled = t.IsKilled ∧
    (t.SetParts part parts parent_id).IsKilled = t.IsKilled ∧
    (t.SetParameters ps).IsKilled = t.IsKilled := by
  refine ⟨rfl, rfl, ?_, ?_, rfl, rfl, rfl, ?_, rfl, rfl, rfl, rfl, rfl⟩
  · simp [Transaction.Kill, Transaction.IsKilled]
  · simp [NewTransaction, Transaction.IsKilled]
  · rw [Transaction.DecTicks_eq]
    rfl

/-! ## Transaction: Copy -/

theorem mapIndex_cons (m : ParamMap) (k name : String) (v : Iface) :
    mapIndex ((k, v) :: m) name = if name = k then v else mapIndex m name := by
  by_cases h : name = k
  · subst h
    simp [mapIndex, List.lookup]
  · have hb : (name == k) = false := by simpa using h
    simp [mapIndex, List.lookup, hb, h]

theorem mapIndex_mapDelete_of_ne (m : ParamMap) (k name : String) (h : name ≠ k) :
    mapIndex (mapDelete m k) name = mapIndex m name := by
  induction m with
  | nil => rfl
  | cons e rest ih =>
    obtain ⟨k1, v1⟩ := e
    by_cases h1 : k1 = k
    · subst h1
      have : mapDelete ((k1, v1) :: rest) k1 = mapDelete rest k1 := by
        simp [mapDelete, List.filter]
      rw [this, ih, mapIndex_cons, if_neg h]
    · have : mapDelete ((k1, v1) :: rest) k = (k1, v1) :: mapDelete rest k := by
        have hb : (k1 != k) = true := by simpa using h1
        simp [mapDelete, List.filter_cons, hb]
      rw [this, mapIndex_cons, mapIndex_cons, ih]

theorem mapHasKey_cons (m : ParamMap) (k name : String) (v : Iface) :
    mapHasKey ((k, v) :: m) name = if name = k then true else mapHasKey m name := by
  by_cases h : name = k
  · subst h
    simp [mapHasKey, List.lookup]
  · have hb : (name == k) = false := by simpa using h
    simp [mapHasKey, List.lookup, hb, h]

theorem mapHasKey_mapDelete_of_ne (m : ParamMap) (k name : String) (h : name ≠ k) :
    mapHasKey (mapDelete m k) name = mapHasKey m name := by
  induction m with
  | nil => rfl
  | cons e rest ih =>
    obtain ⟨k1, v1⟩ := e
    by_cases h1 : k1 = k
    · subst h1
      have : mapDelete ((k1, v1) :: rest) k1 = mapDelete rest k1 := by
        simp [mapDelete, List.filter]
      rw [this, ih, mapHasKey_cons, if_neg h]
    · have : mapDelete ((k1, v1) :: rest) k = (k1, v1) :: mapDelete rest k := by
        have hb : (k1 != k) = true := by simpa using h1
        simp [mapDelete, List.filter_cons, hb]
      rw [this, mapHasKey_cons, mapHasKey_cons, ih]

theorem Transaction.Copy_parameters (t : Transaction) (name : String) :
    t.Copy.GetParameterByName name = t.GetParameterByName name ∧
    mapHasKey t.Copy.GetAllParameters name = mapHasKey t.GetAllParameters name := by
  simp only [Transaction.Copy, Transaction.GetParameterByName, Transaction.GetAllParameters]
  induction t.parameters with
  | nil => exact ⟨rfl, rfl⟩
  | cons e rest ih =>
    obtain ⟨k, v⟩ := e
    simp only [List.foldr_cons, mapAssign]
    rw [mapIndex_cons, mapIndex_cons, mapHasKey_cons, mapHasKey_cons]
    by_cases h : name = k
    · simp [h]
    · simp only [h, if_false]
      rw [mapIndex_mapDelete_of_ne _ _ _ h, mapHasKey_mapDelete_of_ne _ _ _ h]
      exact ih

theorem TransactionCell.view_ofFields (t : Transaction) (addr : Nat) :
    (TransactionCell.ofFields t addr).view t.parameters = t := rfl

theorem Memory.read_eq_some (h : Memory) (p : Nat) (t : Transaction)
    (hread : h.read p = some t) :
    ∃ cell : TransactionCell, h.cells[p]? = some cell ∧
      h.maps[cell.parameters]? = some t.parameters ∧
      p < h.cells.length ∧ cell.parameters < h.maps.length ∧
      t = cell.view t.parameters := by
  unfold Memory.read at hread
  cases hc : h.cells[p]? with
  | none => rw [hc] at hread; exact absurd hread (by simp)
  | some cell =>
    rw [hc] at hread
    simp only at hread
    cases hm : h.maps[cell.parameters]? with
    | none => rw [hm] at hread; exact absurd hread (by simp)
    | some m =>
      rw [hm] at hread
      simp only [Option.some.injEq] at hread
      subst hread
      have hp : p < h.cells.length := by
        by_contra hge
        rw [List.getElem?_eq_none (by omega)] at hc
        exact absurd hc (by simp)
      have hq : cell.parameters < h.maps.length := by
        by_contra hge
        rw [List.getElem?_eq_none (by omega)] at hm
        exact absurd hm (by simp)
      exact ⟨cell, rfl, hm, hp, hq, rfl⟩

theorem Memory.read_of_cell (h : Memory) (p : Nat) (cell : TransactionCell) (m : ParamMap)
    (hc : h.cells[p]? = some cell) (hm : h.maps[cell.parameters]? = some m) :
    h.read p = some (cell.view m) := by
  simp [Memory.read, hc, hm]

theorem Memory.call_eq (h : Memory) (p : Nat) (t : Transaction) (cell : TransactionCell)
    (method : Transaction → Transaction) (hc : h.cells[p]? = some cell)
    (hread : h.read p = some t) :
    h.call p method =
      ⟨h.cells.set p (TransactionCell.ofFields (method t) cell.parameters),
        h.maps.set cell.parameters (method t).parameters⟩ := by
  simp [Memory.call, hc, hread]

theorem Memory.read_call_self (h : Memory) (p : Nat) (t : Transaction)
    (method : Transaction → Transaction) (hread : h.read p = some t) :
    (h.call p method).read p = some (method t) := by
  obtain ⟨cell, hc, hm, hp, hq, -⟩ := Memory.read_eq_some h p t hread
  rw [Memory.call_eq h p t cell method hc hread]
  have hcell : (h.cells.set p (TransactionCell.ofFields (method t) cell.parameters))[p]? =
      some (TransactionCell.ofFields (method t) cell.parameters) := by
    simp [List.getElem?_set, hp]
  have hmap : (h.maps.set cell.parameters (method t).parameters)[
      (TransactionCell.ofFields (method t) cell.parameters).parameters]? =
      some (method t).parameters := by
    simp [TransactionCell.ofFields, List.getElem?_set, hq]
  rw [Memory.read_of_cell _ p _ _ hcell hmap, TransactionCell.view_ofFields]

theorem Memory.read_call_other (h : Memory) (p q : Nat) (t u : Transaction)
    (method : Transaction → Transaction) (cellp cellq : TransactionCell)
    (hp : h.cells[p]? = some cellp) (hq : h.cells[q]? = some cellq)
    (hreadp : h.read p = some t) (hreadq : h.read q = some u)
    (hne : p ≠ q) (hmaps : cellp.parameters ≠ cellq.parameters) :
    (h.call p method).read q = some u := by
  obtain ⟨cellq1, hq1, hmq, -, -, hu⟩ := Memory.read_eq_some h q u hreadq
  have hcq : cellq1 = cellq := by
    rw [hq] at hq1
    exact (Option.some.inj hq1).symm
  subst hcq
  rw [Memory.call_eq h p t cellp method hp hreadp, hu]
  apply Memory.read_of_cell
  · simp [List.getElem?_set, hne, hq]
  · simp [List.getElem?_set, hmaps, hmq]

/-- C16: for a transaction t in memory, Copy returns a new transaction c with
the same id, born, rip, advance, ticks, timequeue, holderName and parts and
the same parameter mapping (the same value and the same presence for every
name), and leaves t as it is.  The two share no state: after any method
call on c every getter of t returns what it returned before, and after any
method call on t every getter of c does; the call itself takes effect on
its receiver. -/
theorem Memory.Copy_independent (h : Memory) (p : Nat) (t : Transaction)
    (hread : h.read p = some t) :
    ∃ (h1 : Memory) (c : Nat) (tc : Transaction),
      h.Copy p = some (h1, c) ∧ h1.read c = some tc ∧ c ≠ p ∧
      tc.GetId = t.GetId ∧ tc.born = t.born ∧ tc.rip = t.rip ∧
      tc.GetAdvanceTime = t.GetAdvanceTime ∧ tc.GetTicks = t.GetTicks ∧
      tc.GetQueueTime = t.GetQueueTime ∧ tc.GetHolderName = t.GetHolderName ∧
      tc.GetParts = t.GetParts ∧
      (∀ name : String, tc.GetParameterByName name = t.GetParameterByName name ∧
        mapHasKey tc.GetAllParameters name = mapHasKey t.GetAllParameters name) ∧
      h1.read p = some t ∧
      (∀ method : Transaction → Transaction,
        (h1.call c method).read p = some t ∧
        (h1.call c method).read c = some (method tc)) ∧
      (∀ method : Transaction → Transaction,
        (h1.call p method).read c = some tc ∧
        (h1.call p method).read p = some (method t)) := by
  obtain ⟨cell, hc, hm, hp, hq, ht⟩ := Memory.read_eq_some h p t hread
  have hcopy : h.Copy p =
      some (⟨h.cells ++ [TransactionCell.ofFields t.Copy h.maps.length],
        h.maps ++ [t.Copy.parameters]⟩, h.cells.length) := by
    simp [Memory.Copy, hread]
  generalize hh1 : (⟨h.cells ++ [TransactionCell.ofFields t.Copy h.maps.length],
    h.maps ++ [t.Copy.parameters]⟩ : Memory) = h1 at hcopy
  have hc1 : h1.cells[p]? = some cell := by
    rw [← hh1]
    simp only
    rw [List.getElem?_append_left hp]
    exact hc
  have hm1 : h1.maps[cell.parameters]? = some t.parameters := by
    rw [← hh1]
    simp only
    rw [List.getElem?_append_left hq]
    exact hm
  have hcc : h1.cells[h.cells.length]? =
      some (TransactionCell.ofFields t.Copy h.maps.length) := by
    rw [← hh1]
    simp
  have hmc : h1.maps[(TransactionCell.ofFields t.Copy h.maps.length).parameters]? =
      some t.Copy.parameters := by
    rw [← hh1]
    simp [TransactionCell.ofFields]
  have hreadp : h1.read p = some t := by
    rw [Memory.read_of_cell h1 p cell t.parameters hc1 hm1, ← ht]
  have hreadc : h1.read h.cells.length = some t.Copy := by
    rw [Memory.read_of_cell h1 h.cells.length _ t.Copy.parameters hcc hmc,
      TransactionCell.view_ofFields]
  have hne : h.cells.length ≠ p := by omega
  have hmne : (TransactionCell.ofFields t.Copy h.maps.length).parameters ≠
      cell.parameters := by
    simp only [TransactionCell.ofFields]
    omega
  refine ⟨h1, h.cells.length, t.Copy, hcopy, hreadc, hne, rfl, rfl, rfl, rfl, rfl, rfl, rfl,
    rfl, fun name => Transaction.Copy_parameters t name, hreadp, fun method => ⟨?_, ?_⟩,
    fun method => ⟨?_, ?_⟩⟩
  · exact Memory.read_call_other h1 h.cells.length p t.Copy t method _ cell hcc hc1
      hreadc hreadp hne hmne
  · exact Memory.read_call_self h1 h.cells.length t.Copy method hreadc
  · exact Memory.read_call_other h1 p h.cells.length t t.Copy method cell _ hc1 hcc
      hreadp hreadc (Ne.symm hne) (Ne.symm hmne)
  · exact Memory.read_call_self h1 p t method hreadp

theorem Memory.Copy_independent_witness :
    ∃ (h1 : Memory) (c : Nat) (tc : Transaction),
      memoryOne.Copy 0 = some (h1, c) ∧ h1.read c = some tc ∧ c ≠ 0 ∧
      tc.GetId = (insideOuter 1 0).GetId ∧ tc.born = (insideOuter 1 0).born ∧
      tc.rip = (insideOuter 1 0).rip ∧
      tc.GetAdvanceTime = (insideOuter 1 0).GetAdvanceTime ∧
      tc.GetTicks = (insideOuter 1 0).GetTicks ∧
      tc.GetQueueTime = (insideOuter 1 0).GetQueueTime ∧
      tc.GetHolderName = (insideOuter 1 0).GetHolderName ∧
      tc.GetParts = (insideOuter 1 0).GetParts ∧
      (∀ name : String,
        tc.GetParameterByName name = (insideOuter 1 0).GetParameterByName name ∧
        mapHasKey tc.GetAllParameters name =
          mapHasKey (insideOuter 1 0).GetAllParameters name) ∧
      h1.read 0 = some (insideOuter 1 0) ∧
      (∀ method : Transaction → Transaction,
        (h1.call c method).read 0 = some (insideOuter 1 0) ∧
        (h1.call c method).read c = some (method tc)) ∧
      (∀ method : Transaction → Transaction,
        (h1.call 0 method).read c = some tc ∧
        (h1.call 0 method).read 0 = some (method (insideOuter 1 0))) :=
  Memory.Copy_independent memoryOne 0 (insideOuter 1 0) (by rfl)

/-! ## The holder name of held transactions -/

/-- C18, the claim fails: transaction 1 enters Bifacility "B", whose entry
forwards it to Advance "A", which accepts it.  The transaction is then in
the holding set of the entry block "B" (and of "A"), and its holderName is
"A". -/
theorem InFacility.holds_with_foreign_holderName :
    entryThenAdvance.map (fun r => (r.1, r.2.1.name, r.2.1.tb, r.2.2.1.GetId,
      r.2.2.1.GetHolderName, r.2.2.2.tb)) =
      some (true, "B", ⟨[1]⟩, 1, "A", ⟨[1]⟩) := by
  rfl

theorem Store.get_put (store : Store) (key key1 : Int) (t : Transaction) :
    (store.put key t).get key1 = if key1 = key then some t else store.get key1 := by
  unfold Store.put Store.get
  by_cases h : key1 = key
  · subst h
    simp [List.lookup]
  · have hb : (key1 == key) = false := by simpa using h
    simp only [List.lookup, hb, h, if_false]
    induction store with
    | nil => rfl
    | cons e rest ih =>
      obtain ⟨k2, t2⟩ := e
      by_cases h2 : k2 = key
      · subst h2
        have hb2 : (key1 == k2) = false := by simpa using h
        simp [List.filter_cons, List.lookup, hb2, ih]
      · have hb2 : (k2 != key) = true := by simpa using h2
        simp only [List.filter_cons, hb2, if_true, List.lookup]
        split
        · rfl
        · exact ih

theorem offerDst_Quiet {σ : Type} (dst : List (Offer σ)) (hq : ∀ v ∈ dst, Offer.Quiet v) :
    ∀ (transact : Transaction) (s : σ),
      (offerDst dst transact s).2.1.GetId = transact.GetId ∧
      ((offerDst dst transact s).1 = false →
        (offerDst dst transact s).2.1.GetHolderName = transact.GetHolderName) := by
  induction dst with
  | nil => intro transact s; exact ⟨rfl, fun _ => rfl⟩
  | cons v rest ih =>
    intro transact s
    have hv := hq v (List.mem_cons_self v rest) transact s
    have hrest : ∀ w ∈ rest, Offer.Quiet w := fun w hw => hq w (List.mem_cons_of_mem v hw)
    simp only [offerDst]
    rcases hvs : v transact s with ⟨b, transact1, s1⟩
    rw [hvs] at hv
    cases b with
    | true => exact ⟨hv.1, fun h => absurd h (by simp)⟩
    | false =>
      simp only
      have ih1 := ih hrest transact1 s1
      exact ⟨ih1.1.trans hv.1, fun h => (ih1.2 h).trans (hv.2 rfl)⟩

theorem HeldByName_put (name : String) (tb : TransactTable) (store : Store) (key : Int)
    (t t1 : Transaction) (hinv : HeldByName name tb store) (hget : store.get key = some t)
    (hid : t1.GetId = t.GetId) (hname : t1.GetHolderName = t.GetHolderName) :
    HeldByName name tb (store.put key t1) := by
  intro k hk
  obtain ⟨t0, hget0, hid0, hname0⟩ := hinv k hk
  rw [Store.get_put]
  by_cases hkk : k = key
  · subst hkk
    rw [hget] at hget0
    have : t = t0 := Option.some.inj hget0
    subst this
    simp only [if_true]
    exact ⟨t1, rfl, hid.trans hid0, hname.trans hname0⟩
  · simp only [hkk, if_false]
    exact ⟨t0, hget0, hid0, hname0⟩

theorem HeldByName_Remove_put (name : String) (tb : TransactTable) (store : Store) (key : Int)
    (t t1 : Transaction) (hinv : HeldByName name tb store) (hget : store.get key = some t)
    (hid : t1.GetId = t.GetId) :
    HeldByName name (tb.Remove t1) (store.put key t1) := by
  intro k hk
  simp only [TransactTable.Remove, List.mem_filter, bne_iff_ne, ne_eq] at hk
  obtain ⟨hmem, hne⟩ := hk
  obtain ⟨t0, hget0, hid0, hname0⟩ := hinv k hmem
  rw [Store.get_put]
  by_cases hkk : k = key
  · subst hkk
    rw [hget] at hget0
    have : t = t0 := Option.some.inj hget0
    subst this
    exact absurd (hid0.symm.trans hid.symm) hne
  · simp only [hkk, if_false]
    exact ⟨t0, hget0, hid0, hname0⟩

theorem Transaction.GetHolderName_DecTicks (t : Transaction) :
    t.DecTicks.GetHolderName = t.GetHolderName := by
  rw [Transaction.DecTicks_eq]
  rfl

theorem Advance.HandleTransact_HeldByName {σ : Type} (obj : Advance) (dst : List (Offer σ))
    (store : Store) (key : Int) (t : Transaction) (s : σ)
    (hq : ∀ v ∈ dst, Offer.Quiet v)
    (hinv : HeldByName obj.name obj.tb store) (hget : store.get key = some t) :
    HeldByName obj.name (obj.HandleTransact dst t s).1.tb
      (store.put key (obj.HandleTransact dst t s).2.1) ∧
    (obj.HandleTransact dst t s).1.name = obj.name := by
  unfold Advance.HandleTransact
  simp only
  split
  · have hoff := offerDst_Quiet dst hq t.DecTicks s
    rcases hres : offerDst dst t.DecTicks s with ⟨b, t1, s1⟩
    rw [hres] at hoff
    simp only at hoff
    cases b with
    | true =>
      refine ⟨?_, rfl⟩
      exact HeldByName_Remove_put obj.name obj.tb store key t t1 hinv hget
        (hoff.1.trans (Transaction.GetId_DecTicks t))
    | false =>
      refine ⟨?_, rfl⟩
      exact HeldByName_put obj.name obj.tb store key t t1 hinv hget
        (hoff.1.trans (Transaction.GetId_DecTicks t))
        ((hoff.2 rfl).trans (Transaction.GetHolderName_DecTicks t))
  · refine ⟨?_, rfl⟩
    exact HeldByName_put obj.name obj.tb store key t t.DecTicks hinv hget
      (Transaction.GetId_DecTicks t) (Transaction.GetHolderName_DecTicks t)

theorem Advance.handleItems_HeldByName {σ : Type} (dst : List (Offer σ))
    (hq : ∀ v ∈ dst, Offer.Quiet v) (keys : List Int) :
    ∀ (obj : Advance) (store : Store) (s : σ), HeldByName obj.name obj.tb store →
      HeldByName obj.name (Advance.handleItems dst keys obj store s).1.tb
        (Advance.handleItems dst keys obj store s).2.1 ∧
      (Advance.handleItems dst keys obj store s).1.name = obj.name := by
  induction keys with
  | nil => intro obj store s hinv; exact ⟨hinv, rfl⟩
  | cons key rest ih =>
    intro obj store s hinv
    simp only [Advance.handleItems]
    cases hget : store.get key with
    | none => exact ih obj store s hinv
    | some t =>
      simp only
      obtain ⟨h1, hname⟩ := Advance.HandleTransact_HeldByName obj dst store key t s hq hinv hget
      rw [← hname] at h1
      obtain ⟨h2, hname2⟩ := ih _ _ (obj.HandleTransact dst t s).2.2 h1
      rw [hname] at h2
      exact ⟨h2, hname2.trans hname⟩

theorem HeldByName_Push_put (name : String) (tb : TransactTable) (store : Store)
    (t t1 : Transaction) (hinv : HeldByName name tb store) (hid : t1.GetId = t.GetId)
    (hname : t1.GetHolderName = name) :
    HeldByName name (tb.Push t1) (store.put t.GetId t1) := by
  intro k hk
  rw [Store.get_put]
  by_cases hkk : k = t.GetId
  · subst hkk
    simp only [if_true]
    exact ⟨t1, rfl, hid, hname⟩
  · simp only [hkk, if_false]
    have hmem : k ∈ tb.items := by
      unfold TransactTable.Push at hk
      split at hk
      · exact hk
      · simp only [List.mem_append, List.mem_singleton] at hk
        rcases hk with h | h
        · exact h
        · exact absurd (h.trans hid) hkk
    exact hinv k hmem

theorem Advance.ReachableWith.held_items {σ : Type} {obj : Advance} {store : Store}
    (h : Advance.ReachableWith σ obj store) : HeldByName obj.name obj.tb store := by
  induction h with
  | init name interval modificator =>
    intro k hk
    simp [NewAdvance, TransactTable.empty] at hk
  | accept rnd transact _ ih =>
    exact HeldByName_Push_put _ _ _ transact _ ih rfl rfl
  | @tick obj0 store0 dst s hq _ ih =>
    unfold Advance.HandleTransacts
    split
    · exact ih
    · have := Advance.handleItems_HeldByName dst hq obj0.tb.GetItems obj0 store0 s ih
      rw [this.2]
      exact this.1

theorem Facility.offerSuccs_ext {σ : Type} (dst : List (Offer σ)) (obj : Facility) :
    ∀ (transact : Transaction) (s : σ),
      Facility.offerSuccs (dst.map FacilitySucc.ext) obj transact s =
        some ((offerDst dst transact s).1, obj, (offerDst dst transact s).2.1,
          (offerDst dst transact s).2.2) := by
  induction dst with
  | nil => intro transact s; rfl
  | cons v rest ih =>
    intro transact s
    simp only [List.map_cons, Facility.offerSuccs, offerDst]
    rcases v transact s with ⟨b, transact1, s1⟩
    cases b with
    | true => rfl
    | false => exact ih transact1 s1

theorem GetHolderName_restoreFacilityParameter (bak : String) (t : Transaction) :
    (restoreFacilityParameter bak t).GetHolderName = t.GetHolderName := by
  unfold restoreFacilityParameter
  split <;> rfl

theorem Facility.HandleTransact_keeps_held {σ : Type} (obj : Facility) (dst : List (Offer σ))
    (store : Store) (key : Int) (t : Transaction) (s : σ)
    (hq : ∀ v ∈ dst, Offer.Quiet v)
    (hinv : HeldByName obj.name obj.tb store) (hget : store.get key = some t) :
    ∃ (obj1 : Facility) (t1 : Transaction) (s1 : σ),
      obj.HandleTransact (dst.map FacilitySucc.ext) t s = some (obj1, t1, s1) ∧
      HeldByName obj.name obj1.tb (store.put key t1) ∧ obj1.name = obj.name := by
  unfold Facility.HandleTransact
  simp only
  split
  · rw [Facility.offerSuccs_ext]
    have hoff := offerDst_Quiet dst hq
      (restoreFacilityParameter obj.bakupFacilityName t.DecTicks) s
    rw [GetId_restoreFacilityParameter, GetHolderName_restoreFacilityParameter,
      Transaction.GetId_DecTicks, Transaction.GetHolderName_DecTicks] at hoff
    rcases hres : offerDst dst (restoreFacilityParameter obj.bakupFacilityName t.DecTicks) s
      with ⟨b, t1, s1⟩
    rw [hres] at hoff
    simp only at hoff
    cases b with
    | true =>
      exact ⟨_, _, _, rfl,
        HeldByName_Remove_put obj.name obj.tb store key t t1 hinv hget hoff.1, rfl⟩
    | false =>
      refine ⟨_, _, _, rfl, ?_, rfl⟩
      exact HeldByName_put obj.name obj.tb store key t _ hinv hget hoff.1 (hoff.2 rfl)
  · exact ⟨_, _, _, rfl,
      HeldByName_put obj.name obj.tb store key t t.DecTicks hinv hget
        (Transaction.GetId_DecTicks t) (Transaction.GetHolderName_DecTicks t), rfl⟩

theorem Facility.handleItems_keeps_held {σ : Type} (dst : List (Offer σ))
    (hq : ∀ v ∈ dst, Offer.Quiet v) (keys : List Int) :
    ∀ (obj : Facility) (store : Store) (s : σ), HeldByName obj.name obj.tb store →
      ∃ (obj1 : Facility) (store1 : Store) (s1 : σ),
        Facility.handleItems (dst.map FacilitySucc.ext) keys obj store s =
          some (obj1, store1, s1) ∧
        HeldByName obj.name obj1.tb store1 ∧ obj1.name = obj.name := by
  induction keys with
  | nil => intro obj store s hinv; exact ⟨obj, store, s, rfl, hinv, rfl⟩
  | cons key rest ih =>
    intro obj store s hinv
    simp only [Facility.handleItems]
    cases hget : store.get key with
    | none => exact ih obj store s hinv
    | some t =>
      simp only
      obtain ⟨obj1, t1, s1, hh, h1, hname⟩ :=
        Facility.HandleTransact_keeps_held obj dst store key t s hq hinv hget
      rw [hh]
      simp only
      rw [← hname] at h1
      obtain ⟨obj2, store2, s2, hh2, h2, hname2⟩ := ih obj1 _ s1 h1
      rw [hname] at h2
      exact ⟨obj2, store2, s2, hh2, h2, hname2.trans hname⟩

theorem Facility.AppendTransact_accepted (obj : Facility) (rnd : Int) (transact : Transaction)
    (obj1 : Facility) (transact1 : Transaction)
    (h : obj.AppendTransact rnd transact = some (true, obj1, transact1)) :
    obj1.name = obj.name ∧ obj1.tb = obj.tb.Push transact1 ∧
    transact1.GetId = transact.GetId ∧ transact1.GetHolderName = obj.name := by
  by_cases hlen : obj.tb.GetLen = 0
  · unfold Facility.AppendTransact at h
    simp only [hlen, bne_self_eq_false, Bool.false_eq_true, if_false] at h
    split at h
    · exact absurd h (by simp)
    · simp only [Option.some.injEq, Prod.mk.injEq, true_and] at h
      obtain ⟨hobj, ht⟩ := h
      rw [← hobj, ← ht]
      exact ⟨rfl, rfl, rfl, rfl⟩
  · rw [Facility.AppendTransact_of_busy obj rnd transact hlen] at h
    simp at h

theorem Facility.ReachableWith.held_by_name {σ : Type} {obj : Facility} {store : Store}
    (h : Facility.ReachableWith σ obj store) : HeldByName obj.name obj.tb store := by
  induction h with
  | init name interval modificator =>
    intro k hk
    simp [NewFacility, TransactTable.empty] at hk
  | accept rnd transact obj1 transact1 _ happ ih =>
    obtain ⟨hname, htb, hid, hholder⟩ :=
      Facility.AppendTransact_accepted _ rnd transact obj1 transact1 happ
    rw [hname, htb]
    exact HeldByName_Push_put _ _ _ transact transact1 ih hid hholder
  | reject rnd transact obj1 transact1 _ happ ih =>
    rcases Facility.AppendTransact_tb _ rnd transact false obj1 transact1 happ with
      ⟨-, hobj, -, -⟩ | ⟨hb, -, -⟩
    · rw [hobj]; exact ih
    · exact absurd hb (by simp)
  | @tick obj0 store0 dst s obj1 store1 s1 hq _ hstep ih =>
    unfold Facility.HandleTransacts at hstep
    split at hstep
    · simp only [Option.some.injEq, Prod.mk.injEq] at hstep
      rw [← hstep.1, ← hstep.2.1]
      exact ih
    · obtain ⟨obj2, store2, s2, hh, hinv, hname⟩ :=
        Facility.handleItems_keeps_held dst hq obj0.tb.GetItems obj0 store0 s ih
      rw [hh] at hstep
      simp only [Option.some.injEq, Prod.mk.injEq] at hstep
      rw [← hstep.1, ← hstep.2.1, hname]
      exact hinv

theorem InFacility.AppendTransact_of_free {σ : Type} (obj : InFacility) (dst : List (Offer σ))
    (modelTime : Int) (t : Transaction) (s : σ) (b : Bool) (obj1 : InFacility)
    (t1 : Transaction) (s1 : σ) (hlen : obj.tb.GetLen = 0)
    (h : obj.AppendTransact dst modelTime t s = some (b, obj1, t1, s1)) :
    b = true ∧ obj1.name = obj.name ∧ obj1.tb.items = [t.GetId] ∧
    ∃ stamped : Transaction, stamped.GetId = t.GetId ∧ stamped.GetHolderName = obj.name ∧
      t1 = (offerDst dst stamped s).2.1 ∧ s1 = (offerDst dst stamped s).2.2 := by
  unfold InFacility.AppendTransact at h
  simp only [hlen, bne_self_eq_false, Bool.false_eq_true, if_false] at h
  split at h
  · exact absurd h (by simp)
  · simp only [InFacility.HandleTransact, Option.some.injEq, Prod.mk.injEq] at h
    obtain ⟨hb, hobj, ht, hs⟩ := h
    refine ⟨hb.symm, ?_, ?_, _, ?_, ?_, ht.symm, hs.symm⟩
    · rw [← hobj]
    · rw [← hobj]
      simp only
      rw [TransactTable.GetLen_Push_of_empty _ _ hlen]
      rfl
    · rfl
    · rfl

/-- An InFacility whose holding set is empty, with quiet successors: it
accepts, and holds the transaction as the routing loop over its successors
left it. -/
theorem InFacility.holderName_after_entry {σ : Type} (obj : InFacility) (dst : List (Offer σ))
    (modelTime : Int) (t : Transaction) (s : σ) (b : Bool) (obj1 : InFacility)
    (t1 : Transaction) (s1 : σ) (hlen : obj.tb.GetLen = 0)
    (hq : ∀ v ∈ dst, Offer.Quiet v)
    (h : obj.AppendTransact dst modelTime t s = some (b, obj1, t1, s1)) :
    b = true ∧ obj1.name = obj.name ∧ obj1.tb.Holds t1 ∧
    ∃ stamped : Transaction, stamped.GetHolderName = obj.name ∧
      t1 = (offerDst dst stamped s).2.1 ∧ s1 = (offerDst dst stamped s).2.2 ∧
      ((offerDst dst stamped s).1 = false → t1.GetHolderName = obj.name) := by
  obtain ⟨hb, hname, htb, stamped, hid, hholder, ht1, hs1⟩ :=
    InFacility.AppendTransact_of_free obj dst modelTime t s b obj1 t1 s1 hlen h
  have hoff := offerDst_Quiet dst hq stamped s
  refine ⟨hb, hname, ?_, stamped, hholder, ht1, hs1, ?_⟩
  · unfold TransactTable.Holds
    rw [htb, ht1, hoff.1, hid]
    exact List.mem_singleton.mpr rfl
  · intro hrej
    rw [ht1, hoff.2 hrej, hholder]

/-- An InFacility whose holding set is empty and whose first successor is an
Advance: both hold the transaction, whose holderName is the name of the
Advance. -/
theorem InFacility.holderName_of_Advance_successor (obj : InFacility) (rnd : Int)
    (rest : List (Offer Advance)) (modelTime : Int) (t : Transaction) (adv : Advance)
    (b : Bool) (obj1 : InFacility) (t1 : Transaction) (adv1 : Advance)
    (hlen : obj.tb.GetLen = 0)
    (h : obj.AppendTransact (Advance.offer rnd :: rest) modelTime t adv =
      some (b, obj1, t1, adv1)) :
    b = true ∧ obj1.name = obj.name ∧ obj1.tb.Holds t1 ∧ adv1.tb.Holds t1 ∧
    t1.GetHolderName = adv.name := by
  obtain ⟨hb, hname, htb, stamped, hid, -, ht1, hs1⟩ :=
    InFacility.AppendTransact_of_free obj _ modelTime t adv b obj1 t1 adv1 hlen h
  have hoff : offerDst (Advance.offer rnd :: rest) stamped adv =
      (true, (adv.AppendTransact rnd stamped).2.2, (adv.AppendTransact rnd stamped).2.1) := rfl
  rw [hoff] at ht1 hs1
  simp only at ht1 hs1
  refine ⟨hb, hname, ?_, ?_, ?_⟩
  · unfold TransactTable.Holds
    rw [htb, ht1]
    exact List.mem_singleton.mpr hid
  · rw [hs1, ht1]
    unfold TransactTable.Holds Advance.AppendTransact TransactTable.Push
    simp only
    split
    · assumption
    · simp
  · rw [ht1]
    rfl

/-- C18, amended: in every state of an Advance and in every state of a
Facility reachable by offers and ticks, the successors being blocks that
leave the id of an offered transaction as it is and its holderName too
when they reject it, every transaction in the holding set has holderName
equal to the name of the block.  For an InFacility the invariant does not
hold.  An InFacility whose holding set is empty, with such successors,
accepts the offered transaction, sets its holderName to its own name,
pushes it and forwards it in the same call, and holds it whatever the
successors answer: the transaction it holds is the transaction as the
routing loop over the successors left it, whose holderName is the name of
the InFacility when no successor accepted.  When the first successor is an
Advance, the Advance accepts: the InFacility and the Advance both hold the
transaction, and its holderName is the name of the Advance. -/
theorem holderName_of_held {σ : Type} :
    (∀ (obj : Advance) (store : Store), Advance.ReachableWith σ obj store →
      ∀ key ∈ obj.tb.GetItems, ∃ t : Transaction,
        store.get key = some t ∧ t.GetHolderName = obj.name) ∧
    (∀ (obj : Facility) (store : Store), Facility.ReachableWith σ obj store →
      ∀ key ∈ obj.tb.GetItems, ∃ t : Transaction,
        store.get key = some t ∧ t.GetHolderName = obj.name) ∧
    (∀ (obj : InFacility) (dst : List (Offer σ)) (modelTime : Int) (t : Transaction) (s : σ)
        (b : Bool) (obj1 : InFacility) (t1 : Transaction) (s1 : σ),
      obj.tb.GetLen = 0 → (∀ v ∈ dst, Offer.Quiet v) →
      obj.AppendTransact dst modelTime t s = some (b, obj1, t1, s1) →
      b = true ∧ obj1.name = obj.name ∧ obj1.tb.Holds t1 ∧
      ∃ stamped : Transaction, stamped.GetHolderName = obj.name ∧
        t1 = (offerDst dst stamped s).2.1 ∧ s1 = (offerDst dst stamped s).2.2 ∧
        ((offerDst dst stamped s).1 = false → t1.GetHolderName = obj.name)) ∧
    (∀ (obj : InFacility) (rnd : Int) (rest : List (Offer Advance)) (modelTime : Int)
        (t : Transaction) (adv : Advance) (b : Bool) (obj1 : InFacility) (t1 : Transaction)
        (adv1 : Advance),
      obj.tb.GetLen = 0 →
      obj.AppendTransact (Advance.offer rnd :: rest) modelTime t adv =
        some (b, obj1, t1, adv1) →
      b = true ∧ obj1.name = obj.name ∧ obj1.tb.Holds t1 ∧ adv1.tb.Holds t1 ∧
      t1.GetHolderName = adv.name) := by
  refine ⟨?_, ?_, ?_, ?_⟩
  · intro obj store h key hk
    obtain ⟨t, hget, -, hname⟩ := h.held_items key hk
    exact ⟨t, hget, hname⟩
  · intro obj store h key hk
    obtain ⟨t, hget, -, hname⟩ := h.held_by_name key hk
    exact ⟨t, hget, hname⟩
  · intro obj dst modelTime t s b obj1 t1 s1 hlen hq h
    exact InFacility.holderName_after_entry obj dst modelTime t s b obj1 t1 s1 hlen hq h
  · intro obj rnd rest modelTime t adv b obj1 t1 adv1 hlen h
    exact InFacility.holderName_of_Advance_successor obj rnd rest modelTime t adv b obj1 t1
      adv1 hlen h

theorem holderName_of_held_witness :
    (∃ t : Transaction,
      Store.get (Store.put [] (NewTransaction 1 0).GetId
        (delayTwo.AppendTransact 0 (NewTransaction 1 0)).2.2) 1 = some t ∧
      t.GetHolderName = (delayTwo.AppendTransact 0 (NewTransaction 1 0)).2.1.name) ∧
    (NewBifacility "B").inFacility.tb.GetLen = 0 ∧
    entryThenAdvance = some (true, heldEntry, forwardedTransaction, ⟨"A", ⟨[1]⟩, 5, 0, 5, 1⟩) ∧
    heldEntry.tb.Holds forwardedTransaction ∧
    forwardedTransaction.GetHolderName = (NewAdvance "A" 5 0).name :=
  ⟨(@holderName_of_held (List Transaction)).1
    (delayTwo.AppendTransact 0 (NewTransaction 1 0)).2.1
    (Store.put [] (NewTransaction 1 0).GetId
      (delayTwo.AppendTransact 0 (NewTransaction 1 0)).2.2)
    (Advance.ReachableWith.accept 0 (NewTransaction 1 0) (Advance.ReachableWith.init "A" 2 0))
    1 (by decide),
   rfl, rfl,
   ((@holderName_of_held Unit).2.2.2 (NewBifacility "B").inFacility 0 [] 0
      (NewTransaction 1 0) (NewAdvance "A" 5 0) true heldEntry forwardedTransaction
      ⟨"A", ⟨[1]⟩, 5, 0, 5, 1⟩ rfl rfl).2.2.1,
   ((@holderName_of_held Unit).2.2.2 (NewBifacility "B").inFacility 0 [] 0
      (NewTransaction 1 0) (NewAdvance "A" 5 0) true heldEntry forwardedTransaction
      ⟨"A", ⟨[1]⟩, 5, 0, 5, 1⟩ rfl rfl).2.2.2.2⟩

/-! ## Pipeline: the tick loop -/

theorem Pipeline.loop_of_Done {σ : Type} (round : σ → σ) (value : Int) (fuel : Nat)
    (p : Pipeline) (w : σ) (rounds : Nat) (h : p.Done = true) :
    Pipeline.loop round value (fuel + 1) p w rounds = LoopOutcome.returned (p, w, rounds) := by
  simp [Pipeline.loop, h]

theorem Pipeline.loop_to_horizon {σ : Type} (round : σ → σ) (value : Int) (d : Nat) :
    ∀ (fuel : Nat) (p : Pipeline) (w : σ) (rounds : Nat),
      p.Done = false → value = p.modelTime + (d + 1 : Nat) → d + 2 ≤ fuel →
      Pipeline.loop round value fuel p w rounds =
        LoopOutcome.returned
          ({ p with modelTime := value, Done := true }, round^[d + 1] w, rounds + (d + 1)) := by
  induction d with
  | zero =>
    intro fuel p w rounds hdone hval hfuel
    obtain ⟨f, rfl⟩ : ∃ f, fuel = f + 2 := ⟨fuel - 2, by omega⟩
    have hv : p.modelTime + 1 = value := by rw [hval]; simp
    simp [Pipeline.loop, Pipeline.Stop, hdone, hv]
  | succ d ih =>
    intro fuel p w rounds hdone hval hfuel
    obtain ⟨f, rfl⟩ : ∃ f, fuel = f + 1 := ⟨fuel - 1, by omega⟩
    have hv : ¬ (p.modelTime + 1 = value) := by
      rw [hval]
      push_cast
      omega
    have hstep : Pipeline.loop round value (f + 1) p w rounds =
        Pipeline.loop round value f { p with modelTime := p.modelTime + 1 } (round w)
          (rounds + 1) := by
      simp [Pipeline.loop, hdone, hv]
    rw [hstep, ih f { p with modelTime := p.modelTime + 1 } (round w) (rounds + 1) hdone
      (by simp only; rw [hval]; push_cast; omega) (by omega)]
    simp only [Function.iterate_succ, Function.comp]
    congr 3
    omega

/-- C19: the tick loop of Start(value) on a new pipeline (model time 0), for a
horizon value >= 1.  Every round of the loop that is made raises the model
time by exactly one.  With fuel for value + 1 rounds of the loop or more the
goroutine returns, having made exactly value rounds of block invocations
(the network is round applied value times), with GetModelTime() = value =
GetSimTime() and the channel Done closed; with less fuel it is still
looping, so it does not stop before the horizon. -/
theorem Pipeline.Start_runs_to_horizon {σ : Type} (round : σ → σ) (name : String)
    (value fuel : Nat) (w : σ) (hvalue : 1 ≤ value) :
    (∀ (p : Pipeline) (x : σ) (r f : Nat), p.Done = false →
      ∃ p1 : Pipeline, p1.GetModelTime = p.GetModelTime + 1 ∧
        Pipeline.loop round value (f + 1) p x r =
          Pipeline.loop round value f p1 (round x) (r + 1)) ∧
    (value + 1 ≤ fuel →
      ∃ p : Pipeline,
        Pipeline.Start round (NewPipeline name) value fuel w =
          LoopOutcome.returned (p, round^[value] w, value) ∧
        p.GetModelTime = value ∧ p.GetSimTime = value ∧ p.Done = true) ∧
    (fuel ≤ value →
      Pipeline.Start round (NewPipeline name) value fuel w = LoopOutcome.looping) := by
  refine ⟨?_, ?_, ?_⟩
  · intro p x r f hdone
    by_cases hv : p.modelTime + 1 = (value : Int)
    · refine ⟨{ p with modelTime := p.modelTime + 1, Done := true }, rfl, ?_⟩
      simp [Pipeline.loop, Pipeline.Stop, hdone, hv]
    · refine ⟨{ p with modelTime := p.modelTime + 1 }, rfl, ?_⟩
      simp [Pipeline.loop, hdone, hv]
  · intro hfuel
    obtain ⟨d, rfl⟩ : ∃ d, value = d + 1 := ⟨value - 1, by omega⟩
    refine ⟨⟨name, (d + 1 : Nat), true, (d + 1 : Nat)⟩, ?_, rfl, rfl, rfl⟩
    unfold Pipeline.Start
    rw [Pipeline.loop_to_horizon round _ d fuel _ w 0 rfl (by simp [NewPipeline]) (by omega)]
    simp [NewPipeline]
  · intro hfuel
    unfold Pipeline.Start
    have hgen : ∀ (f : Nat) (p : Pipeline) (x : σ) (r : Nat), p.Done = false →
        p.modelTime + f ≤ value → 0 ≤ p.modelTime →
        Pipeline.loop round value f p x r = LoopOutcome.looping := by
      intro f
      induction f with
      | zero => intro p x r _ _ _; rfl
      | succ f ih =>
        intro p x r hdone hle hnn
        by_cases hv : p.modelTime + 1 = (value : Int)
        · have hf : f = 0 := by
            push_cast at hle
            omega
          subst hf
          simp [Pipeline.loop, Pipeline.Stop, hdone, hv]
        · have hstep : Pipeline.loop round value (f + 1) p x r =
              Pipeline.loop round value f { p with modelTime := p.modelTime + 1 } (round x)
                (r + 1) := by
            simp [Pipeline.loop, hdone, hv]
          rw [hstep]
          refine ih _ _ _ hdone ?_ ?_
          · simp only
            push_cast at hle ⊢
            omega
          · simp only
            omega
    exact hgen fuel _ w 0 rfl (by simp [NewPipeline]; omega) (by simp [NewPipeline])

theorem Pipeline.Start_runs_to_horizon_witness :
    (∀ (p : Pipeline) (x : Nat) (r f : Nat), p.Done = false →
      ∃ p1 : Pipeline, p1.GetModelTime = p.GetModelTime + 1 ∧
        Pipeline.loop (fun n : Nat => n + 1) ((3 : Nat) : Int) (f + 1) p x r =
          Pipeline.loop (fun n : Nat => n + 1) ((3 : Nat) : Int) f p1 (x + 1) (r + 1)) ∧
    (3 + 1 ≤ 10 →
      ∃ p : Pipeline,
        Pipeline.Start (fun n : Nat => n + 1) (NewPipeline "P") ((3 : Nat) : Int) 10 0 =
          LoopOutcome.returned (p, (fun n : Nat => n + 1)^[3] 0, 3) ∧
        p.GetModelTime = ((3 : Nat) : Int) ∧ p.GetSimTime = ((3 : Nat) : Int) ∧
        p.Done = true) ∧
    (10 ≤ 3 →
      Pipeline.Start (fun n : Nat => n + 1) (NewPipeline "P") ((3 : Nat) : Int) 10 0 =
        LoopOutcome.looping) :=
  Pipeline.Start_runs_to_horizon (fun n : Nat => n + 1) "P" 3 10 0 (by decide)

/-! ## One tick: what a task acts on -/

/-- C20, the claim fails: at the start of the tick at model time 3 Advance "A"
holds transaction 1 and Advance "B" (Interval 5) holds transaction 2 only.
When the task of "A" runs before the task of "B" takes its snapshot, "A"
hands transaction 1 to "B" and "B" acts on it in the same tick: the
snapshot of "B" is [2, 1] and "B" decrements the ticks of transaction 1
from 5 to 4, the clock still being 3.  When the task of "B" runs first,
its snapshot is [2] and transaction 1 ends the tick in "B" with 5 ticks. -/
theorem tick_acts_on_transaction_handed_over :
    chainStart.world.2.1.tb = ⟨[2]⟩ ∧
    (runSchedule [chainFirst, chainSecond] firstThenSecond chainStart).map
      (fun st => (st.modelTime, st.log, st.world.2.1.tb,
        st.world.2.2.1.map (fun e => (e.1, e.2.GetTicks)))) =
      some (3,
        [TickEvent.snapshot 0 [1], TickEvent.handle 0 1,
         TickEvent.snapshot 1 [2, 1], TickEvent.handle 1 2, TickEvent.handle 1 1],
        ⟨[2, 1]⟩, [(1, 4), (2, 2)]) ∧
    (runSchedule [chainFirst, chainSecond] secondThenFirst chainStart).map
      (fun st => (st.modelTime, st.log, st.world.2.1.tb,
        st.world.2.2.1.map (fun e => (e.1, e.2.GetTicks)))) =
      some (3,
        [TickEvent.snapshot 1 [2], TickEvent.handle 1 2,
         TickEvent.snapshot 0 [1], TickEvent.handle 0 1],
        ⟨[2, 1]⟩, [(1, 5), (2, 2)]) := by
  refine ⟨rfl, rfl, rfl⟩

theorem handledBy_append (i : Nat) (log : List TickEvent) (e : TickEvent) :
    handledBy i (log ++ [e]) = handledBy i log ++ handledBy i [e] := by
  induction log with
  | nil => rfl
  | cons x rest ih =>
    cases x with
    | snapshot j keys => simpa [handledBy] using ih
    | handle j key =>
      by_cases hj : j = i
      · simp [handledBy, hj, ih]
      · simp [handledBy, hj, ih]

theorem snapshotsOf_append (i : Nat) (log : List TickEvent) (e : TickEvent) :
    snapshotsOf i (log ++ [e]) = snapshotsOf i log ++ snapshotsOf i [e] := by
  induction log with
  | nil => rfl
  | cons x rest ih =>
    cases x with
    | handle j key => simpa [snapshotsOf] using ih
    | snapshot j keys =>
      by_cases hj : j = i
      · simp [snapshotsOf, hj, ih]
      · simp [snapshotsOf, hj, ih]

theorem TaskInvariant_congr {W : Type} (st st1 : TickState W) (i : Nat)
    (htask : st1.tasks[i]? = st.tasks[i]?) (hh : handledBy i st1.log = handledBy i st.log)
    (hs : snapshotsOf i st1.log = snapshotsOf i st.log) (hinv : TaskInvariant st i) :
    TaskInvariant st1 i := by
  unfold TaskInvariant at hinv ⊢
  rw [htask, hh, hs]
  exact hinv

theorem getElem?_set_of_eq_some {α : Type} (l : List α) (j : Nat) (x y : α)
    (h : l[j]? = some x) : (l.set j y)[j]? = some y := by
  have hlt : j < l.length := by
    by_contra hge
    rw [List.getElem?_eq_none (by omega)] at h
    exact absurd h (by simp)
  exact List.getElem?_set_self hlt

theorem TaskInvariant_waiting {W : Type} (st : TickState W) (i : Nat)
    (h : st.tasks[i]? = some TaskState.waiting) :
    TaskInvariant st i ↔ (handledBy i st.log = [] ∧ snapshotsOf i st.log = []) := by
  unfold TaskInvariant; rw [h]

theorem TaskInvariant_started {W : Type} (st : TickState W) (i : Nat)
    (h : st.tasks[i]? = some TaskState.started) :
    TaskInvariant st i ↔ (handledBy i st.log = [] ∧ snapshotsOf i st.log = []) := by
  unfold TaskInvariant; rw [h]

theorem TaskInvariant_running {W : Type} (st : TickState W) (i : Nat) (todo : List Int)
    (h : st.tasks[i]? = some (TaskState.running todo)) :
    TaskInvariant st i ↔ snapshotsOf i st.log = [handledBy i st.log ++ todo] := by
  unfold TaskInvariant; rw [h]

theorem TaskInvariant_finished {W : Type} (st : TickState W) (i : Nat)
    (h : st.tasks[i]? = some TaskState.finished) :
    TaskInvariant st i ↔ ((handledBy i st.log = [] ∧ snapshotsOf i st.log = []) ∨
      snapshotsOf i st.log = [handledBy i st.log]) := by
  unfold TaskInvariant; rw [h]

theorem tickStep_TaskInvariant {W : Type} (blocks : List (BlockTask W)) (c : TickChoice)
    (st st1 : TickState W) (h : tickStep blocks c st = some st1)
    (hinv : ∀ i, TaskInvariant st i) : ∀ i, TaskInvariant st1 i := by
  intro i
  cases c with
  | call j =>
    simp only [tickStep] at h
    split at h
    · next b hb ht =>
      simp only [Option.some.injEq] at h
      subst h
      by_cases hij : i = j
      · subst hij
        have hi := (TaskInvariant_waiting st i ht).mp (hinv i)
        cases hidle : b.idle st.world with
        | true =>
          rw [TaskInvariant_finished _ i (by simp only [hidle, if_true]; exact getElem?_set_of_eq_some _ _ _ _ ht)]
          exact Or.inl hi
        | false =>
          rw [TaskInvariant_started _ i (by simp only [hidle, Bool.false_eq_true, if_false]; exact getElem?_set_of_eq_some _ _ _ _ ht)]
          exact hi
      · exact TaskInvariant_congr st _ i (List.getElem?_set_ne (Ne.symm hij)) rfl rfl (hinv i)
    · exact absurd h (by simp)
  | snapshot j =>
    simp only [tickStep] at h
    split at h
    · next b hb ht =>
      simp only [Option.some.injEq] at h
      subst h
      by_cases hij : i = j
      · subst hij
        have hi := (TaskInvariant_started st i ht).mp (hinv i)
        rw [TaskInvariant_running _ i _ (getElem?_set_of_eq_some _ _ _ _ ht)]
        simp only [handledBy_append, snapshotsOf_append, hi.1, hi.2, handledBy, snapshotsOf,
          if_true, List.nil_append, List.append_nil]
      · refine TaskInvariant_congr st _ i (List.getElem?_set_ne (Ne.symm hij)) ?_ ?_ (hinv i)
        · simp only [handledBy_append, handledBy, List.append_nil]
        · simp only [snapshotsOf_append, snapshotsOf, Ne.symm hij, if_false, List.append_nil]
    · exact absurd h (by simp)
  | handle j =>
    simp only [tickStep] at h
    split at h
    · next b key rest hb ht =>
      simp only [Option.some.injEq] at h
      subst h
      by_cases hij : i = j
      · subst hij
        have hi := (TaskInvariant_running st i _ ht).mp (hinv i)
        rw [TaskInvariant_running _ i _ (getElem?_set_of_eq_some _ _ _ _ ht)]
        simp only [handledBy_append, snapshotsOf_append, hi, handledBy, snapshotsOf,
          if_true, List.append_nil, List.append_assoc, List.singleton_append]
      · refine TaskInvariant_congr st _ i (List.getElem?_set_ne (Ne.symm hij)) ?_ ?_ (hinv i)
        · simp only [handledBy_append, handledBy, Ne.symm hij, if_false, List.append_nil]
        · simp only [snapshotsOf_append, snapshotsOf, List.append_nil]
    · exact absurd h (by simp)
  | finish j =>
    simp only [tickStep] at h
    split at h
    · next ht =>
      simp only [Option.some.injEq] at h
      subst h
      by_cases hij : i = j
      · subst hij
        have hi := (TaskInvariant_running st i _ ht).mp (hinv i)
        rw [TaskInvariant_finished _ i (getElem?_set_of_eq_some _ _ _ _ ht)]
        right
        simpa using hi
      · exact TaskInvariant_congr st _ i (List.getElem?_set_ne (Ne.symm hij)) rfl rfl (hinv i)
    · exact absurd h (by simp)
  | clock =>
    simp only [tickStep] at h
    split at h
    · simp only [Option.some.injEq] at h
      subst h
      unfold TaskInvariant
      simp only [List.getElem?_map]
      cases st.tasks[i]? with
      | none => exact ⟨rfl, rfl⟩
      | some t => exact ⟨rfl, rfl⟩
    · exact absurd h (by simp)

theorem runSchedule_TaskInvariant {W : Type} (blocks : List (BlockTask W))
    (schedule : List TickChoice) :
    ∀ (st st1 : TickState W), runSchedule blocks schedule st = some st1 →
      (∀ i, TaskInvariant st i) → ∀ i, TaskInvariant st1 i := by
  induction schedule with
  | nil =>
    intro st st1 h hinv
    simp only [runSchedule, Option.some.injEq] at h
    subst h
    exact hinv
  | cons c cs ih =>
    intro st st1 h hinv
    simp only [runSchedule] at h
    split at h
    · exact absurd h (by simp)
    · next st2 hstep =>
      exact ih st2 st1 h (tickStep_TaskInvariant blocks c st st2 hstep hinv)

theorem tickStart_TaskInvariant {W : Type} (w : W) (n : Nat) (modelTime : Int) (i : Nat) :
    TaskInvariant (tickStart w n modelTime) i := by
  unfold TaskInvariant tickStart
  simp only [List.getElem?_replicate]
  split
  · next heq => exact ⟨rfl, rfl⟩
  · next heq => exact ⟨rfl, rfl⟩
  · next heq =>
    split at heq
    · cases heq
    · cases heq
  · next todo heq =>
    split at heq
    · cases heq
    · cases heq
  · next heq =>
    split at heq
    · cases heq
    · cases heq

/-- In every state a tick can reach, whatever the order in which the
scheduler runs the calls of HandleTransacts and the steps of the tasks,
every key a block has handled in the tick is in the one snapshot that block
took in the tick; a task that has ended has handled exactly its snapshot
(or has taken none, its holding set being empty at the call).  The snapshot
is the holding set as it is when the task takes it.  The clock is
incremented, by one, only in a state where every task has ended. -/
theorem tick_handles_own_snapshot {W : Type} (blocks : List (BlockTask W)) (w : W)
    (modelTime : Int) (schedule : List TickChoice) (st : TickState W)
    (hrun : runSchedule blocks schedule (tickStart w blocks.length modelTime) = some st) :
    (∀ (i : Nat) (key : Int), key ∈ handledBy i st.log →
      ∃ keys : List Int, snapshotsOf i st.log = [keys] ∧ key ∈ keys) ∧
    (∀ i : Nat, st.tasks[i]? = some TaskState.finished →
      (handledBy i st.log = [] ∧ snapshotsOf i st.log = []) ∨
      snapshotsOf i st.log = [handledBy i st.log]) ∧
    (∀ (j : Nat) (st1 : TickState W), tickStep blocks (TickChoice.snapshot j) st = some st1 →
      ∃ b : BlockTask W, blocks[j]? = some b ∧
        st1.log = st.log ++ [TickEvent.snapshot j (b.snapshot st.world)]) ∧
    (∀ (c : TickChoice) (st1 : TickState W), tickStep blocks c st = some st1 →
      st1.modelTime ≠ st.modelTime →
      (∀ t ∈ st.tasks, t = TaskState.finished) ∧ st1.modelTime = st.modelTime + 1) := by
  have hinv := runSchedule_TaskInvariant blocks schedule _ st hrun
    (tickStart_TaskInvariant w blocks.length modelTime)
  refine ⟨?_, ?_, ?_, ?_⟩
  · intro i key hkey
    have hi := hinv i
    unfold TaskInvariant at hi
    split at hi
    · rw [hi.1] at hkey; exact absurd hkey (List.not_mem_nil _)
    · rw [hi.1] at hkey; exact absurd hkey (List.not_mem_nil _)
    · rw [hi.1] at hkey; exact absurd hkey (List.not_mem_nil _)
    · exact ⟨_, hi, List.mem_append_left _ hkey⟩
    · rcases hi with hi | hi
      · rw [hi.1] at hkey; exact absurd hkey (List.not_mem_nil _)
      · exact ⟨_, hi, hkey⟩
  · intro i hfin
    exact (TaskInvariant_finished st i hfin).mp (hinv i)
  · intro j st1 hstep
    simp only [tickStep] at hstep
    split at hstep
    · next b hb ht =>
      simp only [Option.some.injEq] at hstep
      subst hstep
      exact ⟨b, hb, rfl⟩
    · exact absurd hstep (by simp)
  · intro c st1 hstep hne
    cases c with
    | call j =>
      simp only [tickStep] at hstep
      split at hstep
      · simp only [Option.some.injEq] at hstep
        subst hstep
        exact absurd rfl hne
      · exact absurd hstep (by simp)
    | snapshot j =>
      simp only [tickStep] at hstep
      split at hstep
      · simp only [Option.some.injEq] at hstep
        subst hstep
        exact absurd rfl hne
      · exact absurd hstep (by simp)
    | handle j =>
      simp only [tickStep] at hstep
      split at hstep
      · simp only [Option.some.injEq] at hstep
        subst hstep
        exact absurd rfl hne
      · exact absurd hstep (by simp)
    | finish j =>
      simp only [tickStep] at hstep
      split at hstep
      · simp only [Option.some.injEq] at hstep
        subst hstep
        exact absurd rfl hne
      · exact absurd hstep (by simp)
    | clock =>
      simp only [tickStep] at hstep
      split at hstep
      · next hall =>
        simp only [Option.some.injEq] at hstep
        subst hstep
        refine ⟨?_, rfl⟩
        intro t ht
        have := (List.all_eq_true.mp hall) t ht
        simpa using this
      · exact absurd hstep (by simp)

theorem tick_handles_own_snapshot_witness :
    (∀ (i : Nat) (key : Int), key ∈ handledBy i chainEnd.log →
      ∃ keys : List Int, snapshotsOf i chainEnd.log = [keys] ∧ key ∈ keys) ∧
    (∀ i : Nat, chainEnd.tasks[i]? = some TaskState.finished →
      (handledBy i chainEnd.log = [] ∧ snapshotsOf i chainEnd.log = []) ∨
      snapshotsOf i chainEnd.log = [handledBy i chainEnd.log]) ∧
    (∀ (j : Nat) (st1 : TickState ChainWorld),
      tickStep [chainFirst, chainSecond] (TickChoice.snapshot j) chainEnd = some st1 →
      ∃ b : BlockTask ChainWorld, [chainFirst, chainSecond][j]? = some b ∧
        st1.log = chainEnd.log ++ [TickEvent.snapshot j (b.snapshot chainEnd.world)]) ∧
    (∀ (c : TickChoice) (st1 : TickState ChainWorld),
      tickStep [chainFirst, chainSecond] c chainEnd = some st1 →
      st1.modelTime ≠ chainEnd.modelTime →
      (∀ t ∈ chainEnd.tasks, t = TaskState.finished) ∧
        st1.modelTime = chainEnd.modelTime + 1) :=
  tick_handles_own_snapshot [chainFirst, chainSecond] chainStart.world 3
    firstThenSecond chainEnd (by rfl)

/-! ## One tick of a network: a transaction handed over -/

theorem TransactTable.mem_Push (tb : TransactTable) (t : Transaction) (k : Int) :
    k ∈ (tb.Push t).items ↔ k ∈ tb.items ∨ k = t.GetId := by
  unfold TransactTable.Push
  split
  · next h =>
    constructor
    · exact Or.inl
    · rintro (h1 | h1)
      · exact h1
      · rw [h1]; exact h
  · simp

theorem TransactTable.nodup_Push (tb : TransactTable) (t : Transaction)
    (h : tb.items.Nodup) : (tb.Push t).items.Nodup := by
  unfold TransactTable.Push
  split
  · exact h
  · next hmem =>
    simp only
    rw [List.nodup_append]
    refine ⟨h, List.nodup_singleton _, ?_⟩
    intro a ha hb
    rw [List.mem_singleton] at hb
    rw [hb] at ha
    exact hmem ha

theorem TransactTable.mem_Remove (tb : TransactTable) (t : Transaction) (k : Int) :
    k ∈ (tb.Remove t).items ↔ k ∈ tb.items ∧ k ≠ t.GetId := by
  simp [TransactTable.Remove]

theorem TransactTable.nodup_Remove (tb : TransactTable) (t : Transaction)
    (h : tb.items.Nodup) : (tb.Remove t).items.Nodup := by
  unfold TransactTable.Remove
  exact h.filter _

theorem Network.held_of_get (net : Network) (m : Nat) (b : Block)
    (h : net.blocks[m]? = some b) : net.held m = b.tb.items := by
  unfold Network.held
  rw [h]
  rfl

theorem Network.held_set_self (blocks : List Block) (store : Store) (drawn : Nat) (j : Nat)
    (b b0 : Block) (h : blocks[j]? = some b0) :
    Network.held ⟨blocks.set j b, store, drawn⟩ j = b.tb.items := by
  unfold Network.held
  simp only
  rw [getElem?_set_of_eq_some blocks j b0 b h]
  rfl

theorem Network.held_set_other (blocks : List Block) (store store1 : Store)
    (drawn drawn1 : Nat) (j m : Nat) (b : Block) (h : m ≠ j) :
    Network.held ⟨blocks.set j b, store, drawn⟩ m = Network.held ⟨blocks, store1, drawn1⟩ m := by
  unfold Network.held
  simp only
  rw [List.getElem?_set_ne (Ne.symm h)]

theorem isSome_set {α : Type} (l : List α) (j m : Nat) (x x0 : α) (h : l[j]? = some x0) :
    ((l.set j x)[m]?).isSome = (l[m]?).isSome := by
  by_cases hm : m = j
  · subst hm
    rw [getElem?_set_of_eq_some l m x0 x h, h]
    rfl
  · rw [List.getElem?_set_ne (Ne.symm hm)]

theorem Network.offer_none (rnd : Nat → Int) (j : Nat) (t : Transaction) :
    Network.offer rnd j t none = (false, t, none) := rfl

/-- What an offer to block `j` does to the network. -/
theorem Network.offer_spec (rnd : Nat → Int) (j : Nat) (t : Transaction) (net : Network) :
    (Network.offer rnd j t (some net)).2.1.GetId = t.GetId ∧
    ∀ net1 : Network, (Network.offer rnd j t (some net)).2.2 = some net1 →
      net1.store = net.store ∧
      (∀ m : Nat, (net1.blocks[m]?).isSome = (net.blocks[m]?).isSome) ∧
      (∀ m : Nat, m ≠ j → net1.held m = net.held m) ∧
      ((Network.offer rnd j t (some net)).1 = false → net1.held j = net.held j) ∧
      ((Network.offer rnd j t (some net)).1 = true →
        ((net.held j).Nodup → (net1.held j).Nodup) ∧
        ∀ k, k ∈ net1.held j ↔ k ∈ net.held j ∨ k = t.GetId) := by
  unfold Network.offer
  simp only
  cases hb : net.blocks[j]? with
  | none =>
    simp only
    refine ⟨trivial, ?_⟩
    intro net1 h1
    simp only [Option.some.injEq] at h1
    subst h1
    exact ⟨rfl, fun _ => rfl, fun _ _ => rfl, fun _ => rfl, fun h => absurd h (by simp)⟩
  | some b0 =>
    cases b0 with
    | advance obj =>
      simp only
      refine ⟨rfl, ?_⟩
      intro net1 h1
      simp only [Option.some.injEq] at h1
      subst h1
      refine ⟨rfl, ?_, ?_, ?_, ?_⟩
      · exact fun m => isSome_set _ j m _ _ hb
      · intro m hm
        exact Network.held_set_other _ _ _ _ _ _ _ _ hm
      · intro h
        exact absurd h (by simp [Advance.AppendTransact])
      · intro _
        rw [Network.held_set_self _ _ _ _ _ _ hb, Network.held_of_get net j _ hb]
        constructor
        · intro hnd
          exact TransactTable.nodup_Push _ _ hnd
        · intro k
          exact TransactTable.mem_Push _ _ k
    | facility obj =>
      simp only
      cases happ : obj.AppendTransact (rnd net.drawn) t with
      | none =>
        simp only
        exact ⟨trivial, fun net1 h1 => absurd h1 (by simp)⟩
      | some r =>
        obtain ⟨b, obj1, t1⟩ := r
        simp only
        cases b with
        | true =>
          obtain ⟨-, htb, hid, -⟩ := Facility.AppendTransact_accepted obj _ t obj1 t1 happ
          refine ⟨hid, ?_⟩
          intro net1 h1
          simp only [Option.some.injEq] at h1
          subst h1
          refine ⟨rfl, ?_, ?_, ?_, ?_⟩
          · exact fun m => isSome_set _ j m _ _ hb
          · intro m hm
            exact Network.held_set_other _ _ _ _ _ _ _ _ hm
          · intro h
            exact absurd h (by simp)
          · intro _
            rw [Network.held_set_self _ _ _ _ _ _ hb, Network.held_of_get net j _ hb]
            simp only [Block.tb, htb]
            constructor
            · intro hnd
              exact TransactTable.nodup_Push _ _ hnd
            · intro k
              rw [TransactTable.mem_Push, hid]
        | false =>
          rcases Facility.AppendTransact_tb obj _ t false obj1 t1 happ with
            ⟨-, hobj, ht1, -⟩ | ⟨hb1, -, -⟩
          · refine ⟨by rw [ht1], ?_⟩
            intro net1 h1
            simp only [Option.some.injEq] at h1
            subst h1
            refine ⟨rfl, ?_, ?_, ?_, ?_⟩
            · exact fun m => isSome_set _ j m _ _ hb
            · intro m hm
              exact Network.held_set_other _ _ _ _ _ _ _ _ hm
            · intro _
              rw [Network.held_set_self _ _ _ _ _ _ hb, Network.held_of_get net j _ hb, hobj]
            · intro h
              exact absurd h (by simp)
          · exact absurd hb1 (by simp)
theorem Network.offerDst_none (rnd : Nat → Int) (js : List Nat) :
    ∀ t : Transaction, offerDst (js.map (Network.offer rnd)) t none = (false, t, none) := by
  induction js with
  | nil => intro t; rfl
  | cons j rest ih =>
    intro t
    simp only [List.map_cons, offerDst, Network.offer_none]
    exact ih t

/-- What the routing loop over the successors `js` does to the network. -/
theorem Network.offerDst_spec (rnd : Nat → Int) (js : List Nat) :
    ∀ (t : Transaction) (net : Network),
      (offerDst (js.map (Network.offer rnd)) t (some net)).2.1.GetId = t.GetId ∧
      ∀ net1 : Network, (offerDst (js.map (Network.offer rnd)) t (some net)).2.2 = some net1 →
        net1.store = net.store ∧
        (∀ m : Nat, (net1.blocks[m]?).isSome = (net.blocks[m]?).isSome) ∧
        ((offerDst (js.map (Network.offer rnd)) t (some net)).1 = false →
          ∀ m : Nat, net1.held m = net.held m) ∧
        ((offerDst (js.map (Network.offer rnd)) t (some net)).1 = true →
          ∃ j : Nat, j ∈ js ∧ (∀ m : Nat, m ≠ j → net1.held m = net.held m) ∧
            ((net.held j).Nodup → (net1.held j).Nodup) ∧
            ∀ k, k ∈ net1.held j ↔ k ∈ net.held j ∨ k = t.GetId) := by
  induction js with
  | nil =>
    intro t net
    refine ⟨rfl, ?_⟩
    intro net1 h1
    simp only [List.map_nil, offerDst, Option.some.injEq] at h1
    subst h1
    exact ⟨rfl, fun _ => rfl, fun _ _ => rfl, fun h => absurd h (by simp [offerDst])⟩
  | cons j rest ih =>
    intro t net
    have hspec := Network.offer_spec rnd j t net
    simp only [List.map_cons, offerDst]
    rcases hr : Network.offer rnd j t (some net) with ⟨b, t1, w1⟩
    rw [hr] at hspec
    simp only at hspec
    obtain ⟨hid, hnet⟩ := hspec
    cases b with
    | true =>
      simp only
      refine ⟨hid, ?_⟩
      intro net1 h1
      obtain ⟨hstore, hsome, hother, -, hacc⟩ := hnet net1 h1
      refine ⟨hstore, hsome, fun h => absurd h (by simp), fun _ => ?_⟩
      exact ⟨j, List.mem_cons_self j rest, hother, (hacc rfl).1, (hacc rfl).2⟩
    | false =>
      simp only
      cases w1 with
      | none =>
        rw [Network.offerDst_none]
        exact ⟨hid, fun net1 h1 => absurd h1 (by simp)⟩
      | some net0 =>
        obtain ⟨hstore0, hsome0, hother0, hrej0, -⟩ := hnet net0 rfl
        have hheld0 : ∀ m : Nat, net0.held m = net.held m := by
          intro m
          by_cases hm : m = j
          · rw [hm]; exact hrej0 rfl
          · exact hother0 m hm
        obtain ⟨hid1, hnet1⟩ := ih t1 net0
        refine ⟨hid1.trans hid, ?_⟩
        intro net1 h1
        obtain ⟨hstore, hsome, hrej, hacc⟩ := hnet1 net1 h1
        refine ⟨hstore.trans hstore0, fun m => (hsome m).trans (hsome0 m), ?_, ?_⟩
        · intro h m
          exact (hrej h m).trans (hheld0 m)
        · intro h
          obtain ⟨j1, hj1, hother, hnd, hmem⟩ := hacc h
          refine ⟨j1, List.mem_cons_of_mem j hj1, ?_, ?_, ?_⟩
          · intro m hm
            exact (hother m hm).trans (hheld0 m)
          · rw [← hheld0 j1]; exact hnd
          · intro k
            rw [hmem k, hheld0 j1, hid]
theorem Network.HandledAt_of_kept (net : Network) (i : Nat) (key : Int) (b0 bnew : Block)
    (t2 : Transaction) (d : Nat) (net0 : Network)
    (hb0 : net.blocks[i]? = some b0) (htb : bnew.tb = b0.tb) (hid : t2.GetId = key)
    (hstore : net0.store = net.store)
    (hsome : ∀ m : Nat, (net0.blocks[m]?).isSome = (net.blocks[m]?).isSome)
    (hheld : ∀ m : Nat, net0.held m = net.held m) :
    Network.HandledAt net ⟨net0.blocks.set i bnew, net0.store.put key t2, d⟩ i key := by
  have hi0 : ∃ b1, net0.blocks[i]? = some b1 := by
    have := hsome i
    rw [hb0] at this
    exact Option.isSome_iff_exists.mp this
  obtain ⟨b1, hb1⟩ := hi0
  have hall : ∀ m : Nat,
      Network.held ⟨net0.blocks.set i bnew, net0.store.put key t2, d⟩ m = net.held m := by
    intro m
    by_cases hm : m = i
    · subst hm
      rw [Network.held_set_self _ _ _ _ _ _ hb1, htb, Network.held_of_get net m b0 hb0]
    · rw [Network.held_set_other net0.blocks _ net0.store d net0.drawn i m bnew hm]
      exact hheld m
  refine ⟨?_, ?_, ?_, ?_, Or.inl hall⟩
  · intro k hk
    simp only [Store.get_put, hk, if_false, hstore]
  · intro t ht
    simp only [Store.get_put, if_true, Option.some.injEq] at ht
    rw [← ht]; exact hid
  · intro m k _
    rw [hall m]
  · intro m hnd
    rw [hall m]; exact hnd

theorem Network.offered_GetId (rnd : Nat → Int) (js : List Nat) (net : Network)
    (key : Int) (t0 : Transaction) (b : Bool) (t1 : Transaction) (w1 : Option Network)
    (hid0 : t0.GetId = key)
    (hoff : offerDst (js.map (Network.offer rnd)) t0 (some net) = (b, t1, w1)) :
    t1.GetId = key := by
  have hspec := (Network.offerDst_spec rnd js t0 net).1
  rw [hoff] at hspec
  exact hspec.trans hid0

theorem Network.HandledAt_of_offered (rnd : Nat → Int) (js : List Nat) (net : Network)
    (i : Nat) (key : Int) (b0 bnew : Block) (t0 t2 : Transaction) (d : Nat)
    (b : Bool) (t1 : Transaction) (net0 : Network)
    (hb0 : net.blocks[i]? = some b0) (hid0 : t0.GetId = key) (hid : t2.GetId = key)
    (hoff : offerDst (js.map (Network.offer rnd)) t0 (some net) = (b, t1, some net0))
    (htbacc : b = true → bnew.tb = b0.tb.Remove t1) (htbrej : b = false → bnew.tb = b0.tb) :
    t1.GetId = key ∧
    Network.HandledAt net ⟨net0.blocks.set i bnew, net0.store.put key t2, d⟩ i key := by
  have hspec := Network.offerDst_spec rnd js t0 net
  rw [hoff] at hspec
  simp only at hspec
  obtain ⟨hid1, hnet⟩ := hspec
  obtain ⟨hstore, hsome, hrej, hacc⟩ := hnet net0 rfl
  have hid1 : t1.GetId = key := hid1.trans hid0
  refine ⟨hid1, ?_⟩
  cases b with
  | false =>
    exact Network.HandledAt_of_kept net i key b0 bnew t2 d net0 hb0
      (htbrej rfl) hid hstore hsome (hrej rfl)
  | true =>
    have htb := htbacc rfl
    obtain ⟨j, -, hother, hnd, hmem⟩ := hacc rfl
    have hi0 : ∃ b1, net0.blocks[i]? = some b1 := by
      have := hsome i
      rw [hb0] at this
      exact Option.isSome_iff_exists.mp this
    obtain ⟨b1, hb1⟩ := hi0
    have hself : Network.held ⟨net0.blocks.set i bnew, net0.store.put key t2, d⟩ i =
        (b0.tb.Remove t1).items := by
      rw [Network.held_set_self _ _ _ _ _ _ hb1, htb]
    have hoth : ∀ m : Nat, m ≠ i →
        Network.held ⟨net0.blocks.set i bnew, net0.store.put key t2, d⟩ m = net0.held m := by
      intro m hm
      exact Network.held_set_other net0.blocks _ net0.store d net0.drawn i m bnew hm
    have hheldi : net.held i = b0.tb.items := Network.held_of_get net i b0 hb0
    refine ⟨?_, ?_, ?_, ?_, Or.inr ⟨?_, j, ?_⟩⟩
    · intro k hk
      simp only [Store.get_put, hk, if_false, hstore]
    · intro t ht
      simp only [Store.get_put, if_true, Option.some.injEq] at ht
      rw [← ht]; exact hid
    · intro m k hk
      by_cases hm : m = i
      · subst hm
        rw [hself, TransactTable.mem_Remove, hheldi, hid1]
        exact ⟨fun h => h.1, fun h => ⟨h, hk⟩⟩
      · rw [hoth m hm]
        by_cases hmj : m = j
        · subst hmj
          rw [hmem k, hid0]
          exact ⟨fun h => h.resolve_right hk, Or.inl⟩
        · rw [hother m hmj]
    · intro m hndm
      by_cases hm : m = i
      · subst hm
        rw [hself]
        rw [hheldi] at hndm
        exact TransactTable.nodup_Remove _ _ hndm
      · rw [hoth m hm]
        by_cases hmj : m = j
        · subst hmj
          exact hnd hndm
        · rw [hother m hmj]; exact hndm
    · rw [hself, TransactTable.mem_Remove, hid1]
      exact fun h => h.2 rfl
    · intro m hm hmj
      rw [hoth m hm, hother m hmj]

theorem Network.HandledAt_refl (net : Network) (i : Nat) (key : Int)
    (hids : ∀ (k : Int) (t : Transaction), net.store.get k = some t → t.GetId = k) :
    Network.HandledAt net net i key :=
  ⟨fun _ _ => rfl, fun t ht => hids key t ht, fun _ _ _ => Iff.rfl, fun _ h => h,
    Or.inl fun _ => rfl⟩

theorem Network.handle_none (rnd : Nat → Int) (dst : List (List Nat)) (i : Nat) (key : Int) :
    Network.handle rnd dst i key none = none := rfl

/-- What one round of the loop of the task of block `i` does to the network. -/
theorem Network.handle_spec (rnd : Nat → Int) (dst : List (List Nat)) (i : Nat) (key : Int)
    (net net1 : Network)
    (hids : ∀ (k : Int) (t : Transaction), net.store.get k = some t → t.GetId = k)
    (h : Network.handle rnd dst i key (some net) = some net1) :
    Network.HandledAt net net1 i key := by
  cases hb : net.blocks[i]? with
  | none =>
    simp only [Network.handle, hb, Option.some.injEq] at h
    subst h
    exact Network.HandledAt_refl net i key hids
  | some b0 =>
    cases hget : net.store.get key with
    | none =>
      cases b0 with
      | advance obj =>
        simp only [Network.handle, hb, hget, Option.some.injEq] at h
        subst h
        exact Network.HandledAt_refl net i key hids
      | facility obj =>
        simp only [Network.handle, hb, hget, Option.some.injEq] at h
        subst h
        exact Network.HandledAt_refl net i key hids
    | some t =>
      have hidt : t.GetId = key := hids key t hget
      have hid0 : t.DecTicks.GetId = key := (Transaction.GetId_DecTicks t).trans hidt
      have hsame : ∀ m : Nat, (net.blocks[m]?).isSome = (net.blocks[m]?).isSome := fun _ => rfl
      cases b0 with
      | advance obj =>
        simp only [Network.handle, hb, hget, Advance.HandleTransact] at h
        by_cases hend : t.DecTicks.IsTheEnd = true
        · simp only [hend, if_true] at h
          rcases hoff : offerDst ((successors dst i).map (Network.offer rnd)) t.DecTicks
            (some net) with ⟨b, t1, w1⟩
          rw [hoff] at h
          cases w1 with
          | none => cases b <;> simp at h
          | some net0 =>
            cases b with
            | true =>
              simp only [Option.some.injEq] at h
              subst h
              have hid1 : t1.GetId = key :=
                Network.offered_GetId rnd (successors dst i) net key _ true t1 (some net0) hid0 hoff
              exact (Network.HandledAt_of_offered rnd (successors dst i) net i key
                (Block.advance obj) (Block.advance { obj with tb := obj.tb.Remove t1 })
                t.DecTicks t1 net0.drawn true t1 net0 hb hid0 hid1 hoff
                (fun _ => rfl) (fun hb => absurd hb (by simp))).2
            | false =>
              simp only [Option.some.injEq] at h
              subst h
              have hid1 : t1.GetId = key :=
                Network.offered_GetId rnd (successors dst i) net key _ false t1 (some net0) hid0 hoff
              exact (Network.HandledAt_of_offered rnd (successors dst i) net i key
                (Block.advance obj) (Block.advance obj) t.DecTicks t1 net0.drawn false t1 net0
                hb hid0 hid1 hoff (fun hb => absurd hb (by simp)) (fun _ => rfl)).2
        · simp only [hend, Bool.false_eq_true, if_false, Option.some.injEq] at h
          subst h
          exact Network.HandledAt_of_kept net i key (Block.advance obj) _ t.DecTicks net.drawn
            net hb rfl hid0 rfl hsame (fun _ => rfl)
      | facility obj =>
        simp only [Network.handle, hb, hget, Facility.HandleTransact] at h
        by_cases hend : t.DecTicks.IsTheEnd = true
        · simp only [hend, if_true, Facility.offerSuccs_ext] at h
          have hidr : (restoreFacilityParameter obj.bakupFacilityName t.DecTicks).GetId = key :=
            (GetId_restoreFacilityParameter _ _).trans hid0
          rcases hoff : offerDst ((successors dst i).map (Network.offer rnd))
            (restoreFacilityParameter obj.bakupFacilityName t.DecTicks) (some net)
            with ⟨b, t1, w1⟩
          rw [hoff] at h
          cases w1 with
          | none => cases b <;> simp at h
          | some net0 =>
            cases b with
            | true =>
              simp only [Option.some.injEq] at h
              subst h
              have hid1 : t1.GetId = key :=
                Network.offered_GetId rnd (successors dst i) net key _ true t1 (some net0) hidr hoff
              exact (Network.HandledAt_of_offered rnd (successors dst i) net i key
                (Block.facility obj)
                (Block.facility
                  { ({ obj with tb := obj.tb.Remove t1 } : Facility) with HoldedTransactID := -1 })
                _ t1 net0.drawn true t1 net0 hb hidr hid1 hoff
                (fun _ => rfl) (fun hb => absurd hb (by simp))).2
            | false =>
              simp only [Option.some.injEq] at h
              subst h
              have hid1 : t1.GetId = key :=
                Network.offered_GetId rnd (successors dst i) net key _ false t1 (some net0) hidr hoff
              exact (Network.HandledAt_of_offered rnd (successors dst i) net i key
                (Block.facility obj) (Block.facility obj) _ _ net0.drawn false t1 net0 hb hidr
                ((Transaction.GetId_SetParameters _ _).trans hid1) hoff
                (fun hb => absurd hb (by simp)) (fun _ => rfl)).2
        · simp only [hend, Bool.false_eq_true, if_false, Option.some.injEq] at h
          subst h
          exact Network.HandledAt_of_kept net i key (Block.facility obj) _ t.DecTicks net.drawn
            net hb rfl hid0 rfl hsame (fun _ => rfl)

theorem Network.tasks_get (rnd : Nat → Int) (dst : List (List Nat)) (n i : Nat)
    (b : BlockTask (Option Network)) (h : (Network.tasks rnd dst n)[i]? = some b) :
    b = Network.task rnd dst i := by
  unfold Network.tasks at h
  rw [List.getElem?_map] at h
  by_cases hi : i < n
  · rw [List.getElem?_range hi] at h
    simp only [Option.map_some', Option.some.injEq] at h
    exact h.symm
  · rw [List.getElem?_eq_none (by simp only [List.length_range]; omega)] at h
    simp at h

/-- Every step of a tick keeps the invariant of the network. -/
theorem Network.tickStep_TickInvariant (rnd : Nat → Int) (dst : List (List Nat)) (n : Nat)
    (c : TickChoice) (st st1 : TickState (Option Network))
    (h : tickStep (Network.tasks rnd dst n) c st = some st1)
    (hinv : Network.TickInvariant st) : Network.TickInvariant st1 := by
  cases c with
  | call i =>
    simp only [tickStep] at h
    split at h
    · next b hb ht =>
      simp only [Option.some.injEq] at h
      subst h
      intro net hnet
      obtain ⟨hA, hB, hC, hD⟩ := hinv net hnet
      refine ⟨hA, hB, hC, ?_⟩
      intro m todo hm
      simp only at hm
      by_cases hmi : m = i
      · subst hmi
        rw [getElem?_set_of_eq_some _ _ _ _ ht] at hm
        split at hm <;> simp at hm
      · rw [List.getElem?_set_ne (Ne.symm hmi)] at hm
        exact hD m todo hm
    · exact absurd h (by simp)
  | snapshot i =>
    simp only [tickStep] at h
    split at h
    · next b hb ht =>
      simp only [Option.some.injEq] at h
      subst h
      have hbt := Network.tasks_get rnd dst n i b hb
      intro net hnet
      simp only at hnet
      obtain ⟨hA, hB, hC, hD⟩ := hinv net hnet
      refine ⟨hA, hB, hC, ?_⟩
      intro m todo hm
      simp only at hm
      by_cases hmi : m = i
      · subst hmi
        rw [getElem?_set_of_eq_some _ _ _ _ ht] at hm
        simp only [Option.some.injEq, TaskState.running.injEq] at hm
        subst hm
        rw [hbt, hnet]
        simp only [Network.task]
        exact ⟨hA m, fun k hk => hk⟩
      · rw [List.getElem?_set_ne (Ne.symm hmi)] at hm
        exact hD m todo hm
    · exact absurd h (by simp)
  | handle i =>
    simp only [tickStep] at h
    split at h
    · next b key rest hb ht =>
      simp only [Option.some.injEq] at h
      subst h
      have hbt := Network.tasks_get rnd dst n i b hb
      intro net1 hnet1
      simp only [hbt, Network.task] at hnet1
      cases hw : st.world with
      | none =>
        rw [hw, Network.handle_none] at hnet1
        exact absurd hnet1 (by simp)
      | some net =>
        rw [hw] at hnet1
        obtain ⟨hA, hB, hC, hD⟩ := hinv net hw
        obtain ⟨hs1, hs2, ht1, hnd, hmove⟩ := Network.handle_spec rnd dst i key net net1 hC hnet1
        obtain ⟨hndi, hsubi⟩ := hD i (key :: rest) ht
        have hkeyi : key ∈ net.held i := hsubi key (List.mem_cons_self key rest)
        refine ⟨fun m => hnd m (hA m), ?_, ?_, ?_⟩
        · intro m m1 k hk hk1
          by_cases hkk : k = key
          · subst hkk
            rcases hmove with hsame | ⟨hnoti, j, hoth⟩
            · rw [hsame m] at hk
              rw [hsame m1] at hk1
              exact hB m m1 k hk hk1
            · have hone : ∀ m2 : Nat, k ∈ net1.held m2 → m2 = j := by
                intro m2 hk2
                by_contra hne
                have hm2i : m2 ≠ i := fun he => hnoti (he ▸ hk2)
                rw [hoth m2 hm2i hne] at hk2
                exact hm2i (hB m2 i k hk2 hkeyi)
              rw [hone m hk, hone m1 hk1]
          · exact hB m m1 k ((ht1 m k hkk).mp hk) ((ht1 m1 k hkk).mp hk1)
        · intro k t hget
          by_cases hkk : k = key
          · subst hkk
            exact hs2 t hget
          · rw [hs1 k hkk] at hget
            exact hC k t hget
        · intro m todo hm
          simp only at hm
          by_cases hmi : m = i
          · subst hmi
            rw [getElem?_set_of_eq_some _ _ _ _ ht] at hm
            simp only [Option.some.injEq, TaskState.running.injEq] at hm
            subst hm
            have hnd2 := List.nodup_cons.mp hndi
            refine ⟨hnd2.2, ?_⟩
            intro k hk
            have hkk : k ≠ key := fun he => hnd2.1 (he ▸ hk)
            exact (ht1 m k hkk).mpr (hsubi k (List.mem_cons_of_mem key hk))
          · rw [List.getElem?_set_ne (Ne.symm hmi)] at hm
            obtain ⟨hndm, hsubm⟩ := hD m todo hm
            refine ⟨hndm, ?_⟩
            intro k hk
            have hkm := hsubm k hk
            have hkk : k ≠ key := by
              intro he
              subst he
              exact hmi (hB m i k hkm hkeyi)
            exact (ht1 m k hkk).mpr hkm
    · exact absurd h (by simp)
  | finish i =>
    simp only [tickStep] at h
    split at h
    · next ht =>
      simp only [Option.some.injEq] at h
      subst h
      intro net hnet
      obtain ⟨hA, hB, hC, hD⟩ := hinv net hnet
      refine ⟨hA, hB, hC, ?_⟩
      intro m todo hm
      simp only at hm
      by_cases hmi : m = i
      · subst hmi
        rw [getElem?_set_of_eq_some _ _ _ _ ht] at hm
        simp at hm
      · rw [List.getElem?_set_ne (Ne.symm hmi)] at hm
        exact hD m todo hm
    · exact absurd h (by simp)
  | clock =>
    simp only [tickStep] at h
    split at h
    · simp only [Option.some.injEq] at h
      subst h
      intro net hnet
      obtain ⟨hA, hB, hC, -⟩ := hinv net hnet
      refine ⟨hA, hB, hC, ?_⟩
      intro m todo hm
      simp only [List.getElem?_map] at hm
      cases hx : st.tasks[m]? with
      | none => rw [hx] at hm; simp at hm
      | some x => rw [hx] at hm; simp at hm
    · exact absurd h (by simp)

theorem Network.runSchedule_TickInvariant (rnd : Nat → Int) (dst : List (List Nat)) (n : Nat)
    (schedule : List TickChoice) :
    ∀ (st st1 : TickState (Option Network)),
      runSchedule (Network.tasks rnd dst n) schedule st = some st1 →
      Network.TickInvariant st → Network.TickInvariant st1 := by
  induction schedule with
  | nil =>
    intro st st1 h hinv
    simp only [runSchedule, Option.some.injEq] at h
    subst h
    exact hinv
  | cons c cs ih =>
    intro st st1 h hinv
    simp only [runSchedule] at h
    split at h
    · exact absurd h (by simp)
    · next st2 hstep =>
      exact ih st2 st1 h (Network.tickStep_TickInvariant rnd dst n c st st2 hstep hinv)

theorem Network.held_mem_flatten (net : Network) (m : Nat) (k : Int) (h : k ∈ net.held m) :
    ∃ b : Block, net.blocks[m]? = some b ∧ k ∈ b.tb.GetItems := by
  unfold Network.held at h
  cases hb : net.blocks[m]? with
  | none => rw [hb] at h; simp at h
  | some b => rw [hb] at h; exact ⟨b, rfl, h⟩

/-- A well-formed network at the start of a tick. -/
theorem Network.tickStart_TickInvariant (net0 : Network) (n : Nat) (modelTime : Int)
    (hwf : net0.WellFormed) : Network.TickInvariant (tickStart (some net0) n modelTime) := by
  intro net hnet
  simp only [tickStart, Option.some.injEq] at hnet
  subst hnet
  obtain ⟨hnd, hstore⟩ := hwf
  rw [List.nodup_flatten] at hnd
  obtain ⟨hnd1, hpw⟩ := hnd
  refine ⟨?_, ?_, ?_, ?_⟩
  · intro m
    unfold Network.held
    cases hb : net0.blocks[m]? with
    | none => exact List.nodup_nil
    | some b =>
      simp only
      apply hnd1
      rw [List.mem_map]
      exact ⟨b, List.getElem?_mem hb, rfl⟩
  · intro m m1 k hk hk1
    by_contra hne
    obtain ⟨b, hb, hkb⟩ := Network.held_mem_flatten net0 m k hk
    obtain ⟨b1, hb1, hkb1⟩ := Network.held_mem_flatten net0 m1 k hk1
    rw [List.pairwise_iff_getElem] at hpw
    have hlen : ∀ (x : Nat) (bx : Block), net0.blocks[x]? = some bx →
        ∃ hx : x < (net0.blocks.map fun b => b.tb.GetItems).length,
          (net0.blocks.map fun b => b.tb.GetItems)[x] = bx.tb.GetItems := by
      intro x bx hx
      have hlt : x < net0.blocks.length := by
        by_contra hge
        rw [List.getElem?_eq_none (by omega)] at hx
        exact absurd hx (by simp)
      refine ⟨by simpa using hlt, ?_⟩
      rw [List.getElem_map]
      rw [List.getElem?_eq_getElem hlt] at hx
      rw [Option.some.inj hx]
    obtain ⟨hm, hgm⟩ := hlen m b hb
    obtain ⟨hm1, hgm1⟩ := hlen m1 b1 hb1
    rcases Nat.lt_or_gt_of_ne hne with hlt | hgt
    · have := hpw m m1 hm hm1 hlt
      rw [hgm, hgm1] at this
      exact this hkb hkb1
    · have := hpw m1 m hm1 hm hgt
      rw [hgm, hgm1] at this
      exact this hkb1 hkb
  · intro k t hget
    unfold Store.get at hget
    obtain ⟨l1, l2, hl, -⟩ := List.lookup_eq_some_iff.mp hget
    exact hstore (k, t) (by rw [hl]; simp)
  · intro m todo hm
    simp only [tickStart, List.getElem?_replicate] at hm
    split at hm <;> simp at hm

/-- A step of a tick leaves the clock as it is, unless it is the clock step,
which adds one. -/
theorem tickStep_modelTime {W : Type} (blocks : List (BlockTask W)) (c : TickChoice)
    (st st1 : TickState W) (h : tickStep blocks c st = some st1) :
    (c ≠ TickChoice.clock ∧ st1.modelTime = st.modelTime) ∨
    (c = TickChoice.clock ∧ st1.modelTime = st.modelTime + 1) := by
  cases c with
  | call j =>
    simp only [tickStep] at h
    split at h
    · simp only [Option.some.injEq] at h
      subst h
      exact Or.inl ⟨by simp, rfl⟩
    · exact absurd h (by simp)
  | snapshot j =>
    simp only [tickStep] at h
    split at h
    · simp only [Option.some.injEq] at h
      subst h
      exact Or.inl ⟨by simp, rfl⟩
    · exact absurd h (by simp)
  | handle j =>
    simp only [tickStep] at h
    split at h
    · simp only [Option.some.injEq] at h
      subst h
      exact Or.inl ⟨by simp, rfl⟩
    · exact absurd h (by simp)
  | finish j =>
    simp only [tickStep] at h
    split at h
    · simp only [Option.some.injEq] at h
      subst h
      exact Or.inl ⟨by simp, rfl⟩
    · exact absurd h (by simp)
  | clock =>
    simp only [tickStep] at h
    split at h
    · simp only [Option.some.injEq] at h
      subst h
      exact Or.inr ⟨rfl, rfl⟩
    · exact absurd h (by simp)

theorem runSchedule_modelTime_le {W : Type} (blocks : List (BlockTask W))
    (schedule : List TickChoice) :
    ∀ (st st1 : TickState W), runSchedule blocks schedule st = some st1 →
      st.modelTime ≤ st1.modelTime := by
  induction schedule with
  | nil =>
    intro st st1 h
    simp only [runSchedule, Option.some.injEq] at h
    subst h
    exact le_refl _
  | cons c cs ih =>
    intro st st1 h
    simp only [runSchedule] at h
    split at h
    · exact absurd h (by simp)
    · next st2 hstep =>
      have h1 := ih st2 st1 h
      rcases tickStep_modelTime blocks c st st2 hstep with ⟨-, h2⟩ | ⟨-, h2⟩ <;> omega

/-- A step of a tick other than the clock step leaves a waiting item as it
is. -/
theorem Network.tickStep_Settled (rnd : Nat → Int) (dst : List (List Nat)) (n : Nat)
    (c : TickChoice) (st st1 : TickState (Option Network)) (j : Nat) (key : Int)
    (object : Option Transaction) (log0 : List TickEvent)
    (h : tickStep (Network.tasks rnd dst n) c st = some st1) (hc : c ≠ TickChoice.clock)
    (hinv : Network.TickInvariant st) (hset : Network.Settled j key object log0 st) :
    Network.Settled j key object log0 st1 := by
  obtain ⟨htask, ⟨events, hlog, hev⟩, hworld⟩ := hset
  cases c with
  | call i =>
    simp only [tickStep] at h
    split at h
    · next b hb ht =>
      simp only [Option.some.injEq] at h
      subst h
      have hij : j ≠ i := by
        intro he
        subst he
        rcases htask with hf | ⟨todo, hr, -⟩
        · rw [hf] at ht; simp at ht
        · rw [hr] at ht; simp at ht
      refine ⟨?_, ⟨events, hlog, hev⟩, hworld⟩
      simp only
      rw [List.getElem?_set_ne (Ne.symm hij)]
      exact htask
    · exact absurd h (by simp)
  | snapshot i =>
    simp only [tickStep] at h
    split at h
    · next b hb ht =>
      simp only [Option.some.injEq] at h
      subst h
      have hij : j ≠ i := by
        intro he
        subst he
        rcases htask with hf | ⟨todo, hr, -⟩
        · rw [hf] at ht; simp at ht
        · rw [hr] at ht; simp at ht
      refine ⟨?_, ⟨events ++ [TickEvent.snapshot i (b.snapshot st.world)], ?_, ?_⟩, hworld⟩
      · simp only
        rw [List.getElem?_set_ne (Ne.symm hij)]
        exact htask
      · simp only [hlog, List.append_assoc]
      · simp only [List.mem_append, List.mem_singleton, not_or]
        exact ⟨hev, by simp⟩
    · exact absurd h (by simp)
  | handle i =>
    simp only [tickStep] at h
    split at h
    · next b k1 rest hb ht =>
      simp only [Option.some.injEq] at h
      subst h
      have hbt := Network.tasks_get rnd dst n i b hb
      by_cases hij : j = i
      · subst hij
        rcases htask with hf | ⟨todo, hr, hnot⟩
        · rw [hf] at ht; simp at ht
        · rw [hr] at ht
          simp only [Option.some.injEq, TaskState.running.injEq] at ht
          subst ht
          have hk1 : key ≠ k1 := fun he => hnot (he ▸ List.mem_cons_self k1 rest)
          have hrest : key ∉ rest := fun hm => hnot (List.mem_cons_of_mem k1 hm)
          refine ⟨Or.inr ⟨rest, ?_, hrest⟩, ⟨events ++ [TickEvent.handle j k1], ?_, ?_⟩, ?_⟩
          · simp only
            exact getElem?_set_of_eq_some _ _ _ _ hr
          · simp only [hlog, List.append_assoc]
          · simp only [List.mem_append, List.mem_singleton, not_or, TickEvent.handle.injEq,
              true_and]
            exact ⟨hev, hk1⟩
          · intro net1 hnet1
            simp only [hbt, Network.task] at hnet1
            cases hw : st.world with
            | none =>
              rw [hw, Network.handle_none] at hnet1
              exact absurd hnet1 (by simp)
            | some net =>
              rw [hw] at hnet1
              obtain ⟨-, -, hC, -⟩ := hinv net hw
              obtain ⟨hs1, -, ht1, -, -⟩ :=
                Network.handle_spec rnd dst j k1 net net1 hC hnet1
              obtain ⟨hobj, hheld⟩ := hworld net hw
              exact ⟨(hs1 key hk1).trans hobj, (ht1 j key hk1).mpr hheld⟩
      · refine ⟨?_, ⟨events ++ [TickEvent.handle i k1], ?_, ?_⟩, ?_⟩
        · simp only
          rw [List.getElem?_set_ne (Ne.symm hij)]
          exact htask
        · simp only [hlog, List.append_assoc]
        · simp only [List.mem_append, List.mem_singleton, not_or, TickEvent.handle.injEq,
            not_and]
          exact ⟨hev, fun he => absurd he hij⟩
        · intro net1 hnet1
          simp only [hbt, Network.task] at hnet1
          cases hw : st.world with
          | none =>
            rw [hw, Network.handle_none] at hnet1
            exact absurd hnet1 (by simp)
          | some net =>
            rw [hw] at hnet1
            obtain ⟨-, hB, hC, hD⟩ := hinv net hw
            obtain ⟨hs1, -, ht1, -, -⟩ :=
              Network.handle_spec rnd dst i k1 net net1 hC hnet1
            obtain ⟨hobj, hheld⟩ := hworld net hw
            have hk1i : k1 ∈ net.held i := (hD i (k1 :: rest) ht).2 k1 (List.mem_cons_self k1 rest)
            have hk1 : key ≠ k1 := by
              intro he
              subst he
              exact hij (hB j i key hheld hk1i)
            exact ⟨(hs1 key hk1).trans hobj, (ht1 j key hk1).mpr hheld⟩
    · exact absurd h (by simp)
  | finish i =>
    simp only [tickStep] at h
    split at h
    · next ht =>
      simp only [Option.some.injEq] at h
      subst h
      refine ⟨?_, ⟨events, hlog, hev⟩, hworld⟩
      simp only
      by_cases hij : j = i
      · subst hij
        exact Or.inl (getElem?_set_of_eq_some _ _ _ _ ht)
      · rw [List.getElem?_set_ne (Ne.symm hij)]
        exact htask
    · exact absurd h (by simp)
  | clock => exact absurd rfl hc

theorem Network.runSchedule_Settled (rnd : Nat → Int) (dst : List (List Nat)) (n : Nat)
    (j : Nat) (key : Int) (object : Option Transaction) (log0 : List TickEvent)
    (schedule : List TickChoice) :
    ∀ (st st2 : TickState (Option Network)),
      runSchedule (Network.tasks rnd dst n) schedule st = some st2 →
      st2.modelTime = st.modelTime →
      Network.TickInvariant st → Network.Settled j key object log0 st →
      Network.Settled j key object log0 st2 := by
  induction schedule with
  | nil =>
    intro st st2 h _ _ hset
    simp only [runSchedule, Option.some.injEq] at h
    subst h
    exact hset
  | cons c cs ih =>
    intro st st2 h htime hinv hset
    simp only [runSchedule] at h
    split at h
    · exact absurd h (by simp)
    · next st1 hstep =>
      have hle := runSchedule_modelTime_le _ cs st1 st2 h
      rcases tickStep_modelTime _ c st st1 hstep with ⟨hc, h1⟩ | ⟨-, h1⟩
      · exact ih st1 st2 h (htime.trans h1.symm)
          (Network.tickStep_TickInvariant rnd dst n c st st1 hstep hinv)
          (Network.tickStep_Settled rnd dst n c st st1 j key object log0 hstep hc hinv hset)
      · omega

/-- The step that hands `key` over to block `j`, whose task has taken its
snapshot or has ended: `key` waits in `j` from then on. -/
theorem Network.handover_Settled (rnd : Nat → Int) (dst : List (List Nat)) (n : Nat)
    (i j : Nat) (key : Int) (st st1 : TickState (Option Network)) (net net1 : Network)
    (hinv : Network.TickInvariant st)
    (hstep : tickStep (Network.tasks rnd dst n) (TickChoice.handle i) st = some st1)
    (hw : st.world = some net) (hw1 : st1.world = some net1)
    (hout : key ∉ net.held j) (hin : key ∈ net1.held j)
    (hsnap : st.tasks[j]? = some TaskState.finished ∨
      ∃ todo : List Int, st.tasks[j]? = some (TaskState.running todo)) :
    i ≠ j ∧ key ∈ net.held i ∧ Network.Settled j key (net1.store.get key) st1.log st1 := by
  simp only [tickStep] at hstep
  split at hstep
  · next b k1 rest hb ht =>
    simp only [Option.some.injEq] at hstep
    subst hstep
    have hbt := Network.tasks_get rnd dst n i b hb
    simp only [hbt, Network.task, hw] at hw1
    obtain ⟨-, -, hC, hD⟩ := hinv net hw
    obtain ⟨-, -, ht1, -, -⟩ := Network.handle_spec rnd dst i k1 net net1 hC hw1
    have hk1 : key = k1 := by
      by_contra hne
      exact hout ((ht1 j key hne).mp hin)
    subst hk1
    have hkeyi : key ∈ net.held i := (hD i (key :: rest) ht).2 key (List.mem_cons_self key rest)
    have hij : i ≠ j := fun he => hout (he ▸ hkeyi)
    refine ⟨hij, hkeyi, ?_, ⟨[], by simp, by simp⟩, ?_⟩
    · simp only
      rw [List.getElem?_set_ne hij]
      rcases hsnap with hf | ⟨todo, hr⟩
      · exact Or.inl hf
      · exact Or.inr ⟨todo, hr, fun hm => hout ((hD j todo hr).2 key hm)⟩
    · intro net2 hnet2
      simp only [hbt, Network.task, hw] at hnet2
      rw [hw1] at hnet2
      simp only [Option.some.injEq] at hnet2
      subst hnet2
      exact ⟨rfl, hin⟩
  · exact absurd hstep (by simp)

theorem runSchedule_append {W : Type} (blocks : List (BlockTask W)) (a b : List TickChoice) :
    ∀ st : TickState W,
      runSchedule blocks (a ++ b) st = (runSchedule blocks a st).bind (runSchedule blocks b) := by
  induction a with
  | nil => intro st; rfl
  | cons c cs ih =>
    intro st
    simp only [List.cons_append, runSchedule]
    cases tickStep blocks c st with
    | none => rfl
    | some st1 => exact ih st1

/-- C20, amended: in a network of Advance and Facility blocks none of which
is its own successor, every transaction being in one holding set at most at
the start, and for every order in which the scheduler runs the calls of
HandleTransacts and the steps of the tasks: when a step of the task of
block i hands a transaction over to block j, the task of j having taken its
snapshot before (or having ended, or not having been started because the
holding set of j was empty at the call), then as long as the clock is not
incremented and the program has not panicked the object of the transaction
is as the hand-over left it (its ticks are not decremented), the
transaction is in the holding set of j (it is not forwarded) and no step of
the task of j handles it.  Every key a block handles in a tick is in the
one snapshot its task took in that tick, which is the holding set as it is
when the task takes it, not as it is at the start of the tick.  The clock
is incremented, by one, only in a state where every task has ended. -/
theorem Network.handed_over_waits_for_next_tick (rnd : Nat → Int) (dst : List (List Nat))
    (net0 : Network) (modelTime : Int) (before after : List TickChoice) (i j : Nat)
    (key : Int) (st st1 st2 : TickState (Option Network)) (net net1 net2 : Network)
    (_hdst : NoSelfLoop dst) (hwf : net0.WellFormed)
    (hbefore : runSchedule (Network.tasks rnd dst net0.blocks.length) before
      (tickStart (some net0) net0.blocks.length modelTime) = some st)
    (hstep : tickStep (Network.tasks rnd dst net0.blocks.length) (TickChoice.handle i) st =
      some st1)
    (hafter : runSchedule (Network.tasks rnd dst net0.blocks.length) after st1 = some st2)
    (hw : st.world = some net) (hw1 : st1.world = some net1) (hw2 : st2.world = some net2)
    (hout : key ∉ net.held j) (hin : key ∈ net1.held j)
    (hsnap : st.tasks[j]? = some TaskState.finished ∨
      ∃ todo : List Int, st.tasks[j]? = some (TaskState.running todo))
    (htick : st2.modelTime = st1.modelTime) :
    net2.store.get key = net1.store.get key ∧
    key ∈ net2.held j ∧
    (∃ events : List TickEvent, st2.log = st1.log ++ events ∧
      TickEvent.handle j key ∉ events) ∧
    (∀ (m : Nat) (k : Int), k ∈ handledBy m st2.log →
      ∃ keys : List Int, snapshotsOf m st2.log = [keys] ∧ k ∈ keys) ∧
    (∀ (m : Nat) (st3 : TickState (Option Network)),
      tickStep (Network.tasks rnd dst net0.blocks.length) (TickChoice.snapshot m) st2 =
        some st3 →
      st3.log = st2.log ++ [TickEvent.snapshot m (st2.world.elim [] fun w => w.held m)]) ∧
    (∀ (c : TickChoice) (st3 : TickState (Option Network)),
      tickStep (Network.tasks rnd dst net0.blocks.length) c st2 = some st3 →
      st3.modelTime ≠ st2.modelTime →
      (∀ t ∈ st2.tasks, t = TaskState.finished) ∧ st3.modelTime = st2.modelTime + 1) := by
  have hinv0 := Network.tickStart_TickInvariant net0 net0.blocks.length modelTime hwf
  have hinv := Network.runSchedule_TickInvariant rnd dst _ before _ st hbefore hinv0
  have hinv1 := Network.tickStep_TickInvariant rnd dst _ _ st st1 hstep hinv
  obtain ⟨-, -, hset⟩ := Network.handover_Settled rnd dst _ i j key st st1 net net1 hinv hstep
    hw hw1 hout hin hsnap
  obtain ⟨-, hlog, hworld⟩ := Network.runSchedule_Settled rnd dst _ j key _ _ after st1 st2
    hafter htick hinv1 hset
  have hrun : runSchedule (Network.tasks rnd dst net0.blocks.length)
      (before ++ TickChoice.handle i :: after)
      (tickStart (some net0) net0.blocks.length modelTime) = some st2 := by
    rw [runSchedule_append, hbefore]
    simp only [Option.some_bind, runSchedule, hstep]
    exact hafter
  have hlen : (Network.tasks rnd dst net0.blocks.length).length = net0.blocks.length := by
    simp [Network.tasks]
  have hrun2 : runSchedule (Network.tasks rnd dst net0.blocks.length)
      (before ++ TickChoice.handle i :: after)
      (tickStart (some net0) (Network.tasks rnd dst net0.blocks.length).length modelTime) =
      some st2 := by
    rw [hlen]; exact hrun
  obtain ⟨hown, -, hsnapshot, hclock⟩ := tick_handles_own_snapshot
    (Network.tasks rnd dst net0.blocks.length) (some net0) modelTime _ st2 hrun2
  refine ⟨(hworld net2 hw2).1, (hworld net2 hw2).2, hlog, hown, ?_, hclock⟩
  intro m st3 h3
  obtain ⟨b, hb, hl⟩ := hsnapshot m st3 h3
  rw [hl, Network.tasks_get rnd dst _ m b hb, hw2]
  rfl

theorem Network.handed_over_waits_for_next_tick_witness :
    pairEndNetwork.store.get 1 = pairHandedNetwork.store.get 1 ∧
    1 ∈ pairEndNetwork.held 1 ∧
    (∃ events : List TickEvent, pairEnd.log = pairHanded.log ++ events ∧
      TickEvent.handle 1 1 ∉ events) :=
  ⟨(Network.handed_over_waits_for_next_tick (fun _ => 0) pairDst pairNetwork 3
      [TickChoice.call 0, TickChoice.call 1, TickChoice.snapshot 1, TickChoice.snapshot 0]
      [TickChoice.handle 1, TickChoice.finish 1, TickChoice.finish 0] 0 1 1
      pairSnapshots pairHanded pairEnd pairNetwork pairHandedNetwork pairEndNetwork
      (by decide) (by decide) rfl rfl rfl rfl rfl rfl (by decide) (by decide)
      (Or.inr ⟨[2], rfl⟩) rfl).1,
   (Network.handed_over_waits_for_next_tick (fun _ => 0) pairDst pairNetwork 3
      [TickChoice.call 0, TickChoice.call 1, TickChoice.snapshot 1, TickChoice.snapshot 0]
      [TickChoice.handle 1, TickChoice.finish 1, TickChoice.finish 0] 0 1 1
      pairSnapshots pairHanded pairEnd pairNetwork pairHandedNetwork pairEndNetwork
      (by decide) (by decide) rfl rfl rfl rfl rfl rfl (by decide) (by decide)
      (Or.inr ⟨[2], rfl⟩) rfl).2.1,
   (Network.handed_over_waits_for_next_tick (fun _ => 0) pairDst pairNetwork 3
      [TickChoice.call 0, TickChoice.call 1, TickChoice.snapshot 1, TickChoice.snapshot 0]
      [TickChoice.handle 1, TickChoice.finish 1, TickChoice.finish 0] 0 1 1
      pairSnapshots pairHanded pairEnd pairNetwork pairHandedNetwork pairEndNetwork
      (by decide) (by decide) rfl rfl rfl rfl rfl rfl (by decide) (by decide)
      (Or.inr ⟨[2], rfl⟩) rfl).2.2.1⟩

/-! ## Transaction: SetParameters -/

theorem lastValueOf_nil (name : String) : lastValueOf [] name = none := rfl

theorem lastValueOf_cons (p : Parameter) (rest : List Parameter) (name : String) :
    lastValueOf (p :: rest) name =
      match lastValueOf rest name with
      | some v => some v
      | none => if p.Name = name then some p.Value else none := by
  unfold lastValueOf
  by_cases hp : p.Name = name
  · have hb : (p.Name == name) = true := by simpa using hp
    have hf : (p :: rest).filter (fun q => q.Name == name) =
        p :: rest.filter (fun q => q.Name == name) := by
      rw [List.filter_cons, if_pos hb]
    rw [hf, List.getLast?_cons, if_pos hp]
    cases (List.filter (fun q => q.Name == name) rest).getLast? with
    | none => rfl
    | some q => rfl
  · have hb : ¬ (p.Name == name) = true := by simpa using hp
    have hf : (p :: rest).filter (fun q => q.Name == name) =
        rest.filter (fun q => q.Name == name) := by
      rw [List.filter_cons, if_neg hb]
    rw [hf, if_neg hp]
    cases (List.filter (fun q => q.Name == name) rest).getLast? with
    | none => rfl
    | some q => rfl

theorem lastValueOf_isSome_iff (ps : List Parameter) (name : String) :
    (lastValueOf ps name).isSome = true ↔ ∃ p ∈ ps, p.Name = name := by
  induction ps with
  | nil => simp [lastValueOf_nil]
  | cons p rest ih =>
    rw [lastValueOf_cons]
    cases hl : lastValueOf rest name with
    | some v =>
      rw [hl] at ih
      obtain ⟨q, hq, hname⟩ := ih.mp rfl
      simp only [Option.isSome_some, true_iff]
      exact ⟨q, List.mem_cons_of_mem p hq, hname⟩
    | none =>
      rw [hl] at ih
      have hnone : ¬ ∃ q ∈ rest, q.Name = name := fun h => by
        have := ih.mpr h
        simp at this
      by_cases hp : p.Name = name
      · simp only [hp, if_true, Option.isSome_some, true_iff]
        exact ⟨p, List.mem_cons_self p rest, hp⟩
      · simp only [hp, if_false, Option.isSome_none, Bool.false_eq_true, false_iff]
        rintro ⟨q, hq, hname⟩
        rcases List.mem_cons.mp hq with h | h
        · exact hp (h ▸ hname)
        · exact hnone ⟨q, h, hname⟩

theorem mapIndex_mapDelete_self (m : ParamMap) (k : String) :
    mapIndex (mapDelete m k) k = none ∧ mapHasKey (mapDelete m k) k = false := by
  induction m with
  | nil => exact ⟨rfl, rfl⟩
  | cons e rest ih =>
    obtain ⟨k1, v1⟩ := e
    by_cases h1 : k1 = k
    · subst h1
      have : mapDelete ((k1, v1) :: rest) k1 = mapDelete rest k1 := by
        simp [mapDelete, List.filter]
      rw [this]
      exact ih
    · have : mapDelete ((k1, v1) :: rest) k = (k1, v1) :: mapDelete rest k := by
        have hb : (k1 != k) = true := by simpa using h1
        simp [mapDelete, List.filter_cons, hb]
      rw [this, mapIndex_cons, mapHasKey_cons, if_neg (Ne.symm h1), if_neg (Ne.symm h1)]
      exact ih

theorem setParameter_at (m : ParamMap) (p : Parameter) (name : String) :
    mapIndex (Transaction.setParameter m p) name =
      (if name = p.Name then p.Value else mapIndex m name) ∧
    mapHasKey (Transaction.setParameter m p) name =
      (if name = p.Name then p.Value.isSome else mapHasKey m name) := by
  unfold Transaction.setParameter
  cases hv : p.Value with
  | none =>
    simp only [bne_self_eq_false, Bool.false_eq_true, if_false, Option.isSome_none]
    by_cases hn : name = p.Name
    · subst hn
      simp only [if_true]
      exact mapIndex_mapDelete_self m p.Name
    · simp only [hn, if_false]
      exact ⟨mapIndex_mapDelete_of_ne m p.Name name hn, mapHasKey_mapDelete_of_ne m p.Name name hn⟩
  | some x =>
    have hb : (some x != (none : Iface)) = true := by simp
    simp only [hb, if_true, Option.isSome_some, mapAssign]
    rw [mapIndex_cons, mapHasKey_cons]
    by_cases hn : name = p.Name
    · simp [hn]
    · simp only [hn, if_false]
      exact ⟨mapIndex_mapDelete_of_ne m p.Name name hn, mapHasKey_mapDelete_of_ne m p.Name name hn⟩

theorem foldl_setParameter_at (ps : List Parameter) (name : String) :
    ∀ m : ParamMap,
      mapIndex (ps.foldl Transaction.setParameter m) name =
        (match lastValueOf ps name with
          | some v => v
          | none => mapIndex m name) ∧
      mapHasKey (ps.foldl Transaction.setParameter m) name =
        (match lastValueOf ps name with
          | some v => v.isSome
          | none => mapHasKey m name) := by
  induction ps with
  | nil => intro m; exact ⟨rfl, rfl⟩
  | cons p rest ih =>
    intro m
    simp only [List.foldl_cons]
    have h1 := ih (Transaction.setParameter m p)
    have h2 := setParameter_at m p name
    rw [lastValueOf_cons]
    cases hl : lastValueOf rest name with
    | some v =>
      rw [hl] at h1
      exact h1
    | none =>
      rw [hl] at h1
      simp only at h1 ⊢
      rw [h1.1, h1.2, h2.1, h2.2]
      by_cases hn : p.Name = name
      · simp [hn]
      · have hn1 : ¬ name = p.Name := fun h => hn h.symm
        simp [hn, hn1]

/-- C21: after SetParameters(ps), for a name that occurs in ps the value that
GetParameterByName returns is the value of the last entry of ps with that
name, and the key is in GetAllParameters exactly when that value is not nil
(a nil value removes the key, and the parameter then reads as nil); for a
name that does not occur in ps, the presence of the key and the value are
as before.  A name occurs in ps exactly when ps has a last entry with that
name. -/
theorem Transaction.SetParameters_last_entry (t : Transaction) (ps : List Parameter)
    (name : String) :
    ((∃ p ∈ ps, p.Name = name) ↔ ∃ v : Iface, lastValueOf ps name = some v) ∧
    (∀ v : Iface, lastValueOf ps name = some v →
      (t.SetParameters ps).GetParameterByName name = v ∧
      mapHasKey (t.SetParameters ps).GetAllParameters name = v.isSome ∧
      (v = none → mapHasKey (t.SetParameters ps).GetAllParameters name = false ∧
        (t.SetParameters ps).GetParameterByName name = none)) ∧
    ((∀ p ∈ ps, p.Name ≠ name) →
      (t.SetParameters ps).GetParameterByName name = t.GetParameterByName name ∧
      mapHasKey (t.SetParameters ps).GetAllParameters name =
        mapHasKey t.GetAllParameters name) := by
  have hfold := foldl_setParameter_at ps name t.parameters
  have hocc := lastValueOf_isSome_iff ps name
  refine ⟨?_, ?_, ?_⟩
  · rw [← hocc]
    cases lastValueOf ps name with
    | none => simp
    | some v => simp
  · intro v hv
    rw [hv] at hfold
    simp only [Transaction.SetParameters, Transaction.GetParameterByName,
      Transaction.GetAllParameters]
    refine ⟨hfold.1, hfold.2, ?_⟩
    intro hnil
    subst hnil
    exact ⟨hfold.2, hfold.1⟩
  · intro hnot
    have hnone : lastValueOf ps name = none := by
      cases hl : lastValueOf ps name with
      | none => rfl
      | some v =>
        rw [hl] at hocc
        obtain ⟨p, hp, hname⟩ := hocc.mp rfl
        exact absurd hname (hnot p hp)
    rw [hnone] at hfold
    simp only [Transaction.SetParameters, Transaction.GetParameterByName,
      Transaction.GetAllParameters]
    exact hfold

end Gpss
